import Mathlib

/-!
Verification of the SRT subtitle parsing core of `srt-to-docx-converter`.

The embedding models the two parser implementations of the repository:
`src/srt_parser.py` (desktop pipeline, class `SRTParser` with
`SubtitleEntry` records) and the `SRTParser` class of `src/app.py`
(web pipeline, dict records).  Both use a pattern-based tier compiled
from the same class constant `BLOCK_PATTERN` and an identical line-based
fallback tier (`_block_parse`), but the pattern tiers differ in one
point: `_regex_parse` of `src/srt_parser.py` drops a match whose
sanitized text is empty (`if text:`), while `_regex_parse` of
`src/app.py` appends the record unconditionally, so the web pattern tier
can return records with empty text.  The two are therefore modelled by
two separate functions, `regexParse` and `regexParseWeb`.

Strings are modelled as `List Char`.  The Python regex character classes
`\d` and `\s`, and the whitespace set of `str.strip`, are modelled as the
ASCII decimal digits and the six ASCII whitespace characters
` \t\n\r\x0b\x0c`; the Unicode extensions of those classes play no role
in any claim considered here and every concrete input used below is
ASCII.  Bytes are modelled as `Fin 256`.
-/

namespace SrtSpec

/-- The character class of the Python regex `\d` (ASCII decimal digits). -/
def isDigitC (c : Char) : Bool := c.isDigit

/-- The character class of the Python regex `\s` and of `str.strip`:
the six ASCII whitespace characters. -/
def isSpaceC (c : Char) : Bool :=
  c = ' ' || c = '\t' || c = '\n' || c = '\r' || c = '\x0b' || c = '\x0c'

/-- Python `str.strip()`: drop leading and trailing whitespace. -/
def pyStrip (l : List Char) : List Char :=
  ((l.dropWhile isSpaceC).reverse.dropWhile isSpaceC).reverse

/-- Python `s.split('\n')`: split on every newline, keeping empty pieces. -/
def splitLines : List Char → List (List Char)
  | [] => [[]]
  | '\n' :: t => [] :: splitLines t
  | c :: t =>
    match splitLines t with
    | h :: r => (c :: h) :: r
    | [] => [[c]]

/-- Python `s.split('\n\n')`: split on every non-overlapping occurrence of
two consecutive newlines, scanning from the left. -/
def splitNN : List Char → List (List Char)
  | [] => [[]]
  | '\n' :: '\n' :: t => [] :: splitNN t
  | c :: t =>
    match splitNN t with
    | h :: r => (c :: h) :: r
    | [] => [[c]]

/-- Numeric value of a list of ASCII digit characters
(the effect of Python `int` on a `\d+` capture). -/
def natOfDigits (l : List Char) : Nat :=
  l.foldl (fun a c => a * 10 + (c.toNat - 48)) 0

/-- Digit tail of Python `int`: after the first digit, digits possibly
separated by single underscores. -/
def pyIntRest (acc : Nat) : List Char → Option Nat
  | [] => some acc
  | '_' :: c :: t =>
    if isDigitC c then pyIntRest (acc * 10 + (c.toNat - 48)) t else none
  | ['_'] => none
  | c :: t =>
    if isDigitC c then pyIntRest (acc * 10 + (c.toNat - 48)) t else none

/-- Unsigned part of Python `int`: at least one digit, underscores only
between digits. -/
def pyIntNat : List Char → Option Nat
  | c :: t => if isDigitC c then pyIntRest (c.toNat - 48) t else none
  | [] => none

/-- Python `int(s)` on a string: strip whitespace, optional sign, digits
with optional single underscores between digits; `none` models the
`ValueError` branch. -/
def pyInt (l : List Char) : Option Int :=
  match pyStrip l with
  | '+' :: t => (pyIntNat t).map Int.ofNat
  | '-' :: t => (pyIntNat t).map (fun n => -(n : Int))
  | t => (pyIntNat t).map Int.ofNat

/-- One global-substitution scan of the tag pattern
`TAG_PATTERN = re.compile(r'<[^>]+>|\x7b[^\x7d]+\x7d')` with replacement
by the empty string (`TAG_PATTERN.sub('', text)`).  At a `<`, the greedy
`[^>]+` takes the maximal run of non-`>` characters and then requires a
`>`; the match fails exactly when that run is empty (next character is
`>`) or no `>` follows at all, in which case the `<` is kept and scanning
resumes at the next character.  Brace directives behave the same way. -/
def tagSubF : Nat → List Char → List Char
  | 0, _ => []
  | _ + 1, [] => []
  | f + 1, c :: t =>
    if c = '<' then
      if (t.takeWhile (fun x => x ≠ '>')).length = 0 ∨
         (t.takeWhile (fun x => x ≠ '>')).length = t.length
      then c :: tagSubF f t
      else tagSubF f (t.drop ((t.takeWhile (fun x => x ≠ '>')).length + 1))
    else if c = '{' then
      if (t.takeWhile (fun x => x ≠ '}')).length = 0 ∨
         (t.takeWhile (fun x => x ≠ '}')).length = t.length
      then c :: tagSubF f t
      else tagSubF f (t.drop ((t.takeWhile (fun x => x ≠ '}')).length + 1))
    else c :: tagSubF f t

/-- The scan itself, with enough fuel for the whole input. -/
def tagSub (l : List Char) : List Char := tagSubF l.length l

theorem drop_len_le (k : Nat) (t : List Char) : (t.drop k).length ≤ t.length := by
  simp [Nat.sub_le]

theorem tagSubF_congr : ∀ (f1 : Nat) (l : List Char) (f2 : Nat),
    l.length ≤ f1 → l.length ≤ f2 → tagSubF f1 l = tagSubF f2 l := by
  intro f1
  induction f1 with
  | zero =>
    intro l f2 h1 _
    rw [List.length_eq_zero.1 (Nat.le_zero.1 h1)]
    cases f2 <;> rfl
  | succ f ih =>
    intro l f2 h1 h2
    cases l with
    | nil => cases f2 <;> rfl
    | cons c t =>
      cases f2 with
      | zero => simp at h2
      | succ f2' =>
        simp only [List.length_cons, Nat.succ_le_succ_iff] at h1 h2
        rw [tagSubF, tagSubF]
        have hd1 : (t.drop ((t.takeWhile (fun x => x ≠ '>')).length + 1)).length ≤ f :=
          le_trans (drop_len_le _ _) h1
        have hd2 : (t.drop ((t.takeWhile (fun x => x ≠ '>')).length + 1)).length ≤ f2' :=
          le_trans (drop_len_le _ _) h2
        have he1 : (t.drop ((t.takeWhile (fun x => x ≠ '}')).length + 1)).length ≤ f :=
          le_trans (drop_len_le _ _) h1
        have he2 : (t.drop ((t.takeWhile (fun x => x ≠ '}')).length + 1)).length ≤ f2' :=
          le_trans (drop_len_le _ _) h2
        by_cases hc : c = '<'
        · rw [if_pos hc, if_pos hc]
          split
          · rw [ih t f2' h1 h2]
          · rw [ih _ f2' hd1 hd2]
        · rw [if_neg hc, if_neg hc]
          by_cases hb : c = '{'
          · rw [if_pos hb, if_pos hb]
            split
            · rw [ih t f2' h1 h2]
            · rw [ih _ f2' he1 he2]
          · rw [if_neg hb, if_neg hb, ih t f2' h1 h2]

theorem tagSubF_eq_tagSub {f : Nat} {l : List Char} (h : l.length ≤ f) :
    tagSubF f l = tagSub l :=
  tagSubF_congr f l l.length h (le_refl _)

theorem tagSub_nil : tagSub [] = [] := rfl

theorem tagSub_lt (t : List Char) :
    tagSub ('<' :: t) =
      if (t.takeWhile (fun x => x ≠ '>')).length = 0 ∨
         (t.takeWhile (fun x => x ≠ '>')).length = t.length
      then '<' :: tagSub t
      else tagSub (t.drop ((t.takeWhile (fun x => x ≠ '>')).length + 1)) := by
  show tagSubF (t.length + 1) ('<' :: t) = _
  rw [tagSubF, if_pos rfl]
  split
  · rw [tagSubF_eq_tagSub (le_refl _)]
  · rw [tagSubF_eq_tagSub (drop_len_le _ _)]

theorem tagSub_brace (t : List Char) :
    tagSub ('{' :: t) =
      if (t.takeWhile (fun x => x ≠ '}')).length = 0 ∨
         (t.takeWhile (fun x => x ≠ '}')).length = t.length
      then '{' :: tagSub t
      else tagSub (t.drop ((t.takeWhile (fun x => x ≠ '}')).length + 1)) := by
  show tagSubF (t.length + 1) ('{' :: t) = _
  rw [tagSubF, if_neg (by decide), if_pos rfl]
  split
  · rw [tagSubF_eq_tagSub (le_refl _)]
  · rw [tagSubF_eq_tagSub (drop_len_le _ _)]

theorem tagSub_cons {c : Char} (t : List Char) (h1 : c ≠ '<') (h2 : c ≠ '{') :
    tagSub (c :: t) = c :: tagSub t := by
  show tagSubF (t.length + 1) (c :: t) = _
  rw [tagSubF, if_neg h1, if_neg h2, tagSubF_eq_tagSub (le_refl _)]

/-- `SRTParser._clean_subtitle_text`: remove tags, strip the whole
fragment, then split into lines, strip each line, drop lines that became
empty, and rejoin with single newlines.  (`_clean_text` of `src/app.py`
is identical except that it omits the whole-fragment strip, which the
per-line strip-and-filter makes a no-op.) -/
def cleanSubtitleText (text : List Char) : List Char :=
  let t1 := pyStrip (tagSub text)
  List.intercalate ['\n'] (((splitLines t1).map pyStrip).filter (fun l => l ≠ []))

/-- Anchored match of one timestamp group `\d{2}:\d{2}:\d{2}[,\.]\d{3}`:
returns the twelve matched characters and the rest of the input. -/
def tsMatch : List Char → Option (List Char × List Char)
  | h1 :: h2 :: ':' :: m1 :: m2 :: ':' :: s1 :: s2 :: sep :: f1 :: f2 :: f3 :: rest =>
    if isDigitC h1 && isDigitC h2 && isDigitC m1 && isDigitC m2 &&
       isDigitC s1 && isDigitC s2 && (sep = ',' || sep = '.') &&
       isDigitC f1 && isDigitC f2 && isDigitC f3 then
      some ([h1, h2, ':', m1, m2, ':', s1, s2, sep, f1, f2, f3], rest)
    else none
  | _ => none

/-- Position `i` holds a digit. -/
def digAt (l : List Char) (i : Nat) : Bool :=
  match l.get? i with
  | some c => isDigitC c
  | none => false

/-- Position `i` holds exactly the character `c`. -/
def chAt (l : List Char) (i : Nat) (c : Char) : Bool :=
  l.get? i = some c

/-- Anchored test for the eight-character shape `\d{2}:\d{2}:\d{2}` used
by the negative lookahead of `BLOCK_PATTERN`. -/
def ts8 (l : List Char) : Bool :=
  digAt l 0 && digAt l 1 && chAt l 2 ':' && digAt l 3 && digAt l 4 && chAt l 5 ':' &&
  digAt l 6 && digAt l 7

/-- Anchored match of `TIMESTAMP_PATTERN`, the timestamp-pair grammar
`(\d{2}:\d{2}:\d{2}[,\.]\d{3})\s*-->\s*(\d{2}:\d{2}:\d{2}[,\.]\d{3})`
(as used by `re.match`, so anchored at the start and with trailing
content ignored).  Returns the two captured groups. -/
def tsPairMatch (l : List Char) : Option (List Char × List Char) :=
  match tsMatch l with
  | none => none
  | some (g1, r1) =>
    match (r1.dropWhile isSpaceC) with
    | '-' :: '-' :: '>' :: r2 =>
      match tsMatch (r2.dropWhile isSpaceC) with
      | none => none
      | some (g2, _) => some (g1, g2)
    | _ => none

/-- Python `s.replace('\r\n', '\n')`: leftmost non-overlapping scan. -/
def replCRLF : List Char → List Char
  | [] => []
  | [c] => [c]
  | c :: d :: t =>
    if c = '\r' ∧ d = '\n' then '\n' :: replCRLF t
    else c :: replCRLF (d :: t)

/-- Python `s.replace('\r', '\n')`. -/
def replCR (l : List Char) : List Char :=
  l.map (fun c => if c = '\r' then '\n' else c)

/-- Python `s.lstrip('﻿')`: drop every leading byte-order mark. -/
def lstripBOM (l : List Char) : List Char :=
  l.dropWhile (fun c => c = '﻿')

/-- `SRTParser._clean_content` of `src/srt_parser.py`: normalize line
endings, strip leading BOMs, then strip surrounding whitespace. -/
def cleanContent (content : List Char) : List Char :=
  pyStrip (lstripBOM (replCR (replCRLF content)))

/-- The normalization step of `SRTParser.parse` in `src/app.py`:
normalize line endings, strip surrounding whitespace, then strip leading
BOMs (note the order differs from `_clean_content`). -/
def cleanContentWeb (content : List Char) : List Char :=
  lstripBOM (pyStrip (replCR (replCRLF content)))

/-! ### The pattern-based tier: `BLOCK_PATTERN` and `_regex_parse`

`BLOCK_PATTERN` is

    (\d+)\s*\n
    (\d{2}:\d{2}:\d{2}[,\.]\d{3})\s*-->\s*(\d{2}:\d{2}:\d{2}[,\.]\d{3})\s*\n
    ((?:(?!\d+\s*\n\d{2}:\d{2}:\d{2}).+\n?)+)

compiled with `re.MULTILINE` (which only affects `^`/`$`, absent here);
`.` does not match a newline.  The match at a given position is
deterministic except for one backtracking point, reflected below:

* `\d+` is never shortened (a shorter run leaves a digit where `\s*\n`
  would need whitespace or a newline);
* each `\s*\n` consumes its maximal whitespace run up to the run's last
  newline; for the one before the timestamps, positions after an earlier
  newline are followed by more whitespace where a digit is required, so
  no other alternative can succeed;
* the `\s*\n` before the text body genuinely backtracks: if the body is
  empty when starting after the run's last newline, earlier newlines of
  the run are tried in right-to-left order (the leftover whitespace then
  becomes body text);
* `\s*-->` and `-->\s*` consume maximal whitespace runs (shortening
  leaves whitespace where `-` or a digit is required);
* the body `(?:(?!H).+\n?)+` consumes, line by line, every nonempty line
  at whose start the lookahead `H = \d+\s*\n\d{2}:\d{2}:\d{2}` fails,
  taking each line's trailing newline when present.
-/

/-- The suffix of a string after its last newline. -/
def afterLastNl (w : List Char) : List Char :=
  (w.reverse.takeWhile (fun c => c ≠ '\n')).reverse

/-- The negative lookahead `\d+\s*\n\d{2}:\d{2}:\d{2}` of `BLOCK_PATTERN`:
a digit run, then a whitespace run containing a newline (consumed to its
last newline; after any earlier newline more whitespace follows where a
digit is required), then the eight-character timestamp prefix. -/
def lookaheadHeader (l : List Char) : Bool :=
  let d := l.takeWhile isDigitC
  let r := l.drop d.length
  let w := r.takeWhile isSpaceC
  !d.isEmpty && w.contains '\n' && ts8 (afterLastNl w ++ r.drop w.length)

/-- Split off the first line: characters before the first newline, and
the remainder (empty or beginning with that newline). -/
def lineSplit : List Char → List Char × List Char
  | [] => ([], [])
  | '\n' :: t => ([], '\n' :: t)
  | c :: t => let p := lineSplit t; (c :: p.1, p.2)

theorem lineSplit_snd_length (l : List Char) : (lineSplit l).2.length ≤ l.length := by
  induction l with
  | nil => simp [lineSplit]
  | cons c t ih =>
    by_cases h : c = '\n'
    · subst h; simp [lineSplit]
    · rw [show lineSplit (c :: t) = ⟨c :: (lineSplit t).1, (lineSplit t).2⟩ from by
        cases t <;> simp_all [lineSplit]]
      exact Nat.le_succ_of_le ih

/-- The text-body engine `(?:(?!H).+\n?)+` of `BLOCK_PATTERN`: consume
lines while nonempty and not at a next-block header, returning the
captured body and the rest of the input. -/
def bodyScanF : Nat → List Char → List Char × List Char
  | 0, l => ([], l)
  | _ + 1, [] => ([], [])
  | f + 1, c :: t =>
    if c = '\n' ∨ lookaheadHeader (c :: t) then ([], c :: t)
    else
      if (lineSplit t).2 = [] then (c :: (lineSplit t).1, [])
      else
        (c :: (lineSplit t).1 ++ '\n' :: (bodyScanF f (lineSplit t).2.tail).1,
          (bodyScanF f (lineSplit t).2.tail).2)

/-- The body engine with enough fuel for the whole input. -/
def bodyScan (l : List Char) : List Char × List Char := bodyScanF l.length l

theorem bodyScanF_congr : ∀ (f1 : Nat) (l : List Char) (f2 : Nat),
    l.length ≤ f1 → l.length ≤ f2 → bodyScanF f1 l = bodyScanF f2 l := by
  intro f1
  induction f1 with
  | zero =>
    intro l f2 h1 _
    rw [List.length_eq_zero.1 (Nat.le_zero.1 h1)]
    cases f2 <;> rfl
  | succ f ih =>
    intro l f2 h1 h2
    cases l with
    | nil => cases f2 <;> rfl
    | cons c t =>
      cases f2 with
      | zero => simp at h2
      | succ f2' =>
        simp only [List.length_cons, Nat.succ_le_succ_iff] at h1 h2
        rw [bodyScanF, bodyScanF]
        have htail : (lineSplit t).2.tail.length ≤ t.length :=
          le_trans (List.length_tail _ ▸ Nat.sub_le _ _) (lineSplit_snd_length t)
        rw [ih (lineSplit t).2.tail f2' (le_trans htail h1) (le_trans htail h2)]

theorem bodyScanF_eq_bodyScan {f : Nat} {l : List Char} (h : l.length ≤ f) :
    bodyScanF f l = bodyScan l :=
  bodyScanF_congr f l l.length h (le_refl _)

/-- Suffixes after each newline of a string, in left-to-right order of
the newline. -/
def nlSuffixes : List Char → List (List Char)
  | [] => []
  | '\n' :: t => t :: nlSuffixes t
  | _ :: t => nlSuffixes t

/-- Backtracking over the candidate body start positions (one per
newline of the final `\s*\n` whitespace run, rightmost first): return
the first candidate whose body is nonempty. -/
def tryBodies (cands : List (List Char)) (rest : List Char) : Option (List Char × List Char) :=
  match cands with
  | [] => none
  | q :: qs =>
    let p := bodyScan (q ++ rest)
    if p.1 = [] then tryBodies qs rest else some p

/-- The part of a `BLOCK_PATTERN` match after the index capture `(\d+)`:
`\s*\n`, the two timestamp captures around `\s*-->\s*`, `\s*\n`, and the
body capture.  Returns the two timestamp groups, the body group and the
rest of the input after the match. -/
def matchAfterIdx (r1 : List Char) : Option (List Char × List Char × List Char × List Char) :=
  if ¬ (r1.takeWhile isSpaceC).contains '\n' then none
  else
    match tsMatch (afterLastNl (r1.takeWhile isSpaceC) ++ r1.drop (r1.takeWhile isSpaceC).length) with
    | none => none
    | some (g2, r3) =>
      match r3.dropWhile isSpaceC with
      | '-' :: '-' :: '>' :: r4 =>
        match tsMatch (r4.dropWhile isSpaceC) with
        | none => none
        | some (g3, r5) =>
          match tryBodies (nlSuffixes (r5.takeWhile isSpaceC)).reverse
              (r5.drop (r5.takeWhile isSpaceC).length) with
          | none => none
          | some (body, after) => some (g2, g3, body, after)
      | _ => none

/-- Attempted match of `BLOCK_PATTERN` anchored at the head of `l`:
index digits, then `matchAfterIdx`.  Returns the four capture groups and
the rest of the input after the match. -/
def matchBlockAt (l : List Char) :
    Option (List Char × List Char × List Char × List Char × List Char) :=
  if l.takeWhile isDigitC = [] then none
  else
    match matchAfterIdx (l.drop (l.takeWhile isDigitC).length) with
    | none => none
    | some (g2, g3, body, after) =>
      some (l.takeWhile isDigitC, g2, g3, body, after)

theorem takeWhile_len_le (p : Char → Bool) (l : List Char) :
    (l.takeWhile p).length ≤ l.length :=
  (List.takeWhile_sublist p).length_le

theorem dropWhile_len_le (p : Char → Bool) (l : List Char) :
    (l.dropWhile p).length ≤ l.length :=
  (List.dropWhile_sublist p).length_le

theorem length_takeWhile_lt_of_mem {p : Char → Bool} {l : List Char} {x : Char}
    (hx : x ∈ l) (hpx : p x = false) : (l.takeWhile p).length < l.length := by
  induction l with
  | nil => cases hx
  | cons c t ih =>
    by_cases hc : p c = true
    · rw [List.takeWhile_cons_of_pos hc]
      rcases List.mem_cons.1 hx with rfl | hxt
      · rw [hpx] at hc; cases hc
      · exact Nat.succ_lt_succ (ih hxt)
    · rw [List.takeWhile_cons_of_neg hc]
      simp

theorem afterLastNl_length {w : List Char} (h : '\n' ∈ w) :
    (afterLastNl w).length < w.length := by
  unfold afterLastNl
  rw [List.length_reverse]
  have := @length_takeWhile_lt_of_mem (fun c => decide (c ≠ '\n'))
    w.reverse '\n' (List.mem_reverse.2 h) (by simp)
  simpa using this

theorem nlSuffixes_mem_length {w q : List Char} (h : q ∈ nlSuffixes w) :
    q.length < w.length := by
  induction w with
  | nil => cases h
  | cons c t ih =>
    by_cases hc : c = '\n'
    · subst hc
      rw [show nlSuffixes ('\n' :: t) = t :: nlSuffixes t from rfl] at h
      rcases List.mem_cons.1 h with rfl | h2
      · simp
      · exact Nat.lt_succ_of_lt (ih h2)
    · rw [show nlSuffixes (c :: t) = nlSuffixes t from by
        cases t <;> simp_all [nlSuffixes]] at h
      exact Nat.lt_succ_of_lt (ih h)

theorem bodyScan_nil : bodyScan [] = ([], []) := rfl

theorem bodyScan_stop {c : Char} {t : List Char}
    (h : c = '\n' ∨ lookaheadHeader (c :: t) = true) :
    bodyScan (c :: t) = ([], c :: t) := by
  show bodyScanF (t.length + 1) (c :: t) = _
  rw [bodyScanF, if_pos h]

theorem bodyScan_line {c : Char} {t line r2 : List Char}
    (h : ¬(c = '\n' ∨ lookaheadHeader (c :: t) = true))
    (heq : lineSplit t = (line, '\n' :: r2)) :
    bodyScan (c :: t) = (c :: line ++ '\n' :: (bodyScan r2).1, (bodyScan r2).2) := by
  have hlen : r2.length ≤ t.length := by
    have := lineSplit_snd_length t
    rw [heq] at this
    simp at this
    omega
  show bodyScanF (t.length + 1) (c :: t) = _
  rw [bodyScanF, if_neg h, heq]
  simp only [List.tail_cons]
  rw [bodyScanF_eq_bodyScan hlen]
  simp

theorem bodyScan_last {c : Char} {t line : List Char}
    (h : ¬(c = '\n' ∨ lookaheadHeader (c :: t) = true))
    (heq : lineSplit t = (line, [])) :
    bodyScan (c :: t) = (c :: line, []) := by
  show bodyScanF (t.length + 1) (c :: t) = _
  rw [bodyScanF, if_neg h, heq]
  simp

theorem bodyScanF_snd_length : ∀ (f : Nat) (l : List Char),
    (bodyScanF f l).2.length ≤ l.length := by
  intro f
  induction f with
  | zero => intro l; rw [bodyScanF]
  | succ f ih =>
    intro l
    cases l with
    | nil => rw [bodyScanF]
    | cons c t =>
      rw [bodyScanF]
      by_cases h : c = '\n' ∨ lookaheadHeader (c :: t) = true
      · rw [if_pos h]
      · rw [if_neg h]
        by_cases h2 : (lineSplit t).2 = []
        · rw [if_pos h2]
          simp
        · rw [if_neg h2]
          have h3 := ih (lineSplit t).2.tail
          have h4 : (lineSplit t).2.tail.length ≤ t.length :=
            le_trans (List.length_tail _ ▸ Nat.sub_le _ _) (lineSplit_snd_length t)
          simp only [List.length_cons]
          omega

theorem bodyScan_snd_length (l : List Char) : (bodyScan l).2.length ≤ l.length :=
  bodyScanF_snd_length l.length l

theorem tryBodies_spec {cands : List (List Char)} {rest : List Char} {p} :
    tryBodies cands rest = some p → ∃ q ∈ cands, bodyScan (q ++ rest) = p ∧ p.1 ≠ [] := by
  induction cands with
  | nil => intro h; cases h
  | cons q qs ih =>
    intro h
    rw [tryBodies] at h
    by_cases hb : (bodyScan (q ++ rest)).1 = []
    · rw [if_pos hb] at h
      rcases ih h with ⟨q', hq', he, hne⟩
      exact ⟨q', List.mem_cons_of_mem _ hq', he, hne⟩
    · rw [if_neg hb] at h
      have hp := Option.some.inj h
      exact ⟨q, List.mem_cons_self _ _, hp, hp ▸ hb⟩

theorem tsMatch_eq {l g r : List Char} (h : tsMatch l = some (g, r)) :
    g.length = 12 ∧ l = g ++ r := by
  unfold tsMatch at h
  split at h
  · split at h
    · have h' := Option.some.inj h
      injection h' with e1 e2
      subst e1; subst e2
      exact ⟨rfl, rfl⟩
    · cases h
  · cases h

theorem matchAfterIdx_length {r1 g2 g3 b a : List Char}
    (h : matchAfterIdx r1 = some (g2, g3, b, a)) : a.length < r1.length := by
  unfold matchAfterIdx at h
  split at h
  · cases h
  · rename_i hw1
    split at h
    · cases h
    · rename_i g2' r3 hts1
      split at h
      · rename_i r4 hdrop
        split at h
        · cases h
        · rename_i g3' r5 hts2
          split at h
          · cases h
          · rename_i body after htry
            rcases tryBodies_spec htry with ⟨q, hq, hbody, hne⟩
            -- lengths
            have hq' : q ∈ nlSuffixes (r5.takeWhile isSpaceC) := List.mem_reverse.1 hq
            have h1 : q.length < (r5.takeWhile isSpaceC).length := nlSuffixes_mem_length hq'
            have h2 : (bodyScan (q ++ r5.drop (r5.takeWhile isSpaceC).length)).2.length ≤
                q.length + (r5.drop (r5.takeWhile isSpaceC).length).length := by
              simpa using bodyScan_snd_length (q ++ r5.drop (r5.takeWhile isSpaceC).length)
            have hinj := Option.some.inj h
            have hafter : after = a := by
              have := congrArg (fun x => x.2.2.2) hinj
              simpa using this
            rw [hbody] at h2
            simp at h2
            have hwle : (r5.takeWhile isSpaceC).length ≤ r5.length :=
              takeWhile_len_le isSpaceC r5
            have hdroplen : (r5.drop (r5.takeWhile isSpaceC).length).length =
                r5.length - (r5.takeWhile isSpaceC).length := by simp
            have ha5 : a.length < r5.length := by
              rw [hafter] at h2; omega
            -- r5 against r4
            have hts2' := tsMatch_eq hts2
            have h5 : r5.length + 12 = (r4.dropWhile isSpaceC).length := by
              have := congrArg List.length hts2'.2
              simp [hts2'.1] at this
              omega
            have h6 : (r4.dropWhile isSpaceC).length ≤ r4.length :=
              dropWhile_len_le isSpaceC r4
            -- r4 against r3
            have h7 : r4.length + 3 = (r3.dropWhile isSpaceC).length := by
              have := congrArg List.length hdrop
              simp at this
              omega
            have h8 : (r3.dropWhile isSpaceC).length ≤ r3.length :=
              dropWhile_len_le isSpaceC r3
            -- r3 against the post-newline position
            have hts1' := tsMatch_eq hts1
            have h9 : r3.length + 12 =
                (afterLastNl (r1.takeWhile isSpaceC) ++ r1.drop (r1.takeWhile isSpaceC).length).length := by
              have := congrArg List.length hts1'.2
              simp [hts1'.1] at this
              simp
              omega
            have hnl : '\n' ∈ r1.takeWhile isSpaceC := by
              have := not_not.1 hw1
              simpa [List.contains] using this
            have h10 : (afterLastNl (r1.takeWhile isSpaceC)).length <
                (r1.takeWhile isSpaceC).length := afterLastNl_length hnl
            have h11 : (r1.takeWhile isSpaceC).length ≤ r1.length :=
              takeWhile_len_le isSpaceC r1
            simp at h9
            omega
      · cases h

theorem matchBlockAt_length {l d g2 g3 b a : List Char}
    (h : matchBlockAt l = some (d, g2, g3, b, a)) : a.length < l.length := by
  unfold matchBlockAt at h
  split at h
  · cases h
  · rename_i hd
    split at h
    · cases h
    · rename_i g2' g3' body after hmai
      have hinj := Option.some.inj h
      have : after = a := by
        have := congrArg (fun x => x.2.2.2.2) hinj
        simpa using this
      subst this
      have h1 := matchAfterIdx_length hmai
      have h2 : (l.takeWhile isDigitC).length ≤ l.length := takeWhile_len_le isDigitC l
      have h3 : 0 < (l.takeWhile isDigitC).length := List.length_pos.2 hd
      have h4 : (l.drop (l.takeWhile isDigitC).length).length =
          l.length - (l.takeWhile isDigitC).length := by simp
      omega

/-- `re.findall` of `BLOCK_PATTERN`: scan left to right, trying a match
at every position; on a match, emit its groups and resume at the match
end (matches are non-overlapping and non-empty). -/
def scanBlocksF : Nat → List Char → List (List Char × List Char × List Char × List Char)
  | 0, _ => []
  | _ + 1, [] => []
  | f + 1, c :: t =>
    match matchBlockAt (c :: t) with
    | some (d, g2, g3, body, after) => (d, g2, g3, body) :: scanBlocksF f after
    | none => scanBlocksF f t

/-- The scan with enough fuel for the whole input. -/
def scanBlocks (l : List Char) : List (List Char × List Char × List Char × List Char) :=
  scanBlocksF l.length l

theorem scanBlocksF_congr : ∀ (f1 : Nat) (l : List Char) (f2 : Nat),
    l.length ≤ f1 → l.length ≤ f2 → scanBlocksF f1 l = scanBlocksF f2 l := by
  intro f1
  induction f1 with
  | zero =>
    intro l f2 h1 _
    rw [List.length_eq_zero.1 (Nat.le_zero.1 h1)]
    cases f2 <;> rfl
  | succ f ih =>
    intro l f2 h1 h2
    cases l with
    | nil => cases f2 <;> rfl
    | cons c t =>
      cases f2 with
      | zero => simp at h2
      | succ f2' =>
        simp only [List.length_cons, Nat.succ_le_succ_iff] at h1 h2
        rw [scanBlocksF, scanBlocksF]
        cases hm : matchBlockAt (c :: t) with
        | none =>
          show scanBlocksF f t = scanBlocksF f2' t
          exact ih t f2' h1 h2
        | some g =>
          obtain ⟨d, g2, g3, body, after⟩ := g
          have hlen : after.length ≤ t.length := by
            have := matchBlockAt_length hm
            simp at this
            omega
          show (d, g2, g3, body) :: scanBlocksF f after =
            (d, g2, g3, body) :: scanBlocksF f2' after
          rw [ih after f2' (le_trans hlen h1) (le_trans hlen h2)]

theorem scanBlocksF_eq_scanBlocks {f : Nat} {l : List Char} (h : l.length ≤ f) :
    scanBlocksF f l = scanBlocks l :=
  scanBlocksF_congr f l l.length h (le_refl _)

theorem scanBlocks_nil : scanBlocks [] = [] := rfl

theorem scanBlocks_some {c : Char} {t d g2 g3 body after : List Char}
    (hm : matchBlockAt (c :: t) = some (d, g2, g3, body, after)) :
    scanBlocks (c :: t) = (d, g2, g3, body) :: scanBlocks after := by
  have hlen : after.length ≤ t.length := by
    have := matchBlockAt_length hm
    simp at this
    omega
  show scanBlocksF (t.length + 1) (c :: t) = _
  rw [scanBlocksF, hm]
  show (d, g2, g3, body) :: scanBlocksF t.length after = _
  rw [scanBlocksF_eq_scanBlocks hlen]

theorem scanBlocks_none {c : Char} {t : List Char}
    (hm : matchBlockAt (c :: t) = none) :
    scanBlocks (c :: t) = scanBlocks t := by
  show scanBlocksF (t.length + 1) (c :: t) = _
  rw [scanBlocksF, hm]
  rfl

/-! ### The byte decoders

`SRTParser.ENCODINGS` is, in `src/srt_parser.py`,
`['utf-8-sig', 'utf-8', 'latin-1', 'cp1252', 'iso-8859-1', 'ascii',
'utf-16', 'utf-16-le', 'utf-16-be']` and, in `src/app.py`,
`['utf-8-sig', 'utf-8', 'latin-1', 'cp1252', 'iso-8859-1']`.  Both lists
share the first three candidates, which are modelled concretely below;
every candidate after `latin-1` is modelled as an arbitrary further
decoder (a parameter of the theorems), since `latin-1` decodes every
byte sequence and the loop returns at the first success. -/

/-- Value of a UTF-8 continuation byte (`0x80`–`0xBF`). -/
def contVal (b : Fin 256) : Option Nat :=
  if 0x80 ≤ b.val ∧ b.val < 0xC0 then some (b.val - 0x80) else none

/-- Python's strict `utf-8` decoder: standard UTF-8 validation,
rejecting truncated sequences, bad continuation bytes, overlong forms,
surrogates and code points above `U+10FFFF`. -/
def utf8Decode : List (Fin 256) → Option (List Char)
  | [] => some []
  | b :: t =>
    if b.val < 0x80 then
      match utf8Decode t with
      | some cs => some (Char.ofNat b.val :: cs)
      | none => none
    else if 0xC2 ≤ b.val ∧ b.val < 0xE0 then
      match t with
      | c1 :: t2 =>
        match contVal c1 with
        | some v1 =>
          match utf8Decode t2 with
          | some cs => some (Char.ofNat ((b.val - 0xC0) * 64 + v1) :: cs)
          | none => none
        | none => none
      | _ => none
    else if 0xE0 ≤ b.val ∧ b.val < 0xF0 then
      match t with
      | c1 :: c2 :: t3 =>
        if (b.val = 0xE0 → 0xA0 ≤ c1.val) ∧ (b.val = 0xED → c1.val < 0xA0) then
          match contVal c1, contVal c2 with
          | some v1, some v2 =>
            match utf8Decode t3 with
            | some cs => some (Char.ofNat ((b.val - 0xE0) * 4096 + v1 * 64 + v2) :: cs)
            | none => none
          | _, _ => none
        else none
      | _ => none
    else if 0xF0 ≤ b.val ∧ b.val < 0xF5 then
      match t with
      | c1 :: c2 :: c3 :: t4 =>
        if (b.val = 0xF0 → 0x90 ≤ c1.val) ∧ (b.val = 0xF4 → c1.val < 0x90) then
          match contVal c1, contVal c2, contVal c3 with
          | some v1, some v2, some v3 =>
            match utf8Decode t4 with
            | some cs =>
              some (Char.ofNat ((b.val - 0xF0) * 262144 + v1 * 4096 + v2 * 64 + v3) :: cs)
            | none => none
          | _, _, _ => none
        else none
      | _ => none
    else none

/-- Python's `utf-8-sig` decoder: strip one leading UTF-8 byte-order
mark if present, then decode as strict UTF-8. -/
def utf8SigDecode (l : List (Fin 256)) : Option (List Char) :=
  match l with
  | b0 :: b1 :: b2 :: t =>
    if b0.val = 0xEF ∧ b1.val = 0xBB ∧ b2.val = 0xBF then utf8Decode t
    else utf8Decode l
  | _ => utf8Decode l

/-- Python's `latin-1` decoder: every byte maps to the code point of the
same value, so it succeeds on every input. -/
def latin1Decode (l : List (Fin 256)) : List Char :=
  l.map (fun b => Char.ofNat b.val)

/-- The decode loop of `_read_file` / `_decode`: try each candidate in
order and return the first successful decode. -/
def decodeFirst (decs : List (List (Fin 256) → Option (List Char)))
    (bytes : List (Fin 256)) : Option (List Char) :=
  match decs with
  | [] => none
  | d :: ds =>
    match d bytes with
    | some s => some s
    | none => decodeFirst ds bytes

/-- The first three candidates of both `ENCODINGS` lists:
`utf-8-sig`, `utf-8`, `latin-1`. -/
def decodersPre : List (List (Fin 256) → Option (List Char)) :=
  [utf8SigDecode, utf8Decode, fun b => some (latin1Decode b)]

/-- `SRTParser._decode` of `src/app.py`: the decode loop over its
`ENCODINGS` (the shared prefix plus the remaining candidates `tail`),
followed by the lenient fallback `content_bytes.decode('latin-1',
errors='replace')` when every candidate failed.  Since `latin-1` has no
undecodable bytes, the fallback — were it ever reached — would replace
nothing, so it is modelled by `latin1Decode` itself. -/
def decodeWeb (tail : List (List (Fin 256) → Option (List Char)))
    (bytes : List (Fin 256)) : List Char :=
  match decodeFirst (decodersPre ++ tail) bytes with
  | some s => s
  | none => latin1Decode bytes

/-- A parsed subtitle record.  `SubtitleEntry` of `src/srt_parser.py`
and the record dict of `src/app.py` carry the same four fields. -/
structure SubtitleEntry where
  index : Int
  start_time : List Char
  end_time : List Char
  text : List Char
deriving DecidableEq, Repr

/-- Python `s.replace(',', '.')`. -/
def commaToDot (l : List Char) : List Char :=
  l.map (fun c => if c = ',' then '.' else c)

/-- `SRTParser._regex_parse` of `src/srt_parser.py`: run
`BLOCK_PATTERN.findall`, and for each match build a record from the
integer value of the index capture, the timestamps with `,` replaced by
`.`, and the sanitized body; a match whose sanitized body is empty
produces no record (`if text:`).  (`int` cannot fail on a `\d+` capture,
so the `except` arm of the source loop is never taken and the
per-instance `errors` log stays empty.) -/
def regexParse (content : List Char) : List SubtitleEntry :=
  (scanBlocks content).filterMap (fun g =>
    let text := cleanSubtitleText g.2.2.2
    if text = [] then none
    else some ⟨Int.ofNat (natOfDigits g.1), commaToDot g.2.1, commaToDot g.2.2.1, text⟩)

/-- `SRTParser._regex_parse` of `src/app.py`: the same scan, but the
record is appended unconditionally — this implementation has no
empty-text guard, so a match whose sanitized body is empty still yields
a record with empty text.  (`int` cannot fail on a `\d+` capture, so the
`except` arm is never taken here either.) -/
def regexParseWeb (content : List Char) : List SubtitleEntry :=
  (scanBlocks content).map (fun g =>
    ⟨Int.ofNat (natOfDigits g.1), commaToDot g.2.1, commaToDot g.2.2.1,
      cleanSubtitleText g.2.2.2⟩)

/-- The per-block step of `SRTParser._block_parse`: strip the block,
skip it when empty; split into lines and require at least 3; parse line
1 with `int` (skip on failure); match `TIMESTAMP_PATTERN` against the
stripped line 2 (skip on failure); sanitize the joined remaining lines
and skip when the result is empty; otherwise build the record with
`,` replaced by `.` in both captured timestamps. -/
def parseBlock (block : List Char) : Option SubtitleEntry :=
  if pyStrip block = [] then none
  else
    match splitLines (pyStrip block) with
    | l0 :: l1 :: rest =>
      if rest = [] then none
      else
        match pyInt (pyStrip l0) with
        | none => none
        | some idx =>
          match tsPairMatch (pyStrip l1) with
          | none => none
          | some (g1, g2) =>
            if cleanSubtitleText (List.intercalate ['\n'] rest) = [] then none
            else some ⟨idx, commaToDot g1, commaToDot g2,
              cleanSubtitleText (List.intercalate ['\n'] rest)⟩
    | _ => none

/-- `SRTParser._block_parse`: split the cleaned content on `'\n\n'` and
keep, in order, the records of the blocks that pass every check. -/
def blockParse (content : List Char) : List SubtitleEntry :=
  (splitNN content).filterMap parseBlock

/-- The tier dispatch of `SRTParser.parse_file` in `src/srt_parser.py`
(after reading and `_clean_content`): use its `_regex_parse`, and fall
back to `_block_parse` exactly when it produced no records. -/
def parseTiers (cleaned : List Char) : List SubtitleEntry :=
  if regexParse cleaned = [] then blockParse cleaned else regexParse cleaned

/-- The tier dispatch of `SRTParser.parse` in `src/app.py` (after its
normalization): use its own `_regex_parse` (the one without the
empty-text guard), and fall back to `_block_parse` exactly when it
produced no records. -/
def parseTiersWeb (cleaned : List Char) : List SubtitleEntry :=
  if regexParseWeb cleaned = [] then blockParse cleaned else regexParseWeb cleaned

/-- `SRTParser.parse` of `src/app.py` from decoded text onward. -/
def parseContentWeb (content : List Char) : List SubtitleEntry :=
  parseTiersWeb (cleanContentWeb content)

/-- `SRTParser.parse_file` of `src/srt_parser.py` from decoded text
onward (`_clean_content`, then the two tiers). -/
def parseContentFile (content : List Char) : List SubtitleEntry :=
  parseTiers (cleanContent content)

/-! ### Facts about the content normalizers (claim C5) -/

theorem dropWhile_eq_self_of_head {p : Char → Bool} {l : List Char}
    (h : ∀ hne : l ≠ [], p (l.head hne) = false) : l.dropWhile p = l := by
  cases l with
  | nil => rfl
  | cons c t =>
    have hc := h (by simp)
    simp at hc
    rw [List.dropWhile_cons_of_neg (by simp [hc])]

theorem pyStrip_idem (l : List Char) : pyStrip (pyStrip l) = pyStrip l := by
  by_cases hBnil : (l.dropWhile isSpaceC).reverse.dropWhile isSpaceC = []
  · unfold pyStrip
    rw [hBnil]
    simp
  · have hAne : l.dropWhile isSpaceC ≠ [] := by
      intro hA0
      rw [hA0] at hBnil
      simp at hBnil
    have hAhead : isSpaceC ((l.dropWhile isSpaceC).head hAne) = false :=
      List.head_dropWhile_not isSpaceC l hAne
    have hrevne : (l.dropWhile isSpaceC).reverse ≠ [] := by simpa using hAne
    have hBlast : ((l.dropWhile isSpaceC).reverse.dropWhile isSpaceC).getLast hBnil =
        (l.dropWhile isSpaceC).head hAne := by
      rw [List.IsSuffix.getLast (List.dropWhile_suffix isSpaceC) hBnil]
      · exact List.getLast_reverse hrevne
    show pyStrip (((l.dropWhile isSpaceC).reverse.dropWhile isSpaceC).reverse) = _
    unfold pyStrip
    have h1 : (((l.dropWhile isSpaceC).reverse.dropWhile isSpaceC).reverse).dropWhile isSpaceC =
        ((l.dropWhile isSpaceC).reverse.dropWhile isSpaceC).reverse := by
      apply dropWhile_eq_self_of_head
      intro hne
      rw [List.head_reverse]
      rw [hBlast]
      exact hAhead
    rw [h1, List.reverse_reverse, List.dropWhile_idempotent]

theorem mem_replCRLF {x : Char} {l : List Char} (h : x ∈ replCRLF l) : x ∈ l ∨ x = '\n' := by
  induction l using replCRLF.induct with
  | case1 => cases h
  | case2 c =>
    rw [replCRLF] at h
    exact Or.inl h
  | case3 c d t hcd ih =>
    rw [replCRLF, if_pos hcd] at h
    rcases List.mem_cons.1 h with rfl | h2
    · right; rfl
    · rcases ih h2 with h3 | h3
      · left; simp [h3]
      · right; exact h3
  | case4 c d t hcd ih =>
    rw [replCRLF, if_neg hcd] at h
    rcases List.mem_cons.1 h with rfl | h2
    · left; simp
    · rcases ih h2 with h3 | h3
      · left; exact List.mem_cons_of_mem _ h3
      · right; exact h3

theorem mem_replCR {x : Char} {l : List Char} (h : x ∈ replCR l) : x ∈ l ∨ x = '\n' := by
  rcases List.mem_map.1 h with ⟨a, ha, hfa⟩
  by_cases hr : a = '\r'
  · right; rw [← hfa, hr]; rfl
  · left; rw [← hfa]; simpa [hr] using ha

theorem not_cr_mem_replCR (l : List Char) : '\r' ∉ replCR l := by
  intro h
  rcases List.mem_map.1 h with ⟨a, _, hfa⟩
  by_cases hr : a = '\r' <;> simp [hr] at hfa

theorem replCRLF_eq_self {l : List Char} (h : '\r' ∉ l) : replCRLF l = l := by
  induction l using replCRLF.induct with
  | case1 => rfl
  | case2 c => rfl
  | case3 c d t hcd ih =>
    exact absurd (by simp [hcd.1]) h
  | case4 c d t hcd ih =>
    rw [replCRLF, if_neg hcd]
    rw [ih fun hm => h (List.mem_cons_of_mem _ hm)]

theorem replCR_eq_self {l : List Char} (h : '\r' ∉ l) : replCR l = l := by
  unfold replCR
  induction l with
  | nil => rfl
  | cons c t ih =>
    have hc : c ≠ '\r' := by
      intro he
      exact h (by simp [he])
    have ht : '\r' ∉ t := fun hm => h (List.mem_cons_of_mem _ hm)
    simp only [List.map_cons, if_neg hc, ih ht]

theorem lstripBOM_eq_self {l : List Char} (h : '﻿' ∉ l) : lstripBOM l = l := by
  apply dropWhile_eq_self_of_head
  intro hne
  have : l.head hne ∈ l := List.head_mem hne
  have hne2 : l.head hne ≠ '﻿' := fun he => h (he ▸ this)
  simp [hne2]

theorem mem_pyStrip {x : Char} {l : List Char} (h : x ∈ pyStrip l) : x ∈ l := by
  unfold pyStrip at h
  rw [List.mem_reverse] at h
  have h2 := (@List.dropWhile_sublist _ ((l.dropWhile isSpaceC).reverse) isSpaceC).subset h
  rw [List.mem_reverse] at h2
  exact (List.dropWhile_sublist isSpaceC).subset h2

theorem mem_lstripBOM {x : Char} {l : List Char} (h : x ∈ lstripBOM l) : x ∈ l :=
  (List.dropWhile_sublist _).subset h

/-- C5 counterexample: neither implementation of the normalization step
is idempotent.  `_clean_content` (desktop) lstrips BOMs before the final
trim, so whitespace ahead of a BOM shields it on the first pass and a
second pass shortens the string again; the web normalization strips BOMs
last, so a BOM can shield whitespace from the trim.  (`'﻿'.isspace()`
is false in Python, so `strip` never removes a BOM itself.) -/
theorem c5_counterexample :
    cleanContent (cleanContent (' ' :: '﻿' :: 'a' :: [])) ≠
      cleanContent (' ' :: '﻿' :: 'a' :: []) ∧
    cleanContentWeb (cleanContentWeb ('﻿' :: ' ' :: 'a' :: [])) ≠
      cleanContentWeb ('﻿' :: ' ' :: 'a' :: []) := by
  decide

/-- C5 (amended): on every decoded string that contains no byte-order
mark character, both implementations of the normalization step
(line-ending unification, BOM strip, whole-buffer trim) are idempotent:
applying the step twice yields the same result as applying it once. -/
theorem c5_normalize_idem_of_no_bom (s : List Char) (h : '﻿' ∉ s) :
    cleanContent (cleanContent s) = cleanContent s ∧
    cleanContentWeb (cleanContentWeb s) = cleanContentWeb s := by
  have hmem : ∀ x ∈ replCR (replCRLF s), x ∈ s ∨ x = '\n' := by
    intro x hx
    rcases mem_replCR hx with h1 | h1
    · exact mem_replCRLF h1
    · right; exact h1
  have hbom : '﻿' ∉ replCR (replCRLF s) := by
    intro hx
    rcases hmem _ hx with h1 | h1
    · exact h h1
    · exact absurd h1 (by decide)
  have hcr : '\r' ∉ replCR (replCRLF s) := not_cr_mem_replCR _
  constructor
  · have hs : cleanContent s = pyStrip (lstripBOM (replCR (replCRLF s))) := rfl
    rw [hs]
    have hcr1 : '\r' ∉ pyStrip (lstripBOM (replCR (replCRLF s))) :=
      fun hx => hcr (mem_lstripBOM (mem_pyStrip hx))
    have hbom1 : '﻿' ∉ pyStrip (lstripBOM (replCR (replCRLF s))) :=
      fun hx => hbom (mem_lstripBOM (mem_pyStrip hx))
    unfold cleanContent
    rw [replCRLF_eq_self hcr1, replCR_eq_self hcr1, lstripBOM_eq_self hbom1, pyStrip_idem]
  · have hs : cleanContentWeb s = lstripBOM (pyStrip (replCR (replCRLF s))) := rfl
    rw [hs]
    have h1 : lstripBOM (pyStrip (replCR (replCRLF s))) = pyStrip (replCR (replCRLF s)) :=
      lstripBOM_eq_self (fun hx => hbom (mem_pyStrip hx))
    rw [h1]
    have hcr2 : '\r' ∉ pyStrip (replCR (replCRLF s)) := fun hx => hcr (mem_pyStrip hx)
    unfold cleanContentWeb
    rw [replCRLF_eq_self hcr2, replCR_eq_self hcr2, pyStrip_idem]
    exact lstripBOM_eq_self (fun hx => hbom (mem_pyStrip hx))

/-- Witness for the amended C5 at a concrete BOM-free input. -/
theorem c5_normalize_idem_witness :
    cleanContent (cleanContent ('a' :: '\r' :: '\n' :: ' ' :: 'b' :: [])) =
      cleanContent ('a' :: '\r' :: '\n' :: ' ' :: 'b' :: []) ∧
    cleanContentWeb (cleanContentWeb ('a' :: '\r' :: '\n' :: ' ' :: 'b' :: [])) =
      cleanContentWeb ('a' :: '\r' :: '\n' :: ' ' :: 'b' :: []) :=
  c5_normalize_idem_of_no_bom ('a' :: '\r' :: '\n' :: ' ' :: 'b' :: []) (by decide)

/-- Universal-newline translation performed by Python's text-mode
`open` used in `_read_file`: `\r\n` and lone `\r` become `\n`. -/
def univNewlines (l : List Char) : List Char :=
  replCR (replCRLF l)

/-- `SRTParser.parse_file` of `src/srt_parser.py` from bytes onward
(the existence and `.srt`-suffix checks on the path precede the parser
core): the strict decode loop — whose exhaustion raises `ValueError`,
modelled as `Except.error ()` — then text-mode newline translation,
`_clean_content`, and the two tiers. -/
def parseFileBytes (tail : List (List (Fin 256) → Option (List Char)))
    (bytes : List (Fin 256)) : Except Unit (List SubtitleEntry) :=
  match decodeFirst (decodersPre ++ tail) bytes with
  | none => Except.error ()
  | some content => Except.ok (parseContentFile (univNewlines content))

/-- `SRTParser.parse` of `src/app.py` from bytes onward: the lenient
decode (which cannot fail), then normalization and the two tiers. -/
def parseWebBytes (tail : List (List (Fin 256) → Option (List Char)))
    (bytes : List (Fin 256)) : List SubtitleEntry :=
  parseContentWeb (decodeWeb tail bytes)

theorem decodeFirst_append_of_isSome
    {ds tail : List (List (Fin 256) → Option (List Char))} {bytes : List (Fin 256)}
    (h : (decodeFirst ds bytes).isSome) :
    decodeFirst (ds ++ tail) bytes = decodeFirst ds bytes := by
  induction ds with
  | nil => simp [decodeFirst] at h
  | cons d ds ih =>
    rw [List.cons_append, decodeFirst, decodeFirst]
    rw [decodeFirst] at h
    cases hd : d bytes with
    | some s => rfl
    | none =>
      rw [hd] at h
      exact ih h

theorem decodeFirst_pre_isSome (bytes : List (Fin 256)) :
    (decodeFirst decodersPre bytes).isSome := by
  unfold decodersPre
  rw [decodeFirst]
  cases utf8SigDecode bytes with
  | some s => rfl
  | none =>
    rw [decodeFirst]
    cases utf8Decode bytes with
    | some s => rfl
    | none => rfl

/-- C10: the encoding priority lists of both parsers begin
`utf-8-sig, utf-8, latin-1`, and `latin-1` decodes every byte sequence;
hence — whatever decoders follow `latin-1` in the list (`tail`) — the
decode loop always succeeds at or before the `latin-1` candidate, the
strict-policy `ValueError` branch of `_read_file` is unreachable, and
the post-loop replacement-character fallback of `_decode` in
`src/app.py` is dead code. -/
theorem c10_latin1_total (tail : List (List (Fin 256) → Option (List Char)))
    (bytes : List (Fin 256)) :
    decodeFirst (decodersPre ++ tail) bytes = decodeFirst decodersPre bytes ∧
    (decodeFirst decodersPre bytes).isSome ∧
    (∃ s, decodeFirst decodersPre bytes = some s ∧ decodeWeb tail bytes = s) ∧
    parseFileBytes tail bytes ≠ Except.error () := by
  have hsome := decodeFirst_pre_isSome bytes
  have happ := @decodeFirst_append_of_isSome _ tail _ hsome
  refine ⟨happ, hsome, ?_, ?_⟩
  · rcases Option.isSome_iff_exists.1 hsome with ⟨s, hs⟩
    refine ⟨s, hs, ?_⟩
    unfold decodeWeb
    rw [happ, hs]
  · unfold parseFileBytes
    rw [happ]
    rcases Option.isSome_iff_exists.1 hsome with ⟨s, hs⟩
    rw [hs]
    simp

/-- C2: totality of the end-to-end parse.  The web parser never fails
for any byte input, and returns the empty sequence when both tiers
produce no records; the desktop parser can fail only at the decode
loop (`Except.error` implies the loop returned nothing), never for
content that decoded but did not parse. -/
theorem c2_parse_total (tail : List (List (Fin 256) → Option (List Char)))
    (bytes : List (Fin 256)) :
    (∀ e, parseFileBytes tail bytes = Except.error e →
      decodeFirst (decodersPre ++ tail) bytes = none) ∧
    (regexParseWeb (cleanContentWeb (decodeWeb tail bytes)) = [] →
      blockParse (cleanContentWeb (decodeWeb tail bytes)) = [] →
      parseWebBytes tail bytes = []) := by
  constructor
  · intro e he
    unfold parseFileBytes at he
    cases hd : decodeFirst (decodersPre ++ tail) bytes with
    | none => rfl
    | some s => rw [hd] at he; cases he
  · intro h1 h2
    unfold parseWebBytes parseContentWeb parseTiersWeb
    rw [h1, if_pos rfl]
    exact h2

/-- Witness for C2 at a concrete input: the single byte `0x78` (`"x"`),
on which both tiers are empty and the web parse returns `[]`. -/
theorem c2_parse_total_witness :
    regexParseWeb (cleanContentWeb (decodeWeb [] [(0x78 : Fin 256)])) = [] ∧
    blockParse (cleanContentWeb (decodeWeb [] [(0x78 : Fin 256)])) = [] ∧
    parseWebBytes [] [(0x78 : Fin 256)] = [] :=
  ⟨by decide, by decide, (c2_parse_total [] [(0x78 : Fin 256)]).2 (by decide) (by decide)⟩

/-- C6: fallback activation.  Each pipeline returns its own
pattern-based tier's result whenever it is non-empty, and returns the
line-based fallback tier's result exactly when its pattern-based tier
yields zero records; the fallback's output is never consulted
otherwise.  (The web pipeline's pattern tier is `_regex_parse` of
`src/app.py`, the one without the empty-text guard.) -/
theorem c6_fallback_activation (content : List Char) :
    (regexParseWeb (cleanContentWeb content) ≠ [] →
      parseContentWeb content = regexParseWeb (cleanContentWeb content)) ∧
    (regexParseWeb (cleanContentWeb content) = [] →
      parseContentWeb content = blockParse (cleanContentWeb content)) ∧
    (regexParse (cleanContent content) ≠ [] →
      parseContentFile content = regexParse (cleanContent content)) ∧
    (regexParse (cleanContent content) = [] →
      parseContentFile content = blockParse (cleanContent content)) := by
  unfold parseContentWeb parseContentFile parseTiersWeb parseTiers
  refine ⟨?_, ?_, ?_, ?_⟩ <;> intro h <;> simp [h]

/-- Witness for C6: a conforming block takes the pattern tier, a
non-conforming input takes the fallback tier. -/
theorem c6_fallback_activation_witness :
    parseContentWeb ("1\n00:00:01,000 --> 00:00:02,000\nhi".data) =
      regexParseWeb (cleanContentWeb ("1\n00:00:01,000 --> 00:00:02,000\nhi".data)) ∧
    parseContentWeb ("xx".data) = blockParse (cleanContentWeb ("xx".data)) :=
  ⟨(c6_fallback_activation _).1 (by decide), (c6_fallback_activation _).2.1 (by decide)⟩

/-! ### Shape of the records produced by the two tiers (claims C3, C4) -/

/-- The shape of a captured timestamp group:
`DD:DD:DD` then `,` or `.` then `DDD`. -/
def tsShape : List Char → Bool
  | [h1, h2, c1, m1, m2, c2, s1, s2, d, f1, f2, f3] =>
    isDigitC h1 && isDigitC h2 && c1 = ':' && isDigitC m1 && isDigitC m2 && c2 = ':' &&
    isDigitC s1 && isDigitC s2 && (d = ',' || d = '.') &&
    isDigitC f1 && isDigitC f2 && isDigitC f3
  | _ => false

/-- The canonical timestamp shape `DD:DD:DD.DDD` of the data model. -/
def isCanonTs : List Char → Bool
  | [h1, h2, c1, m1, m2, c2, s1, s2, d, f1, f2, f3] =>
    isDigitC h1 && isDigitC h2 && c1 = ':' && isDigitC m1 && isDigitC m2 && c2 = ':' &&
    isDigitC s1 && isDigitC s2 && d = '.' &&
    isDigitC f1 && isDigitC f2 && isDigitC f3
  | _ => false

theorem tsMatch_shape {l g r : List Char} (h : tsMatch l = some (g, r)) :
    tsShape g = true := by
  unfold tsMatch at h
  split at h
  · split at h
    · rename_i hcond
      have h' := Option.some.inj h
      injection h' with e1 e2
      subst e1
      simp only [Bool.and_eq_true] at hcond
      simp [tsShape, hcond]
    · cases h
  · cases h

theorem tsPairMatch_shape {l g1 g2 : List Char} (h : tsPairMatch l = some (g1, g2)) :
    tsShape g1 = true ∧ tsShape g2 = true := by
  unfold tsPairMatch at h
  split at h
  · cases h
  · rename_i ga ra hma
    split at h
    · rename_i rb hdrop
      split at h
      · cases h
      · rename_i gb rb2 hmb
        have h' := Option.some.inj h
        injection h' with e1 e2
        subst e1; subst e2
        exact ⟨tsMatch_shape hma, tsMatch_shape hmb⟩
    · cases h

theorem commaToDot_canon {g : List Char} (h : tsShape g = true) :
    isCanonTs (commaToDot g) = true := by
  unfold tsShape at h
  split at h
  · rename_i h1 h2 c1 m1 m2 c2 s1 s2 d f1 f2 f3
    simp only [Bool.and_eq_true, decide_eq_true_eq, Bool.or_eq_true] at h
    obtain ⟨⟨⟨⟨⟨⟨⟨⟨⟨⟨⟨hh1, hh2⟩, hc1⟩, hm1⟩, hm2⟩, hc2⟩, hs1⟩, hs2⟩, hd⟩, hf1⟩, hf2⟩, hf3⟩ := h
    have hdig : ∀ x : Char, isDigitC x = true → (if x = ',' then '.' else x) = x := by
      intro x hx
      have : x ≠ ',' := by
        intro he
        rw [he] at hx
        exact absurd hx (by decide)
      simp [this]
    subst hc1; subst hc2
    simp only [commaToDot, List.map_cons, List.map_nil]
    rw [hdig _ hh1, hdig _ hh2, hdig _ hm1, hdig _ hm2, hdig _ hs1, hdig _ hs2,
      hdig _ hf1, hdig _ hf2, hdig _ hf3]
    rcases hd with hd | hd
    · subst hd
      simp [isCanonTs, hh1, hh2, hm1, hm2, hs1, hs2, hf1, hf2, hf3]
    · subst hd
      simp [isCanonTs, hh1, hh2, hm1, hm2, hs1, hs2, hf1, hf2, hf3]
  · cases h

/-- What a successful `BLOCK_PATTERN` match guarantees about its capture
groups: the index capture is a nonempty digit run, and both timestamp
captures have the timestamp shape. -/
theorem matchBlockAt_spec {l d g2 g3 b a : List Char}
    (h : matchBlockAt l = some (d, g2, g3, b, a)) :
    d ≠ [] ∧ (∀ c ∈ d, isDigitC c = true) ∧ tsShape g2 = true ∧ tsShape g3 = true := by
  unfold matchBlockAt at h
  split at h
  · cases h
  · rename_i hd
    split at h
    · cases h
    · rename_i g2' g3' body after hmai
      have h' := Option.some.inj h
      injection h' with e1 e2
      injection e2 with e3 e4
      injection e4 with e5 e6
      subst e1; subst e3; subst e5
      refine ⟨hd, fun c hc => List.mem_takeWhile_imp hc, ?_, ?_⟩
      · unfold matchAfterIdx at hmai
        split at hmai
        · cases hmai
        · split at hmai
          · cases hmai
          · rename_i ga ra hma
            split at hmai
            · rename_i rb hdrop
              split at hmai
              · cases hmai
              · rename_i gb rb2 hmb
                split at hmai
                · cases hmai
                · rename_i body2 after2 htry
                  have h'' := Option.some.inj hmai
                  injection h'' with e7 e8
                  subst e7
                  exact tsMatch_shape hma
            · cases hmai
      · unfold matchAfterIdx at hmai
        split at hmai
        · cases hmai
        · split at hmai
          · cases hmai
          · rename_i ga ra hma
            split at hmai
            · rename_i rb hdrop
              split at hmai
              · cases hmai
              · rename_i gb rb2 hmb
                split at hmai
                · cases hmai
                · rename_i body2 after2 htry
                  have h'' := Option.some.inj hmai
                  injection h'' with e7 e8
                  injection e8 with e9 e10
                  subst e9
                  exact tsMatch_shape hmb
            · cases hmai

/-- Every group tuple emitted by the scan arises from a successful match
somewhere in the input. -/
theorem scanBlocksF_mem : ∀ (f : Nat) (l : List Char)
    (g : List Char × List Char × List Char × List Char), g ∈ scanBlocksF f l →
    ∃ l' a, matchBlockAt l' = some (g.1, g.2.1, g.2.2.1, g.2.2.2, a) := by
  intro f
  induction f with
  | zero => intro l g h; cases h
  | succ f ih =>
    intro l g h
    cases l with
    | nil => cases h
    | cons c t =>
      rw [scanBlocksF] at h
      cases hm : matchBlockAt (c :: t) with
      | none =>
        rw [hm] at h
        exact ih t g h
      | some g0 =>
        obtain ⟨d, g2, g3, body, after⟩ := g0
        rw [hm] at h
        have h2 : g ∈ (d, g2, g3, body) :: scanBlocksF f after := h
        rcases List.mem_cons.1 h2 with rfl | h3
        · exact ⟨c :: t, after, hm⟩
        · exact ih after g h3

theorem scanBlocks_mem {l : List Char} {g : List Char × List Char × List Char × List Char}
    (h : g ∈ scanBlocks l) :
    ∃ l' a, matchBlockAt l' = some (g.1, g.2.1, g.2.2.1, g.2.2.2, a) :=
  scanBlocksF_mem l.length l g h

/-- Provenance of a pattern-tier record: nonempty all-digit index
capture, timestamp-shaped time captures, non-empty sanitized text. -/
theorem regexParse_mem {content : List Char} {e : SubtitleEntry}
    (h : e ∈ regexParse content) :
    ∃ d g2 g3 body, d ≠ [] ∧ (∀ c ∈ d, isDigitC c = true) ∧
      tsShape g2 = true ∧ tsShape g3 = true ∧ cleanSubtitleText body ≠ [] ∧
      e = ⟨Int.ofNat (natOfDigits d), commaToDot g2, commaToDot g3,
        cleanSubtitleText body⟩ := by
  unfold regexParse at h
  rcases List.mem_filterMap.1 h with ⟨g, hg, he⟩
  rcases scanBlocks_mem hg with ⟨l', a, hm⟩
  rcases matchBlockAt_spec hm with ⟨hd1, hd2, hg2, hg3⟩
  by_cases ht : cleanSubtitleText g.2.2.2 = []
  · rw [if_pos ht] at he
    cases he
  · rw [if_neg ht] at he
    refine ⟨g.1, g.2.1, g.2.2.1, g.2.2.2, hd1, hd2, hg2, hg3, ht, ?_⟩
    exact (Option.some.inj he).symm

/-- Provenance of a fallback-tier record: the timestamps come from a
`TIMESTAMP_PATTERN` match and the text is non-empty sanitized text. -/
theorem parseBlock_some {b : List Char} {e : SubtitleEntry}
    (h : parseBlock b = some e) :
    ∃ idx g1 g2 rest, tsShape g1 = true ∧ tsShape g2 = true ∧
      cleanSubtitleText (List.intercalate ['\n'] rest) ≠ [] ∧
      e = ⟨idx, commaToDot g1, commaToDot g2,
        cleanSubtitleText (List.intercalate ['\n'] rest)⟩ := by
  unfold parseBlock at h
  split at h
  · cases h
  · split at h
    · rename_i l0 l1 rest hsplit
      split at h
      · cases h
      · split at h
        · cases h
        · rename_i idx hidx
          split at h
          · cases h
          · rename_i g1 g2 hts
            split at h
            · cases h
            · rename_i htext
              rcases tsPairMatch_shape hts with ⟨h1, h2⟩
              exact ⟨idx, g1, g2, rest, h1, h2, htext, (Option.some.inj h).symm⟩
    · cases h

theorem blockParse_mem {content : List Char} {e : SubtitleEntry}
    (h : e ∈ blockParse content) :
    ∃ idx g1 g2 rest, tsShape g1 = true ∧ tsShape g2 = true ∧
      cleanSubtitleText (List.intercalate ['\n'] rest) ≠ [] ∧
      e = ⟨idx, commaToDot g1, commaToDot g2,
        cleanSubtitleText (List.intercalate ['\n'] rest)⟩ := by
  unfold blockParse at h
  rcases List.mem_filterMap.1 h with ⟨b, _, hb⟩
  exact parseBlock_some hb

/-! ### The markup-free invariant of sanitized text (claim C4)

`hasTagMatch s` says some substring of `s` matches the markup grammar
`<[^>]+>` or `\x7b[^\x7d]+\x7d`.  The key invariant `sepP op cl s` —
after any occurrence of the opener, either the very next character is
the closer or no closer follows at all — survives the whole sanitizing
pipeline and rules out any tag match. -/

def hasTagMatch (s : List Char) : Prop :=
  (∃ u mid v, s = u ++ '<' :: (mid ++ '>' :: v) ∧ mid ≠ [] ∧ '>' ∉ mid) ∨
  (∃ u mid v, s = u ++ '{' :: (mid ++ '}' :: v) ∧ mid ≠ [] ∧ '}' ∉ mid)

def sepP (op cl : Char) (s : List Char) : Prop :=
  ∀ u v, s = u ++ op :: v → cl ∈ v → ∃ w, v = cl :: w

theorem sepP_nil {op cl : Char} : sepP op cl [] := by
  intro u v h
  exact absurd h (by simp)

theorem not_hasTagMatch_of_sepP {s : List Char}
    (h1 : sepP '<' '>' s) (h2 : sepP '{' '}' s) : ¬ hasTagMatch s := by
  rintro (⟨u, mid, v, he, hne, hnm⟩ | ⟨u, mid, v, he, hne, hnm⟩)
  · rcases h1 u (mid ++ '>' :: v) he (by simp) with ⟨w, hw⟩
    cases mid with
    | nil => exact hne rfl
    | cons m mt =>
      rw [List.cons_append] at hw
      injection hw with e1 _
      exact hnm (by simp [e1])
  · rcases h2 u (mid ++ '}' :: v) he (by simp) with ⟨w, hw⟩
    cases mid with
    | nil => exact hne rfl
    | cons m mt =>
      rw [List.cons_append] at hw
      injection hw with e1 _
      exact hnm (by simp [e1])

/-- `sepP` is inherited by infixes. -/
theorem sepP_within {op cl : Char} {s s' : List Char}
    (h : sepP op cl s) (hinf : s' <:+: s) : sepP op cl s' := by
  rcases hinf with ⟨a, b, hab⟩
  intro u v hs' hcl
  have hs : s = (a ++ u) ++ op :: (v ++ b) := by
    rw [← hab, hs']
    simp
  rcases h (a ++ u) (v ++ b) hs (by simp [hcl]) with ⟨w, hw⟩
  cases v with
  | nil => cases hcl
  | cons x xs =>
    rw [List.cons_append] at hw
    injection hw with e1 _
    exact ⟨xs, by rw [e1]⟩

theorem mem_tagSub_aux {x : Char} : ∀ (n : Nat) (s : List Char),
    s.length ≤ n → x ∈ tagSub s → x ∈ s := by
  intro n
  induction n with
  | zero =>
    intro s hs hx
    obtain rfl : s = [] := List.length_eq_zero.1 (Nat.le_zero.1 hs)
    cases hx
  | succ n ih =>
    intro s hs hx
    cases s with
    | nil => cases hx
    | cons c t =>
      simp only [List.length_cons, Nat.succ_le_succ_iff] at hs
      by_cases hc : c = '<'
      · subst hc
        rw [tagSub_lt] at hx
        split at hx
        · rcases List.mem_cons.1 hx with rfl | h2
          · simp
          · exact List.mem_cons_of_mem _ (ih t hs h2)
        · have := ih _ (le_trans (drop_len_le _ _) hs) hx
          exact List.mem_cons_of_mem _ ((List.drop_sublist _ _).subset this)
      · by_cases hb : c = '{'
        · subst hb
          rw [tagSub_brace] at hx
          split at hx
          · rcases List.mem_cons.1 hx with rfl | h2
            · simp
            · exact List.mem_cons_of_mem _ (ih t hs h2)
          · have := ih _ (le_trans (drop_len_le _ _) hs) hx
            exact List.mem_cons_of_mem _ ((List.drop_sublist _ _).subset this)
        · rw [tagSub_cons t hc hb] at hx
          rcases List.mem_cons.1 hx with rfl | h2
          · simp
          · exact List.mem_cons_of_mem _ (ih t hs h2)

theorem mem_tagSub {x : Char} {s : List Char} (h : x ∈ tagSub s) : x ∈ s :=
  mem_tagSub_aux s.length s (le_refl _) h

theorem sepP_cons_of_ne {op cl c : Char} {s : List Char}
    (hop : c ≠ op) (h : sepP op cl s) : sepP op cl (c :: s) := by
  intro u v huv hcl
  cases u with
  | nil =>
    injection huv with e1 _
    exact absurd e1 hop
  | cons c1 u' =>
    injection huv with _ e2
    exact h u' v e2 hcl

theorem sepP_cons_opener {op cl : Char} {s : List Char}
    (h : sepP op cl s) (hhead : cl ∈ s → ∃ w, s = cl :: w) : sepP op cl (op :: s) := by
  intro u v huv hcl
  cases u with
  | nil =>
    injection huv with _ e2
    rw [← e2] at hcl ⊢
    exact hhead hcl
  | cons c1 u' =>
    injection huv with _ e2
    exact h u' v e2 hcl

/-- The output of one tag-substitution scan satisfies the separator
invariant for both tag grammars: after any `<` of the output either a
`>` follows immediately or no `>` occurs later, and likewise for the
brace directive. -/
theorem tagSub_sepP_aux : ∀ (n : Nat) (s : List Char), s.length ≤ n →
    sepP '<' '>' (tagSub s) ∧ sepP '{' '}' (tagSub s) := by
  intro n
  induction n with
  | zero =>
    intro s hs
    obtain rfl : s = [] := List.length_eq_zero.1 (Nat.le_zero.1 hs)
    exact ⟨sepP_nil, sepP_nil⟩
  | succ n ih =>
    intro s hs
    cases s with
    | nil => exact ⟨sepP_nil, sepP_nil⟩
    | cons c t =>
      simp only [List.length_cons, Nat.succ_le_succ_iff] at hs
      by_cases hc : c = '<'
      · subst hc
        rw [tagSub_lt]
        split
        · rename_i hcond
          refine ⟨sepP_cons_opener (ih t hs).1 ?_, sepP_cons_of_ne (by decide) (ih t hs).2⟩
          intro hcl
          have hgt : '>' ∈ t := mem_tagSub hcl
          rcases hcond with hcond | hcond
          · cases t with
            | nil => cases hgt
            | cons d t2 =>
              by_cases hd : d = '>'
              · subst hd
                rw [tagSub_cons t2 (by decide) (by decide)]
                exact ⟨tagSub t2, rfl⟩
              · rw [List.takeWhile_cons_of_pos (by simp [hd])] at hcond
                simp at hcond
          · have ht : t.takeWhile (fun x => x ≠ '>') = t :=
              (List.takeWhile_prefix _).eq_of_length hcond
            have : ('>' : Char) ≠ '>' := by
              have := List.mem_takeWhile_imp (ht.symm ▸ hgt)
              simpa using this
            exact absurd rfl this
        · exact ih _ (le_trans (drop_len_le _ _) hs)
      · by_cases hb : c = '{'
        · subst hb
          rw [tagSub_brace]
          split
          · rename_i hcond
            refine ⟨sepP_cons_of_ne (by decide) (ih t hs).1, sepP_cons_opener (ih t hs).2 ?_⟩
            intro hcl
            have hgt : '}' ∈ t := mem_tagSub hcl
            rcases hcond with hcond | hcond
            · cases t with
              | nil => cases hgt
              | cons d t2 =>
                by_cases hd : d = '}'
                · subst hd
                  rw [tagSub_cons t2 (by decide) (by decide)]
                  exact ⟨tagSub t2, rfl⟩
                · rw [List.takeWhile_cons_of_pos (by simp [hd])] at hcond
                  simp at hcond
            · have ht : t.takeWhile (fun x => x ≠ '}') = t :=
                (List.takeWhile_prefix _).eq_of_length hcond
              have : ('}' : Char) ≠ '}' := by
                have := List.mem_takeWhile_imp (ht.symm ▸ hgt)
                simpa using this
              exact absurd rfl this
          · exact ih _ (le_trans (drop_len_le _ _) hs)
        · rw [tagSub_cons t hc hb]
          exact ⟨sepP_cons_of_ne hc (ih t hs).1, sepP_cons_of_ne hb (ih t hs).2⟩

theorem tagSub_sepP (s : List Char) :
    sepP '<' '>' (tagSub s) ∧ sepP '{' '}' (tagSub s) :=
  tagSub_sepP_aux s.length s (le_refl _)

/-! #### Lines of a string and their algebra -/

theorem splitLines_ne_nil (y : List Char) : splitLines y ≠ [] := by
  induction y with
  | nil => simp [splitLines]
  | cons c t ih =>
    by_cases hc : c = '\n'
    · subst hc; simp [splitLines]
    · rw [show splitLines (c :: t) = match splitLines t with
        | h :: r => (c :: h) :: r
        | [] => [[c]] from by cases t <;> simp_all [splitLines]]
      cases hs : splitLines t with
      | nil => simp
      | cons h r => simp

theorem splitLines_cons_of_ne {c : Char} {t : List Char} (hc : c ≠ '\n') :
    ∃ h r, splitLines t = h :: r ∧ splitLines (c :: t) = (c :: h) :: r := by
  cases hs : splitLines t with
  | nil => exact absurd hs (splitLines_ne_nil t)
  | cons h r =>
    refine ⟨h, r, rfl, ?_⟩
    rw [show splitLines (c :: t) = match splitLines t with
      | h :: r => (c :: h) :: r
      | [] => [[c]] from by cases t <;> simp_all [splitLines]]
    rw [hs]

theorem splitLines_no_nl {y : List Char} : ∀ l ∈ splitLines y, '\n' ∉ l := by
  induction y with
  | nil => intro l hl; simp [splitLines] at hl; simp [hl]
  | cons c t ih =>
    intro l hl
    by_cases hc : c = '\n'
    · subst hc
      rw [show splitLines ('\n' :: t) = [] :: splitLines t from rfl] at hl
      rcases List.mem_cons.1 hl with rfl | h2
      · simp
      · exact ih l h2
    · rcases @splitLines_cons_of_ne c t hc with ⟨h, r, hs, he⟩
      rw [he] at hl
      rcases List.mem_cons.1 hl with rfl | h2
      · intro hmem
        rcases List.mem_cons.1 hmem with hx | h3
        · exact hc hx.symm
        · exact ih _ (hs ▸ List.mem_cons_self h r) h3
      · exact ih l (hs ▸ List.mem_cons_of_mem h h2)

theorem mem_splitLines_subset {y m : List Char} (hm : m ∈ splitLines y) :
    ∀ x ∈ m, x ∈ y := by
  induction y generalizing m with
  | nil =>
    simp [splitLines] at hm
    simp [hm]
  | cons c t ih =>
    intro x hx
    by_cases hc : c = '\n'
    · subst hc
      rw [show splitLines ('\n' :: t) = [] :: splitLines t from rfl] at hm
      rcases List.mem_cons.1 hm with rfl | h2
      · cases hx
      · exact List.mem_cons_of_mem _ (ih h2 x hx)
    · rcases @splitLines_cons_of_ne c t hc with ⟨h, r, hs, he⟩
      rw [he] at hm
      rcases List.mem_cons.1 hm with rfl | h2
      · rcases List.mem_cons.1 hx with rfl | h3
        · simp
        · exact List.mem_cons_of_mem _ (ih (hs ▸ List.mem_cons_self h r) x h3)
      · exact List.mem_cons_of_mem _ (ih (hs ▸ List.mem_cons_of_mem h h2) x hx)

/-- Structure of the first line: either the whole string has no newline
and is its own single line, or the string is the first line, a newline,
and the rest. -/
theorem splitLines_head_decomp : ∀ {t h : List Char} {r : List (List Char)},
    splitLines t = h :: r →
    (t = h ∧ r = []) ∨ ∃ t2, t = h ++ '\n' :: t2 ∧ splitLines t2 = r := by
  intro t
  induction t with
  | nil =>
    intro h r he
    rw [show splitLines [] = [[]] from rfl] at he
    injection he with e1 e2
    exact Or.inl ⟨e1, e2.symm⟩
  | cons c t ih =>
    intro h r he
    by_cases hc : c = '\n'
    · subst hc
      rw [show splitLines ('\n' :: t) = [] :: splitLines t from rfl] at he
      injection he with e1 e2
      right
      exact ⟨t, by rw [← e1]; rfl, e2⟩
    · rcases @splitLines_cons_of_ne c t hc with ⟨h', r', hs, he'⟩
      rw [he'] at he
      injection he with e1 e2
      rcases ih hs with ⟨he1, he2⟩ | ⟨t2, he1, he2⟩
      · left
        constructor
        · rw [← e1, ← he1]
        · rw [← e2, he2]
      · right
        refine ⟨t2, ?_, ?_⟩
        · rw [← e1, List.cons_append, ← he1]
        · rw [← e2, he2]

theorem splitLines_of_no_nl {l : List Char} (h : '\n' ∉ l) : splitLines l = [l] := by
  induction l with
  | nil => rfl
  | cons c t ih =>
    have hc : c ≠ '\n' := fun he => h (by simp [he])
    rcases @splitLines_cons_of_ne c t hc with ⟨h', r', hs, he⟩
    rw [he]
    rw [ih fun hm => h (List.mem_cons_of_mem _ hm)] at hs
    injection hs with e1 e2
    rw [← e1, ← e2]

theorem splitLines_append_nl {l y : List Char} (h : '\n' ∉ l) :
    splitLines (l ++ '\n' :: y) = l :: splitLines y := by
  induction l with
  | nil => rfl
  | cons c t ih =>
    have hc : c ≠ '\n' := fun he => h (by simp [he])
    rw [List.cons_append]
    rcases @splitLines_cons_of_ne c (t ++ '\n' :: y) hc with ⟨h', r', hs, he⟩
    rw [he]
    rw [ih fun hm => h (List.mem_cons_of_mem _ hm)] at hs
    injection hs with e1 e2
    rw [← e1, ← e2]

theorem splitLines_intercalate {ls : List (List Char)}
    (h1 : ∀ l ∈ ls, '\n' ∉ l) (h2 : ls ≠ []) :
    splitLines (List.intercalate ['\n'] ls) = ls := by
  induction ls with
  | nil => exact absurd rfl h2
  | cons l rest ih =>
    cases rest with
    | nil =>
      rw [show List.intercalate ['\n'] [l] = l from by simp [List.intercalate]]
      exact splitLines_of_no_nl (h1 l (by simp))
    | cons m ms =>
      rw [show List.intercalate ['\n'] (l :: m :: ms) =
        l ++ '\n' :: List.intercalate ['\n'] (m :: ms) from by simp [List.intercalate]]
      rw [splitLines_append_nl (h1 l (by simp))]
      rw [ih (fun x hx => h1 x (List.mem_cons_of_mem _ hx)) (by simp)]

theorem mem_intercalate_nl {ls : List (List Char)} {x : Char}
    (h : x ∈ List.intercalate ['\n'] ls) : x = '\n' ∨ ∃ m ∈ ls, x ∈ m := by
  induction ls with
  | nil => simp [List.intercalate] at h
  | cons l rest ih =>
    cases rest with
    | nil =>
      rw [show List.intercalate ['\n'] [l] = l from by simp [List.intercalate]] at h
      exact Or.inr ⟨l, by simp, h⟩
    | cons m ms =>
      rw [show List.intercalate ['\n'] (l :: m :: ms) =
        l ++ '\n' :: List.intercalate ['\n'] (m :: ms) from by simp [List.intercalate]] at h
      rcases List.mem_append.1 h with h2 | h2
      · exact Or.inr ⟨l, by simp, h2⟩
      · rcases List.mem_cons.1 h2 with rfl | h3
        · exact Or.inl rfl
        · rcases ih h3 with h4 | ⟨m', hm', hx⟩
          · exact Or.inl h4
          · exact Or.inr ⟨m', List.mem_cons_of_mem _ hm', hx⟩

/-- Whole-string strip decomposes the string into whitespace, the
stripped core, and whitespace. -/
theorem pyStrip_decomp (l : List Char) :
    ∃ a b, l = a ++ pyStrip l ++ b ∧
      (∀ x ∈ a, isSpaceC x = true) ∧ (∀ x ∈ b, isSpaceC x = true) := by
  refine ⟨l.takeWhile isSpaceC,
    ((l.dropWhile isSpaceC).reverse.takeWhile isSpaceC).reverse, ?_, ?_, ?_⟩
  · conv_lhs => rw [← List.takeWhile_append_dropWhile isSpaceC l]
    rw [List.append_assoc]
    congr 1
    have h2 := List.takeWhile_append_dropWhile isSpaceC ((l.dropWhile isSpaceC).reverse)
    have h3 := congrArg List.reverse h2
    rw [List.reverse_append, List.reverse_reverse] at h3
    exact h3.symm
  · intro x hx
    exact List.mem_takeWhile_imp hx
  · intro x hx
    rw [List.mem_reverse] at hx
    exact List.mem_takeWhile_imp hx

theorem pyStrip_within (l : List Char) : pyStrip l <:+: l := by
  rcases pyStrip_decomp l with ⟨a, b, he, _, _⟩
  exact ⟨a, b, he.symm⟩

/-- The cross-line invariant: every line has the separator property, and
a line with an unclosed opener is followed by closer-free lines only. -/
def chainP (op cl : Char) : List (List Char) → Prop
  | [] => True
  | l :: rest => sepP op cl l ∧
      (∀ u v, l = u ++ op :: v → cl ∉ v → ∀ m ∈ rest, cl ∉ m) ∧
      chainP op cl rest

theorem chainP_of_sepP_aux {op cl : Char} (hcl : cl ≠ '\n') :
    ∀ (n : Nat) (y : List Char), y.length ≤ n → sepP op cl y →
    chainP op cl (splitLines y) := by
  intro n
  induction n with
  | zero =>
    intro y hy _
    obtain rfl : y = [] := List.length_eq_zero.1 (Nat.le_zero.1 hy)
    exact ⟨sepP_nil, fun u v huv _ => by simp at huv, trivial⟩
  | succ n ih =>
    intro y hy hsep
    cases hsl : splitLines y with
    | nil => exact absurd hsl (splitLines_ne_nil y)
    | cons h r =>
      rcases splitLines_head_decomp hsl with ⟨he1, he2⟩ | ⟨t2, he1, he2⟩
      · subst he1
        rw [he2]
        exact ⟨hsep, fun u v _ _ m hm => by simp at hm, trivial⟩
      · subst he1
        refine ⟨sepP_within hsep ⟨[], '\n' :: t2, by simp⟩, ?_, ?_⟩
        · intro u v huv hclv m hm hclm
          have hcl2 : cl ∈ t2 :=
            mem_splitLines_subset (he2 ▸ hm) cl hclm
          have hy2 : h ++ '\n' :: t2 = u ++ op :: (v ++ '\n' :: t2) := by
            rw [huv]
            simp
          rcases hsep u (v ++ '\n' :: t2) hy2 (by simp [hcl2]) with ⟨w, hw⟩
          cases v with
          | nil =>
            injection hw with e1 _
            exact hcl e1.symm
          | cons x xs =>
            rw [List.cons_append] at hw
            injection hw with e1 _
            exact hclv (by simp [e1])
        · have ht2 : t2.length ≤ n := by
            simp [List.length_append] at hy
            omega
          have hsep2 : sepP op cl t2 :=
            sepP_within hsep ⟨h ++ ['\n'], [], by simp⟩
          rw [← he2]
          exact ih t2 ht2 hsep2

theorem chainP_of_sepP {op cl : Char} (hcl : cl ≠ '\n') {y : List Char}
    (h : sepP op cl y) : chainP op cl (splitLines y) :=
  chainP_of_sepP_aux hcl y.length y (le_refl _) h

theorem chainP_map_pyStrip {op cl : Char} (hcl : isSpaceC cl = false) :
    ∀ {ls : List (List Char)}, chainP op cl ls → chainP op cl (ls.map pyStrip) := by
  intro ls
  induction ls with
  | nil => intro h; trivial
  | cons l rest ih =>
    intro h
    obtain ⟨h1, h2, h3⟩ := h
    refine ⟨sepP_within h1 (pyStrip_within l), ?_, ih h3⟩
    intro u v huv hclv m hm hclm
    rcases List.mem_map.1 hm with ⟨m0, hm0, rfl⟩
    rcases pyStrip_decomp l with ⟨a, b, he, _, hb⟩
    have hl : l = (a ++ u) ++ op :: (v ++ b) := by
      rw [he, huv]
      simp
    have hclvb : cl ∉ v ++ b := by
      intro hx
      rcases List.mem_append.1 hx with hx | hx
      · exact hclv hx
      · rw [hb cl hx] at hcl
        cases hcl
    exact h2 (a ++ u) (v ++ b) hl hclvb m0 hm0 (mem_pyStrip hclm)

theorem chainP_filter {op cl : Char} {p : List Char → Bool} :
    ∀ {ls : List (List Char)}, chainP op cl ls → chainP op cl (ls.filter p) := by
  intro ls
  induction ls with
  | nil => intro h; trivial
  | cons l rest ih =>
    intro h
    obtain ⟨h1, h2, h3⟩ := h
    by_cases hp : p l = true
    · rw [List.filter_cons_of_pos hp]
      refine ⟨h1, ?_, ih h3⟩
      intro u v huv hclv m hm
      exact h2 u v huv hclv m (List.mem_of_mem_filter hm)
    · rw [List.filter_cons_of_neg hp]
      exact ih h3

theorem sepP_intercalate {op cl : Char} (hop : op ≠ '\n') (hcl : cl ≠ '\n') :
    ∀ {ls : List (List Char)}, chainP op cl ls →
    sepP op cl (List.intercalate ['\n'] ls) := by
  intro ls
  induction ls with
  | nil =>
    intro _
    rw [show List.intercalate ['\n'] ([] : List (List Char)) = [] from by
      simp [List.intercalate]]
    exact sepP_nil
  | cons l rest ih =>
    intro h
    obtain ⟨h1, h2, h3⟩ := h
    cases rest with
    | nil =>
      rw [show List.intercalate ['\n'] [l] = l from by simp [List.intercalate]]
      exact h1
    | cons m ms =>
      rw [show List.intercalate ['\n'] (l :: m :: ms) =
        l ++ '\n' :: List.intercalate ['\n'] (m :: ms) from by simp [List.intercalate]]
      intro u v huv hcl2
      rcases List.append_eq_append_iff.1 huv with ⟨a', ha1, ha2⟩ | ⟨c', hc1, hc2⟩
      · cases a' with
        | nil =>
          simp at ha2
          first
          | exact absurd ha2.1 hop
          | exact absurd ha2.1 (fun he => hop he.symm)
        | cons x xs =>
          injection ha2 with e1 e2
          exact ih h3 xs v e2 hcl2
      · cases c' with
        | nil =>
          simp at hc2
          first
          | exact absurd hc2.1 hop
          | exact absurd hc2.1 (fun he => hop he.symm)
        | cons x xs =>
          injection hc2 with e1 e2
          subst e1
          have hl : l = u ++ op :: xs := hc1
          have hv : v = xs ++ '\n' :: List.intercalate ['\n'] (m :: ms) := e2
          by_cases hclxs : cl ∈ xs
          · rcases h1 u xs hl hclxs with ⟨w, hw⟩
            rw [hv, hw]
            exact ⟨w ++ '\n' :: List.intercalate ['\n'] (m :: ms), by simp⟩
          · rw [hv] at hcl2
            rcases List.mem_append.1 hcl2 with hx | hx
            · exact absurd hx hclxs
            · rcases List.mem_cons.1 hx with he | hx2
              · exact absurd he hcl
              · rcases mem_intercalate_nl hx2 with he | ⟨mm, hmm, hx3⟩
                · exact absurd he hcl
                · exact absurd hx3 (h2 u xs hl hclxs mm hmm)

theorem cleanSubtitleText_sepP (x : List Char) :
    sepP '<' '>' (cleanSubtitleText x) ∧ sepP '{' '}' (cleanSubtitleText x) := by
  have h0 := tagSub_sepP x
  have hy1 : sepP '<' '>' (pyStrip (tagSub x)) := sepP_within h0.1 (pyStrip_within _)
  have hy2 : sepP '{' '}' (pyStrip (tagSub x)) := sepP_within h0.2 (pyStrip_within _)
  have hc1 := chainP_of_sepP (by decide) hy1
  have hc2 := chainP_of_sepP (by decide) hy2
  have hm1 := chainP_map_pyStrip (by decide) hc1
  have hm2 := chainP_map_pyStrip (by decide) hc2
  have hf1 := @chainP_filter '<' '>' (fun l => l ≠ []) _ hm1
  have hf2 := @chainP_filter '{' '}' (fun l => l ≠ []) _ hm2
  exact ⟨sepP_intercalate (by decide) (by decide) hf1,
    sepP_intercalate (by decide) (by decide) hf2⟩

theorem cleanSubtitleText_noTag (x : List Char) : ¬ hasTagMatch (cleanSubtitleText x) :=
  not_hasTagMatch_of_sepP (cleanSubtitleText_sepP x).1 (cleanSubtitleText_sepP x).2

theorem cleanSubtitleText_lines {x : List Char} (h : cleanSubtitleText x ≠ []) :
    ∀ line ∈ splitLines (cleanSubtitleText x), line ≠ [] ∧ pyStrip line = line := by
  have hnl : ∀ l ∈ (((splitLines (pyStrip (tagSub x))).map pyStrip).filter
      (fun l => l ≠ [])), '\n' ∉ l := by
    intro l hl
    rcases List.mem_map.1 (List.mem_of_mem_filter hl) with ⟨l0, hl0, rfl⟩
    intro hmem
    exact splitLines_no_nl l0 hl0 (mem_pyStrip hmem)
  cases hls : (((splitLines (pyStrip (tagSub x))).map pyStrip).filter
      (fun l => l ≠ [])) with
  | nil =>
    exfalso
    apply h
    show List.intercalate ['\n'] (((splitLines (pyStrip (tagSub x))).map pyStrip).filter
      (fun l => l ≠ [])) = []
    rw [hls]
    simp [List.intercalate]
  | cons l0 rest =>
    intro line hline
    have hsplit : splitLines (cleanSubtitleText x) = l0 :: rest := by
      show splitLines (List.intercalate ['\n']
        (((splitLines (pyStrip (tagSub x))).map pyStrip).filter (fun l => l ≠ []))) = _
      rw [hls] at hnl ⊢
      rw [splitLines_intercalate hnl (by simp)]
    rw [hsplit] at hline
    have hline2 : line ∈ (((splitLines (pyStrip (tagSub x))).map pyStrip).filter
        (fun l => l ≠ [])) := by
      rw [hls]
      exact hline
    constructor
    · have := List.of_mem_filter hline2
      simpa using this
    · rcases List.mem_map.1 (List.mem_of_mem_filter hline2) with ⟨l1, _, rfl⟩
      exact pyStrip_idem l1

/-- C4, restricted to the desktop implementation `src/srt_parser.py` (whose
`_regex_parse` has the `if text:` guard) and to the shared `_block_parse`
tier: every record produced by these tiers has non-empty text, every line of
that text is non-empty and not whitespace-only, and no substring of the text
matches the markup grammar (`<...>` tag or `\x7b...\x7d` directive); a
candidate whose text sanitizes to the empty string never becomes a record.
The claim is FALSE of the program as a whole: `src/app.py`'s `_regex_parse`
appends the record unconditionally, so the web pipeline retains records with
empty text — the theorem below covers only the tiers where the claim holds. -/
theorem c4_text_invariant (content : List Char) (e : SubtitleEntry)
    (h : e ∈ regexParse content ∨ e ∈ blockParse content) :
    e.text ≠ [] ∧ (∀ line ∈ splitLines e.text, pyStrip line ≠ []) ∧
    ¬ hasTagMatch e.text := by
  have hde : ∃ body, e.text = cleanSubtitleText body ∧ cleanSubtitleText body ≠ [] := by
    rcases h with h | h
    · rcases regexParse_mem h with ⟨d, g2, g3, body, _, _, _, _, ht, he⟩
      exact ⟨body, by rw [he], ht⟩
    · rcases blockParse_mem h with ⟨idx, g1, g2, rest, _, _, ht, he⟩
      exact ⟨List.intercalate ['\n'] rest, by rw [he], ht⟩
  rcases hde with ⟨body, hbody, hne⟩
  rw [hbody]
  refine ⟨hne, ?_, cleanSubtitleText_noTag body⟩
  intro line hline
  rcases cleanSubtitleText_lines hne line hline with ⟨h1, h2⟩
  rw [h2]
  exact h1

/-- Witness for C4 at the pattern tier on the spec's own sample input. -/
theorem c4_text_invariant_witness :
    let e : SubtitleEntry :=
      ⟨1, "00:00:01.000".data, "00:00:04.500".data, "Hello, welcome!".data⟩
    e.text ≠ [] ∧
    (∀ line ∈ splitLines e.text, pyStrip line ≠ []) ∧
    ¬ hasTagMatch e.text :=
  c4_text_invariant
    ("1\n00:00:01,000 --> 00:00:04,500\n<i>Hello, welcome!</i>".data)
    ⟨1, "00:00:01.000".data, "00:00:04.500".data, "Hello, welcome!".data⟩
    (Or.inl (by decide))

/-- C4 counterexample against the web implementation: on the document
`"7\n00:01:00,000 --> 00:01:04,000\n\x7by\x7d"`, whose single text line is
pure markup, `src/app.py`'s pipeline returns one record with EMPTY text —
its `_regex_parse` lacks the `if text:` guard — while `src/srt_parser.py`
drops the block as the claim describes. -/
theorem c4_counterexample :
    parseContentWeb (String.toList "7\n00:01:00,000 --> 00:01:04,000\x0a\x7by\x7d") =
      [⟨7, String.toList "00:01:00.000", String.toList "00:01:04.000", []⟩] ∧
    parseContentFile (String.toList "7\n00:01:00,000 --> 00:01:04,000\x0a\x7by\x7d") = [] := by
  refine ⟨?_, ?_⟩ <;> decide

/-! ### Canonical SRT documents and their rendering (claims C1, C3, C8, C9)

A canonical block is an index, a timestamp pair and text lines, rendered
in the canonical SRT grammar: index line, timestamp line
`HH:MM:SS?mmm --> HH:MM:SS?mmm` (`?` a comma or period), the text lines,
and one blank line between consecutive blocks. -/

theorem toNat_ofNat_lt {n : Nat} (h : n < 58) : (Char.ofNat n).toNat = n := by
  have hv : n.isValidChar := by constructor; omega
  rw [Char.ofNat, dif_pos hv]
  rfl

/-- The character of a decimal digit. -/
def digitChar (d : Nat) : Char := Char.ofNat (48 + d % 10)

theorem ule_iff (a b : UInt32) : a ≤ b ↔ a.toNat ≤ b.toNat := ge_iff_le

theorem digitChar_toNat (d : Nat) : (digitChar d).toNat = 48 + d % 10 := by
  have h10 : d % 10 < 10 := Nat.mod_lt _ (by omega)
  exact toNat_ofNat_lt (by omega)

theorem digitChar_isDigit (d : Nat) : isDigitC (digitChar d) = true := by
  have ht := digitChar_toNat d
  have h10 : d % 10 < 10 := Nat.mod_lt _ (by omega)
  unfold digitChar at ht ⊢
  unfold isDigitC Char.isDigit
  simp only [Bool.and_eq_true, decide_eq_true_eq, ge_iff_le]
  rw [ule_iff, ule_iff]
  have h0 : (48 : UInt32).toNat = 48 := rfl
  have h9 : (57 : UInt32).toNat = 57 := rfl
  have hv : (Char.ofNat (48 + d % 10)).val.toNat = 48 + d % 10 := ht
  omega

/-- A rendered timestamp: six time digits and three fraction digits. -/
structure TsStamp where
  h1 : Nat
  h2 : Nat
  m1 : Nat
  m2 : Nat
  s1 : Nat
  s2 : Nat
  f1 : Nat
  f2 : Nat
  f3 : Nat

/-- Render `DD:DD:DD` + separator + `DDD`. -/
def TsStamp.render (t : TsStamp) (sep : Char) : List Char :=
  [digitChar t.h1, digitChar t.h2, ':', digitChar t.m1, digitChar t.m2, ':',
   digitChar t.s1, digitChar t.s2, sep, digitChar t.f1, digitChar t.f2, digitChar t.f3]

/-- Decimal rendering of a natural number (with fuel). -/
def natDigitsF : Nat → Nat → List Char
  | 0, _ => []
  | fuel + 1, n =>
    if n < 10 then [digitChar n]
    else natDigitsF fuel (n / 10) ++ [digitChar (n % 10)]

def natDigits (n : Nat) : List Char := natDigitsF (n + 1) n

theorem natDigitsF_congr : ∀ (f1 n f2 : Nat), n < f1 → n < f2 →
    natDigitsF f1 n = natDigitsF f2 n := by
  intro f1
  induction f1 with
  | zero => intro n f2 h1 _; omega
  | succ f ih =>
    intro n f2 h1 h2
    cases f2 with
    | zero => omega
    | succ f2' =>
      rw [natDigitsF, natDigitsF]
      by_cases hn : n < 10
      · rw [if_pos hn, if_pos hn]
      · rw [if_neg hn, if_neg hn]
        have hd : n / 10 < n := Nat.div_lt_self (by omega) (by omega)
        rw [ih (n / 10) f2' (by omega) (by omega)]

theorem natDigits_eq (n : Nat) :
    natDigits n = if n < 10 then [digitChar n]
      else natDigits (n / 10) ++ [digitChar (n % 10)] := by
  show natDigitsF (n + 1) n = _
  rw [natDigitsF]
  by_cases hn : n < 10
  · rw [if_pos hn, if_pos hn]
  · rw [if_neg hn, if_neg hn]
    have hd : n / 10 < n := Nat.div_lt_self (by omega) (by omega)
    rw [natDigitsF_congr n (n / 10) (n / 10 + 1) (by omega) (by omega)]
    rfl

theorem natDigits_ne_nil (n : Nat) : natDigits n ≠ [] := by
  rw [natDigits_eq]
  by_cases hn : n < 10
  · rw [if_pos hn]; simp
  · rw [if_neg hn]; simp

theorem natDigits_all_digits : ∀ (n : Nat), ∀ c ∈ natDigits n, isDigitC c = true := by
  intro n
  induction n using Nat.strong_induction_on with
  | _ n ih =>
    intro c hc
    rw [natDigits_eq] at hc
    by_cases hn : n < 10
    · rw [if_pos hn] at hc
      rcases List.mem_cons.1 hc with rfl | h
      · exact digitChar_isDigit n
      · cases h
    · rw [if_neg hn] at hc
      rcases List.mem_append.1 hc with h | h
      · exact ih (n / 10) (Nat.div_lt_self (by omega) (by omega)) c h
      · rcases List.mem_cons.1 h with rfl | h2
        · exact digitChar_isDigit _
        · cases h2

theorem natOfDigits_append_one (xs : List Char) (c : Char) :
    natOfDigits (xs ++ [c]) = natOfDigits xs * 10 + (c.toNat - 48) := by
  unfold natOfDigits
  rw [List.foldl_append]
  rfl

theorem natOfDigits_natDigits : ∀ (n : Nat), natOfDigits (natDigits n) = n := by
  intro n
  induction n using Nat.strong_induction_on with
  | _ n ih =>
    rw [natDigits_eq]
    by_cases hn : n < 10
    · rw [if_pos hn]
      show 0 * 10 + ((digitChar n).toNat - 48) = n
      rw [digitChar_toNat]
      omega
    · rw [if_neg hn]
      rw [natOfDigits_append_one]
      rw [ih (n / 10) (Nat.div_lt_self (by omega) (by omega))]
      rw [digitChar_toNat]
      omega

/-- A canonical source block. -/
structure CanonBlock where
  index : Nat
  ts1 : TsStamp
  sep1 : Char
  ts2 : TsStamp
  sep2 : Char
  lines : List (List Char)

/-- Render one block in canonical grammar. -/
def renderBlock (b : CanonBlock) : List Char :=
  natDigits b.index ++ '\n' :: b.ts1.render b.sep1 ++
  ' ' :: '-' :: '-' :: '>' :: ' ' :: b.ts2.render b.sep2 ++
  '\n' :: List.intercalate ['\n'] b.lines

/-- Render a block sequence with one blank line between blocks. -/
def renderDoc : List CanonBlock → List Char
  | [] => []
  | [b] => renderBlock b
  | b :: bs => renderBlock b ++ '\n' :: '\n' :: renderDoc bs

/-- A well-formed text line of a canonical block: non-empty, on one
line, without carriage returns, and without surrounding whitespace. -/
def goodLine (l : List Char) : Prop :=
  l ≠ [] ∧ '\n' ∉ l ∧ '\r' ∉ l ∧ pyStrip l = l

/-- A line that is purely an integer (the shape the body lookahead keys
on, with stripped lines). -/
def allDigitsL (l : List Char) : Bool :=
  !l.isEmpty && l.all isDigitC

/-- Hypotheses on a canonical block under which the pattern tier
recovers it exactly (the amended C1): valid separators, at least one
text line, well-formed text lines, no text line that is purely digits
followed by a line starting with the `DD:DD:DD` shape, and a text body
whose tag-stripped form keeps every line non-empty and stripped. -/
def goodBlock (b : CanonBlock) : Prop :=
  0 < b.index ∧
  (b.sep1 = ',' ∨ b.sep1 = '.') ∧ (b.sep2 = ',' ∨ b.sep2 = '.') ∧
  b.lines ≠ [] ∧ (∀ l ∈ b.lines, goodLine l) ∧
  List.Chain' (fun a c => ¬(allDigitsL a = true ∧ ts8 c = true)) b.lines ∧
  (∀ l' ∈ splitLines (tagSub (List.intercalate ['\n'] b.lines)),
    l' ≠ [] ∧ pyStrip l' = l')

/-- The record the round-trip produces for a canonical block. -/
def expectedRecord (b : CanonBlock) : SubtitleEntry :=
  ⟨Int.ofNat b.index, b.ts1.render '.', b.ts2.render '.',
    tagSub (List.intercalate ['\n'] b.lines)⟩

/-! #### Character-class and stripped-string utilities -/

theorem isSpaceC_false_of_digit {c : Char} (h : isDigitC c = true) : isSpaceC c = false := by
  by_contra hs
  rw [Bool.not_eq_false] at hs
  unfold isSpaceC at hs
  simp only [Bool.or_eq_true, decide_eq_true_eq] at hs
  rcases hs with ((((rfl | rfl) | rfl) | rfl) | rfl) | rfl <;> simp [isDigitC] at h

theorem takeWhile_dropWhile_nil (p : Char → Bool) (l : List Char) :
    (l.dropWhile p).takeWhile p = [] := by
  induction l with
  | nil => rfl
  | cons c t ih =>
    by_cases hc : p c = true
    · rw [List.dropWhile_cons_of_pos hc]
      exact ih
    · rw [List.dropWhile_cons_of_neg hc, List.takeWhile_cons_of_neg hc]

theorem takeWhile_nil_of_pref {p : Char → Bool} {l m : List Char}
    (h : l <+: m) (hm : m.takeWhile p = []) : l.takeWhile p = [] := by
  cases l with
  | nil => rfl
  | cons c t =>
    rcases h with ⟨r, hr⟩
    subst hr
    by_cases hc : p c = true
    · rw [List.cons_append, List.takeWhile_cons_of_pos hc] at hm
      cases hm
    · rw [List.takeWhile_cons_of_neg hc]

theorem pyStrip_takeWhile_facts (l : List Char) :
    (pyStrip l).takeWhile isSpaceC = [] ∧ (pyStrip l).reverse.takeWhile isSpaceC = [] := by
  constructor
  · have hsuf : ((l.dropWhile isSpaceC).reverse.dropWhile isSpaceC) <:+
        (l.dropWhile isSpaceC).reverse := List.dropWhile_suffix _
    have h2 : ((l.dropWhile isSpaceC).reverse.dropWhile isSpaceC).reverse <+:
        (l.dropWhile isSpaceC).reverse.reverse := List.reverse_prefix.2 hsuf
    rw [List.reverse_reverse] at h2
    exact takeWhile_nil_of_pref h2 (takeWhile_dropWhile_nil isSpaceC l)
  · unfold pyStrip
    rw [List.reverse_reverse]
    exact takeWhile_dropWhile_nil isSpaceC _

theorem pyStrip_eq_self_facts {l : List Char} (h : pyStrip l = l) :
    l.takeWhile isSpaceC = [] ∧ l.reverse.takeWhile isSpaceC = [] := by
  rw [← h]
  exact pyStrip_takeWhile_facts l

theorem dropWhile_eq_self_of_takeWhile_nil {p : Char → Bool} {l : List Char}
    (h : l.takeWhile p = []) : l.dropWhile p = l := by
  cases l with
  | nil => rfl
  | cons c t =>
    by_cases hc : p c = true
    · rw [List.takeWhile_cons_of_pos hc] at h
      cases h
    · rw [List.dropWhile_cons_of_neg hc]

theorem pyStrip_eq_self {y : List Char} (h1 : y.takeWhile isSpaceC = [])
    (h2 : y.reverse.takeWhile isSpaceC = []) : pyStrip y = y := by
  unfold pyStrip
  rw [dropWhile_eq_self_of_takeWhile_nil h1, dropWhile_eq_self_of_takeWhile_nil h2,
    List.reverse_reverse]

theorem takeWhile_nil_head {p : Char → Bool} {c : Char} {t : List Char}
    (h : (c :: t).takeWhile p = []) : p c = false := by
  by_cases hc : p c = true
  · rw [List.takeWhile_cons_of_pos hc] at h
    cases h
  · exact Bool.eq_false_iff.mpr hc

theorem takeWhile_append_nil {p : Char → Bool} {a : List Char} (b : List Char)
    (hne : a ≠ []) (h : a.takeWhile p = []) : (a ++ b).takeWhile p = [] := by
  cases a with
  | nil => exact absurd rfl hne
  | cons c t =>
    have hc : p c = false := takeWhile_nil_head h
    rw [List.cons_append, List.takeWhile_cons_of_neg (by simp [hc])]

theorem takeWhile_append_stop {p : Char → Bool} {a b : List Char}
    (ha : ∀ c ∈ a, p c = true) (hb : b.takeWhile p = []) :
    (a ++ b).takeWhile p = a := by
  rw [List.takeWhile_append_of_pos ha, hb, List.append_nil]

/-! #### Rejoining split lines -/

theorem splitLines_join : ∀ (y : List Char), List.intercalate ['\n'] (splitLines y) = y := by
  intro y
  induction y with
  | nil => simp [List.intercalate, splitLines]
  | cons c t ih =>
    by_cases hc : c = '\n'
    · subst hc
      rw [show splitLines ('\n' :: t) = [] :: splitLines t from rfl]
      cases hs : splitLines t with
      | nil => exact absurd hs (splitLines_ne_nil t)
      | cons h r =>
        rw [show List.intercalate ['\n'] ([] :: h :: r) =
          [] ++ '\n' :: List.intercalate ['\n'] (h :: r) from by simp [List.intercalate]]
        rw [← hs, ih]
        rfl
    · rcases splitLines_cons_of_ne hc with ⟨h, r, hs, he⟩
      rw [he]
      cases r with
      | nil =>
        rw [show List.intercalate ['\n'] [c :: h] = c :: h from by simp [List.intercalate]]
        rw [hs] at ih
        rw [show List.intercalate ['\n'] [h] = h from by simp [List.intercalate]] at ih
        rw [ih]
      | cons m ms =>
        rw [show List.intercalate ['\n'] ((c :: h) :: m :: ms) =
          (c :: h) ++ '\n' :: List.intercalate ['\n'] (m :: ms) from by simp [List.intercalate]]
        rw [hs] at ih
        rw [show List.intercalate ['\n'] (h :: m :: ms) =
          h ++ '\n' :: List.intercalate ['\n'] (m :: ms) from by simp [List.intercalate]] at ih
        rw [List.cons_append, ih]

/-- A string whose every line is non-empty and stripped is itself
stripped. -/
theorem stripped_of_lines_aux : ∀ (n : Nat) (y : List Char), y.length ≤ n →
    (∀ l ∈ splitLines y, l ≠ [] ∧ pyStrip l = l) → pyStrip y = y := by
  intro n
  induction n with
  | zero =>
    intro y hy _
    rw [List.length_eq_zero.1 (Nat.le_zero.1 hy)]
    rfl
  | succ n ih =>
    intro y hy hl
    cases hs : splitLines y with
    | nil => exact absurd hs (splitLines_ne_nil y)
    | cons h r =>
      rcases splitLines_head_decomp hs with ⟨he1, _⟩ | ⟨t2, he1, he2⟩
      · rw [he1]
        exact (hl h (hs ▸ List.mem_cons_self _ _)).2
      · subst he1
        have hh := hl h (hs ▸ List.mem_cons_self _ _)
        have ht2lines : ∀ l ∈ splitLines t2, l ≠ [] ∧ pyStrip l = l := by
          intro l hlm
          exact hl l (by rw [hs]; exact List.mem_cons_of_mem _ (he2 ▸ hlm))
        have ht2ne : t2 ≠ [] := by
          intro he
          subst he
          have := ht2lines [] (by rw [show splitLines [] = [[]] from rfl]; simp)
          exact this.1 rfl
        have hlen : t2.length ≤ n := by
          simp [List.length_append] at hy
          omega
        have hstrip2 := pyStrip_eq_self_facts (ih t2 hlen ht2lines)
        have hfacts_h := pyStrip_eq_self_facts hh.2
        apply pyStrip_eq_self
        · exact takeWhile_append_nil _ hh.1 hfacts_h.1
        · rw [List.reverse_append,
            show ('\n' :: t2).reverse = t2.reverse ++ ['\n'] from by simp,
            List.append_assoc]
          exact takeWhile_append_nil _ (by simp [ht2ne]) hstrip2.2

theorem stripped_of_lines {y : List Char}
    (h : ∀ l ∈ splitLines y, l ≠ [] ∧ pyStrip l = l) : pyStrip y = y :=
  stripped_of_lines_aux y.length y (le_refl _) h

theorem intercalate_single (l : List Char) : List.intercalate ['\n'] [l] = l := by
  simp [List.intercalate]

theorem intercalate_cons_cons (l m : List Char) (ms : List (List Char)) :
    List.intercalate ['\n'] (l :: m :: ms) = l ++ '\n' :: List.intercalate ['\n'] (m :: ms) := by
  simp [List.intercalate]

theorem intercalate_head (l : List Char) (rest : List (List Char)) :
    ∃ w, List.intercalate ['\n'] (l :: rest) = l ++ w := by
  cases rest with
  | nil => exact ⟨[], by rw [intercalate_single, List.append_nil]⟩
  | cons m ms => exact ⟨'\n' :: List.intercalate ['\n'] (m :: ms), intercalate_cons_cons l m ms⟩

/-! #### Splitting off the first line -/

theorem lineSplit_cons_ne {c : Char} {t : List Char} (hc : c ≠ '\n') :
    lineSplit (c :: t) = (c :: (lineSplit t).1, (lineSplit t).2) := by
  cases t <;> simp_all [lineSplit]

theorem lineSplit_no_nl {a : List Char} (h : '\n' ∉ a) : lineSplit a = (a, []) := by
  induction a with
  | nil => rfl
  | cons c t ih =>
    have hc : c ≠ '\n' := fun he => h (by simp [he])
    rw [lineSplit_cons_ne hc, ih (fun hm => h (List.mem_cons_of_mem _ hm))]

theorem lineSplit_append {a b : List Char} (h : '\n' ∉ a) :
    lineSplit (a ++ '\n' :: b) = (a, '\n' :: b) := by
  induction a with
  | nil => rfl
  | cons c t ih =>
    have hc : c ≠ '\n' := fun he => h (by simp [he])
    rw [List.cons_append, lineSplit_cons_ne hc, ih (fun hm => h (List.mem_cons_of_mem _ hm))]

/-! #### The eight-character lookahead shape under line extension -/

theorem digAt_eq_false_of_get {X : List Char} {k : Nat}
    (h : X.get? k = some '\n') : digAt X k = false := by
  unfold digAt
  rw [h]
  decide

theorem chAt_eq_false_of_get {X : List Char} {k : Nat}
    (h : X.get? k = some '\n') : chAt X k ':' = false := by
  unfold chAt
  rw [h]
  decide

theorem digAt_append_lt {l s : List Char} {i : Nat} (h : i < l.length) :
    digAt (l ++ s) i = digAt l i := by
  unfold digAt
  rw [List.get?_append h]

theorem chAt_append_lt {l s : List Char} {i : Nat} {c : Char} (h : i < l.length) :
    chAt (l ++ s) i c = chAt l i c := by
  unfold chAt
  rw [List.get?_append h]

theorem ts8_append_nl {l s : List Char} (h : '\n' ∉ l) :
    ts8 (l ++ '\n' :: s) = ts8 l := by
  by_cases hlen : 8 ≤ l.length
  · unfold ts8
    rw [digAt_append_lt (by omega), digAt_append_lt (by omega), chAt_append_lt (by omega),
      digAt_append_lt (by omega), digAt_append_lt (by omega), chAt_append_lt (by omega),
      digAt_append_lt (by omega), digAt_append_lt (by omega)]
  · have hget : (l ++ '\n' :: s).get? l.length = some '\n' := by
      rw [List.get?_append_right (le_refl _)]
      simp
    have h7 : l.get? 7 = none := List.get?_eq_none.2 (by omega)
    have hd7 : digAt l 7 = false := by
      unfold digAt
      rw [h7]
    have hts : ts8 l = false := by
      simp [ts8, hd7]
    rw [hts]
    have hcase : l.length = 0 ∨ l.length = 1 ∨ l.length = 2 ∨ l.length = 3 ∨
        l.length = 4 ∨ l.length = 5 ∨ l.length = 6 ∨ l.length = 7 := by omega
    rcases hcase with h0|h0|h0|h0|h0|h0|h0|h0 <;> rw [h0] at hget <;>
      first
        | (simp [ts8, digAt_eq_false_of_get hget]; done)
        | (simp [ts8, chAt_eq_false_of_get hget]; done)

theorem ts8_false_head_nondigit {c : Char} {w : List Char} (h : isDigitC c = false) :
    ts8 (c :: w) = false := by
  simp [ts8, digAt, h]

theorem ts8_digits_nl_false {d v : List Char} (hd : d ≠ [])
    (hdig : ∀ c ∈ d, isDigitC c = true) : ts8 (d ++ '\n' :: v) = false := by
  match d, hd with
  | [c1], _ =>
    have hn : isDigitC '\n' = false := by decide
    simp [ts8, digAt, hn]
  | [c1, c2], _ =>
    have hn : ('\n' : Char) ≠ ':' := by decide
    simp [ts8, chAt, hn]
  | c1 :: c2 :: c3 :: d3, _ =>
    have hc3 : isDigitC c3 = true := hdig c3 (by simp)
    have hne : c3 ≠ ':' := by
      intro he
      rw [he] at hc3
      exact absurd hc3 (by decide)
    simp [ts8, chAt, hne]

/-! #### When the body lookahead fails -/

theorem lookaheadHeader_eq (l : List Char) :
    lookaheadHeader l = (!(l.takeWhile isDigitC).isEmpty &&
      ((l.drop (l.takeWhile isDigitC).length).takeWhile isSpaceC).contains '\n' &&
      ts8 (afterLastNl ((l.drop (l.takeWhile isDigitC).length).takeWhile isSpaceC) ++
        (l.drop (l.takeWhile isDigitC).length).drop
          ((l.drop (l.takeWhile isDigitC).length).takeWhile isSpaceC).length)) := rfl

theorem dropWhile_head_false {p : Char → Bool} : ∀ {l : List Char} {c : Char} {t : List Char},
    l.dropWhile p = c :: t → p c = false := by
  intro l
  induction l with
  | nil => intro c t h; cases h
  | cons a as ih =>
    intro c t h
    by_cases ha : p a = true
    · rw [List.dropWhile_cons_of_pos ha] at h
      exact ih h
    · rw [List.dropWhile_cons_of_neg ha] at h
      injection h with e1 _
      rw [← e1]
      exact Bool.eq_false_iff.mpr ha

theorem not_allDigits_decomp {l : List Char} (hne : l ≠ []) (h : allDigitsL l = false) :
    ∃ m0 mt, l.dropWhile isDigitC = m0 :: mt ∧ isDigitC m0 = false := by
  have hall : l.all isDigitC = false := by
    unfold allDigitsL at h
    rcases Bool.and_eq_false_iff.1 h with h1 | h1
    · exfalso
      simp [List.isEmpty_iff] at h1
      exact hne h1
    · exact h1
  have hx : ∃ x ∈ l, ¬ isDigitC x = true := by
    by_contra hno
    push_neg at hno
    rw [List.all_eq_true.2 hno] at hall
    cases hall
  rcases hx with ⟨x, hxl, hxd⟩
  have hlt := length_takeWhile_lt_of_mem hxl (Bool.eq_false_iff.mpr hxd)
  cases hm : l.dropWhile isDigitC with
  | nil =>
    have h2 := List.takeWhile_append_dropWhile isDigitC l
    rw [hm, List.append_nil] at h2
    rw [h2] at hlt
    exact absurd hlt (lt_irrefl _)
  | cons m0 mt => exact ⟨m0, mt, rfl, dropWhile_head_false hm⟩

theorem lookaheadHeader_false_of_not_digits {l : List Char} (r : List Char)
    (hgl : goodLine l) (hnd : allDigitsL l = false) :
    lookaheadHeader (l ++ r) = false := by
  obtain ⟨hne, hnl, _, hstrip⟩ := hgl
  rcases not_allDigits_decomp hne hnd with ⟨m0, mt, hm, hm0⟩
  by_cases hh : l.takeWhile isDigitC = []
  · have hlr : (l ++ r).takeWhile isDigitC = [] := takeWhile_append_nil r hne hh
    rw [lookaheadHeader_eq, hlr]
    simp
  · have hdec := List.takeWhile_append_dropWhile isDigitC l
    have hb : ((l.dropWhile isDigitC) ++ r).takeWhile isDigitC = [] := by
      rw [hm, List.cons_append, List.takeWhile_cons_of_neg (by simp [hm0])]
    have hsplit : l ++ r = l.takeWhile isDigitC ++ (l.dropWhile isDigitC ++ r) := by
      rw [← List.append_assoc, hdec]
    have hd : (l ++ r).takeWhile isDigitC = l.takeWhile isDigitC := by
      rw [hsplit]
      exact takeWhile_append_stop (fun c hc => List.mem_takeWhile_imp hc) hb
    have hdrop : (l ++ r).drop (l.takeWhile isDigitC).length = l.dropWhile isDigitC ++ r := by
      conv_lhs => rw [hsplit]
      exact List.drop_left _ _
    have hpre : (l.dropWhile isDigitC).reverse <+: l.reverse := by
      refine ⟨(l.takeWhile isDigitC).reverse, ?_⟩
      rw [← List.reverse_append, hdec]
    have hrev : (l.dropWhile isDigitC).reverse.takeWhile isSpaceC = [] :=
      takeWhile_nil_of_pref hpre (pyStrip_eq_self_facts hstrip).2
    obtain ⟨q0, qt, hq⟩ : ∃ q0 qt, (l.dropWhile isDigitC).reverse = q0 :: qt := by
      rw [hm]
      cases hmr : (m0 :: mt).reverse with
      | nil => exact absurd (congrArg List.length hmr) (by simp)
      | cons a b => exact ⟨a, b, rfl⟩
    have hq0 : isSpaceC q0 = false := takeWhile_nil_head (hq ▸ hrev)
    have hq0m : q0 ∈ l.dropWhile isDigitC := by
      rw [← List.mem_reverse, hq]
      simp
    have hwlen : ((l.dropWhile isDigitC).takeWhile isSpaceC).length <
        (l.dropWhile isDigitC).length := length_takeWhile_lt_of_mem hq0m hq0
    have hw : ((l.dropWhile isDigitC) ++ r).takeWhile isSpaceC =
        (l.dropWhile isDigitC).takeWhile isSpaceC := by
      rw [List.takeWhile_append, if_neg (by omega)]
    have hcont : ((l.dropWhile isDigitC).takeWhile isSpaceC).contains '\n' = false := by
      rw [Bool.eq_false_iff]
      intro hc
      have hmem : '\n' ∈ (l.dropWhile isDigitC).takeWhile isSpaceC := by
        simpa [List.contains] using hc
      exact hnl ((List.dropWhile_sublist isDigitC).subset
        ((List.takeWhile_sublist isSpaceC).subset hmem))
    rw [lookaheadHeader_eq, hd, hdrop, hw, hcont]
    simp

theorem lookaheadHeader_digits_eq {l : List Char} (r : List Char) (hne : l ≠ [])
    (hdig : ∀ c ∈ l, isDigitC c = true) (hr : r.takeWhile isDigitC = []) :
    lookaheadHeader (l ++ r) =
      ((r.takeWhile isSpaceC).contains '\n' &&
        ts8 (afterLastNl (r.takeWhile isSpaceC) ++ r.drop (r.takeWhile isSpaceC).length)) := by
  have hd : (l ++ r).takeWhile isDigitC = l := takeWhile_append_stop hdig hr
  have hdrop : (l ++ r).drop l.length = r := List.drop_left _ _
  have hie : l.isEmpty = false := by
    cases l with
    | nil => exact absurd rfl hne
    | cons a b => rfl
  rw [lookaheadHeader_eq, hd, hdrop, hie]
  simp

/-- The shapes that may follow a body line in a canonical document:
nothing, a newline and a further line, or the blank-line separator and
the next block.  The header shape `ts8` must fail right after the
newline only when the line itself is purely digits (`b`). -/
def lookRest (b : Bool) (r : List Char) : Prop :=
  r = [] ∨ ∃ c w, (r = '\n' :: (c :: w) ∨ r = '\n' :: '\n' :: (c :: w)) ∧
    isSpaceC c = false ∧ (b = true → ts8 (c :: w) = false)

theorem lookahead_false_good {l r : List Char} (hgl : goodLine l)
    (hR : lookRest (allDigitsL l) r) : lookaheadHeader (l ++ r) = false := by
  by_cases had : allDigitsL l = true
  · have hne := hgl.1
    have hdig : ∀ c ∈ l, isDigitC c = true := by
      have h2 : l.all isDigitC = true := by
        unfold allDigitsL at had
        rw [Bool.and_eq_true] at had
        exact had.2
      exact fun c hc => List.all_eq_true.1 h2 c hc
    rcases hR with rfl | ⟨c, w, hsh, hcs, hts0⟩
    · rw [lookaheadHeader_digits_eq [] hne hdig rfl]
      simp
    · have hts := hts0 had
      rcases hsh with rfl | rfl
      · have hr0 : (('\n' : Char) :: (c :: w)).takeWhile isDigitC = [] := by
          rw [List.takeWhile_cons_of_neg (by decide)]
        rw [lookaheadHeader_digits_eq _ hne hdig hr0]
        have hw : (('\n' : Char) :: (c :: w)).takeWhile isSpaceC = ['\n'] := by
          rw [List.takeWhile_cons_of_pos (by decide), List.takeWhile_cons_of_neg (by simp [hcs])]
        rw [hw, show afterLastNl ['\n'] = [] from rfl]
        simp [hts]
      · have hr0 : (('\n' : Char) :: ('\n' :: (c :: w))).takeWhile isDigitC = [] := by
          rw [List.takeWhile_cons_of_neg (by decide)]
        rw [lookaheadHeader_digits_eq _ hne hdig hr0]
        have hw : (('\n' : Char) :: ('\n' :: (c :: w))).takeWhile isSpaceC = ['\n', '\n'] := by
          rw [List.takeWhile_cons_of_pos (by decide), List.takeWhile_cons_of_pos (by decide),
            List.takeWhile_cons_of_neg (by simp [hcs])]
        rw [hw, show afterLastNl ['\n', '\n'] = [] from rfl]
        simp [hts]
  · exact lookaheadHeader_false_of_not_digits r hgl (Bool.eq_false_iff.mpr had)

/-! #### The body engine on a canonical text body -/

theorem ts8_append_tail {m u : List Char} (hnl : '\n' ∉ m)
    (hu : u = [] ∨ ∃ u2, u = '\n' :: u2) : ts8 (m ++ u) = ts8 m := by
  rcases hu with rfl | ⟨u2, rfl⟩
  · rw [List.append_nil]
  · exact ts8_append_nl hnl

theorem bodyScan_good : ∀ (lines : List (List Char)) (s : List Char),
    lines ≠ [] → (∀ l ∈ lines, goodLine l) →
    List.Chain' (fun a c => ¬(allDigitsL a = true ∧ ts8 c = true)) lines →
    (s = [] ∨ ∃ c w, s = '\n' :: '\n' :: (c :: w) ∧ isSpaceC c = false ∧ ts8 (c :: w) = false) →
    bodyScan (List.intercalate ['\n'] lines ++ s) =
      (List.intercalate ['\n'] lines ++ s.take 1, s.drop 1) := by
  intro lines
  induction lines with
  | nil => intro s hne _ _ _; exact absurd rfl hne
  | cons l rest ih =>
    intro s _ hg hch hs
    have hgl : goodLine l := hg l (List.mem_cons_self _ _)
    obtain ⟨c0, t0, hl0⟩ : ∃ c0 t0, l = c0 :: t0 := by
      cases l with
      | nil => exact absurd rfl hgl.1
      | cons a b => exact ⟨a, b, rfl⟩
    have hc0nl : c0 ≠ '\n' := fun he => hgl.2.1 (by rw [hl0, he]; simp)
    have ht0nl : '\n' ∉ t0 := fun hm => hgl.2.1 (by rw [hl0]; exact List.mem_cons_of_mem _ hm)
    cases rest with
    | nil =>
      rw [intercalate_single]
      rcases hs with rfl | ⟨c, w, rfl, hcs, hts⟩
      · have hlk : lookaheadHeader (c0 :: t0) = false := by
          rw [show (c0 :: t0) = l ++ [] from by rw [hl0, List.append_nil]]
          exact lookahead_false_good hgl (Or.inl rfl)
        have hstop : ¬(c0 = '\n' ∨ lookaheadHeader (c0 :: t0) = true) := by
          rw [hlk]
          simp [hc0nl]
        rw [List.append_nil, hl0, bodyScan_last hstop (lineSplit_no_nl ht0nl)]
        simp
      · have hlk : lookaheadHeader (l ++ ('\n' :: '\n' :: (c :: w))) = false :=
          lookahead_false_good hgl
            (Or.inr ⟨c, w, Or.inr rfl, hcs, fun _ => hts⟩)
        rw [hl0, List.cons_append] at hlk
        have hstop : ¬(c0 = '\n' ∨
            lookaheadHeader (c0 :: (t0 ++ '\n' :: '\n' :: (c :: w))) = true) := by
          rw [hlk]
          simp [hc0nl]
        have hls : lineSplit (t0 ++ '\n' :: ('\n' :: (c :: w))) =
            (t0, '\n' :: ('\n' :: (c :: w))) := lineSplit_append ht0nl
        rw [hl0, List.cons_append, bodyScan_line hstop hls,
          bodyScan_stop (Or.inl rfl)]
        simp
    | cons m ms =>
      have hgm : goodLine m := hg m (List.mem_cons_of_mem _ (List.mem_cons_self _ _))
      obtain ⟨c1, t1, hm1⟩ : ∃ c1 t1, m = c1 :: t1 := by
        cases m with
        | nil => exact absurd rfl hgm.1
        | cons a b => exact ⟨a, b, rfl⟩
      have hc1sp : isSpaceC c1 = false :=
        takeWhile_nil_head (hm1 ▸ (pyStrip_eq_self_facts hgm.2.2.2).1)
      obtain ⟨w', hw'⟩ := intercalate_head m ms
      have hu : ∃ u, List.intercalate ['\n'] (m :: ms) ++ s = m ++ u ∧
          (u = [] ∨ ∃ u2, u = '\n' :: u2) := by
        cases ms with
        | nil =>
          rcases hs with rfl | ⟨c, w, rfl, _, _⟩
          · exact ⟨[], by rw [intercalate_single], Or.inl rfl⟩
          · exact ⟨'\n' :: '\n' :: (c :: w), by rw [intercalate_single], Or.inr ⟨_, rfl⟩⟩
        | cons m2 ms2 =>
          refine ⟨'\n' :: (List.intercalate ['\n'] (m2 :: ms2) ++ s), ?_, Or.inr ⟨_, rfl⟩⟩
          rw [intercalate_cons_cons, List.append_assoc]
          rfl
      rcases hu with ⟨u, hu1, hu2⟩
      have hRm : List.Chain' (fun a c => ¬(allDigitsL a = true ∧ ts8 c = true)) (m :: ms) ∧
          ¬(allDigitsL l = true ∧ ts8 m = true) := by
        rw [List.chain'_cons] at hch
        exact ⟨hch.2, hch.1⟩
      have hlkR : lookRest (allDigitsL l) ('\n' :: (List.intercalate ['\n'] (m :: ms) ++ s)) := by
        refine Or.inr ⟨c1, t1 ++ u, ?_, hc1sp, ?_⟩
        · left
          rw [hu1, hm1, List.cons_append]
        · intro hadl
          have hts8m : ts8 m = false := by
            rw [Bool.eq_false_iff]
            intro htr
            exact hRm.2 ⟨hadl, htr⟩
          rw [show (c1 :: (t1 ++ u)) = m ++ u from by rw [hm1, List.cons_append]]
          rw [ts8_append_tail hgm.2.1 hu2, hts8m]
      have hlk : lookaheadHeader
          (l ++ '\n' :: (List.intercalate ['\n'] (m :: ms) ++ s)) = false :=
        lookahead_false_good hgl hlkR
      rw [hl0, List.cons_append] at hlk
      have hstop : ¬(c0 = '\n' ∨ lookaheadHeader
          (c0 :: (t0 ++ '\n' :: (List.intercalate ['\n'] (m :: ms) ++ s))) = true) := by
        rw [hlk]
        simp [hc0nl]
      have hls : lineSplit (t0 ++ '\n' :: (List.intercalate ['\n'] (m :: ms) ++ s)) =
          (t0, '\n' :: (List.intercalate ['\n'] (m :: ms) ++ s)) := lineSplit_append ht0nl
      have hih := ih s (by simp) (fun x hx => hg x (List.mem_cons_of_mem _ hx)) hRm.1 hs
      rw [intercalate_cons_cons, List.append_assoc, List.cons_append, hl0, List.cons_append,
        bodyScan_line hstop hls]
      rw [hih]
      simp [List.cons_append, List.append_assoc]

/-! #### The pattern tier on a rendered canonical block -/

theorem render_head_decomp (t : TsStamp) (sep : Char) (X : List Char) :
    t.render sep ++ X = digitChar t.h1 :: (digitChar t.h2 :: ':' :: digitChar t.m1 ::
      digitChar t.m2 :: ':' :: digitChar t.s1 :: digitChar t.s2 :: sep ::
      digitChar t.f1 :: digitChar t.f2 :: digitChar t.f3 :: X) := by
  simp [TsStamp.render]

theorem render_takeWhile_space (t : TsStamp) (sep : Char) (X : List Char) :
    (t.render sep ++ X).takeWhile isSpaceC = [] := by
  rw [render_head_decomp, List.takeWhile_cons_of_neg (by
    simp [isSpaceC_false_of_digit (digitChar_isDigit t.h1)])]

theorem render_dropWhile_space (t : TsStamp) (sep : Char) (X : List Char) :
    (t.render sep ++ X).dropWhile isSpaceC = t.render sep ++ X :=
  dropWhile_eq_self_of_takeWhile_nil (render_takeWhile_space t sep X)

theorem tsMatch_render (t : TsStamp) {sep : Char} (hsep : sep = ',' ∨ sep = '.')
    (r : List Char) : tsMatch (t.render sep ++ r) = some (t.render sep, r) := by
  rcases hsep with rfl | rfl <;>
    simp [TsStamp.render, tsMatch, digitChar_isDigit]

theorem digitChar_ne_comma (d : Nat) : digitChar d ≠ ',' := by
  intro he
  have ht := digitChar_toNat d
  rw [he] at ht
  have hc : (',' : Char).toNat = 44 := rfl
  omega

theorem commaToDot_render (t : TsStamp) {sep : Char} (hsep : sep = ',' ∨ sep = '.') :
    commaToDot (t.render sep) = t.render '.' := by
  have h1 : ∀ d : Nat, (if digitChar d = ',' then '.' else digitChar d) = digitChar d :=
    fun d => if_neg (digitChar_ne_comma d)
  have h2 : ((':' : Char) = ',') = False := by simp
  rcases hsep with rfl | rfl <;> simp [TsStamp.render, commaToDot, h1, h2]

theorem matchAfterIdx_render (b : CanonBlock) (hb : goodBlock b) (s : List Char)
    (hs : s = [] ∨ ∃ c w, s = '\n' :: '\n' :: (c :: w) ∧ isSpaceC c = false ∧
      ts8 (c :: w) = false) :
    matchAfterIdx ('\n' :: (b.ts1.render b.sep1 ++
        (' ' :: '-' :: '-' :: '>' :: ' ' :: (b.ts2.render b.sep2 ++
          ('\n' :: (List.intercalate ['\n'] b.lines ++ s)))))) =
      some (b.ts1.render b.sep1, b.ts2.render b.sep2,
        List.intercalate ['\n'] b.lines ++ s.take 1, s.drop 1) := by
  obtain ⟨hidx, hsep1, hsep2, hlne, hgood, hchain, hsan⟩ := hb
  obtain ⟨l0, rest0, hl⟩ : ∃ l0 rest0, b.lines = l0 :: rest0 := by
    cases hbl : b.lines with
    | nil => exact absurd hbl hlne
    | cons a r => exact ⟨a, r, rfl⟩
  have hgl0 : goodLine l0 := hgood l0 (hl ▸ List.mem_cons_self _ _)
  obtain ⟨c0, t0, hc0⟩ : ∃ c0 t0, l0 = c0 :: t0 := by
    cases hbl : l0 with
    | nil => exact absurd hbl hgl0.1
    | cons a r => exact ⟨a, r, rfl⟩
  have hILtw : (List.intercalate ['\n'] b.lines).takeWhile isSpaceC = [] := by
    obtain ⟨w, hw⟩ := intercalate_head l0 rest0
    rw [hl, hw]
    exact takeWhile_append_nil _ (by rw [hc0]; simp)
      (takeWhile_nil_of_pref ⟨[], by rw [List.append_nil, ← hc0]⟩
        (hc0 ▸ (pyStrip_eq_self_facts hgl0.2.2.2).1))
  have hILne : List.intercalate ['\n'] b.lines ≠ [] := by
    obtain ⟨w, hw⟩ := intercalate_head l0 rest0
    rw [hl, hw, hc0]
    simp
  have hBFtw : (List.intercalate ['\n'] b.lines ++ s).takeWhile isSpaceC = [] :=
    takeWhile_append_nil _ hILne hILtw
  have hbody := bodyScan_good b.lines s hlne hgood hchain hs
  have htry : tryBodies [[]] (List.intercalate ['\n'] b.lines ++ s) =
      some (List.intercalate ['\n'] b.lines ++ s.take 1, s.drop 1) := by
    show (if (bodyScan ([] ++ (List.intercalate ['\n'] b.lines ++ s))).1 = []
      then tryBodies [] (List.intercalate ['\n'] b.lines ++ s)
      else some (bodyScan ([] ++ (List.intercalate ['\n'] b.lines ++ s)))) = _
    rw [List.nil_append, hbody, if_neg (by simp [hILne])]
  have e1 : (('\n' : Char) :: (b.ts1.render b.sep1 ++
      (' ' :: '-' :: '-' :: '>' :: ' ' :: (b.ts2.render b.sep2 ++
        ('\n' :: (List.intercalate ['\n'] b.lines ++ s)))))).takeWhile isSpaceC = ['\n'] := by
    rw [List.takeWhile_cons_of_pos (by decide), render_takeWhile_space]
  have e2 := tsMatch_render b.ts1 hsep1
    (' ' :: '-' :: '-' :: '>' :: ' ' :: (b.ts2.render b.sep2 ++
      ('\n' :: (List.intercalate ['\n'] b.lines ++ s))))
  have e3 : ((' ' : Char) :: '-' :: '-' :: '>' :: ' ' :: (b.ts2.render b.sep2 ++
      ('\n' :: (List.intercalate ['\n'] b.lines ++ s)))).dropWhile isSpaceC =
      '-' :: '-' :: '>' :: (' ' :: (b.ts2.render b.sep2 ++
        ('\n' :: (List.intercalate ['\n'] b.lines ++ s)))) := by
    rw [List.dropWhile_cons_of_pos (by decide), List.dropWhile_cons_of_neg (by decide)]
  have e4 : ((' ' : Char) :: (b.ts2.render b.sep2 ++
      ('\n' :: (List.intercalate ['\n'] b.lines ++ s)))).dropWhile isSpaceC =
      b.ts2.render b.sep2 ++ ('\n' :: (List.intercalate ['\n'] b.lines ++ s)) := by
    rw [List.dropWhile_cons_of_pos (by decide), render_dropWhile_space]
  have e5 := tsMatch_render b.ts2 hsep2 ('\n' :: (List.intercalate ['\n'] b.lines ++ s))
  have e6 : (('\n' : Char) :: (List.intercalate ['\n'] b.lines ++ s)).takeWhile isSpaceC =
      ['\n'] := by
    rw [List.takeWhile_cons_of_pos (by decide), hBFtw]
  have e7 : afterLastNl ['\n'] = [] := rfl
  have e8 : nlSuffixes ['\n'] = [[]] := rfl
  unfold matchAfterIdx
  rw [e1]
  rw [if_neg (by decide)]
  rw [e7]
  simp only [List.length_singleton, List.drop_succ_cons, List.drop_zero, List.nil_append]
  rw [e2]
  simp only []
  rw [e3]
  simp only []
  rw [e4, e5]
  simp only []
  rw [e6, e8]
  simp only [List.reverse_singleton, List.length_singleton, List.drop_succ_cons,
    List.drop_zero]
  rw [htry]

theorem matchBlockAt_render (b : CanonBlock) (hb : goodBlock b) (s : List Char)
    (hs : s = [] ∨ ∃ c w, s = '\n' :: '\n' :: (c :: w) ∧ isSpaceC c = false ∧
      ts8 (c :: w) = false) :
    matchBlockAt (renderBlock b ++ s) =
      some (natDigits b.index, b.ts1.render b.sep1, b.ts2.render b.sep2,
        List.intercalate ['\n'] b.lines ++ s.take 1, s.drop 1) := by
  have hB : renderBlock b ++ s = natDigits b.index ++ ('\n' :: (b.ts1.render b.sep1 ++
      (' ' :: '-' :: '-' :: '>' :: ' ' :: (b.ts2.render b.sep2 ++
        ('\n' :: (List.intercalate ['\n'] b.lines ++ s)))))) := by
    simp [renderBlock, List.cons_append, List.append_assoc]
  have htw : (renderBlock b ++ s).takeWhile isDigitC = natDigits b.index := by
    rw [hB]
    exact takeWhile_append_stop (natDigits_all_digits _)
      (by rw [List.takeWhile_cons_of_neg (by decide)])
  have hdrop : (renderBlock b ++ s).drop (natDigits b.index).length =
      '\n' :: (b.ts1.render b.sep1 ++
        (' ' :: '-' :: '-' :: '>' :: ' ' :: (b.ts2.render b.sep2 ++
          ('\n' :: (List.intercalate ['\n'] b.lines ++ s))))) := by
    rw [hB]
    exact List.drop_left _ _
  unfold matchBlockAt
  rw [htw, if_neg (natDigits_ne_nil _), hdrop, matchAfterIdx_render b hb s hs]

/-! #### The sanitizer on a canonical body -/

theorem tagSub_append_nl_aux : ∀ (n : Nat) (x : List Char), x.length ≤ n →
    tagSub (x ++ ['\n']) = tagSub x ++ ['\n'] := by
  intro n
  induction n with
  | zero =>
    intro x hx
    obtain rfl : x = [] := List.length_eq_zero.1 (Nat.le_zero.1 hx)
    simp only [List.nil_append, tagSub_nil]
    rw [tagSub_cons [] (by decide) (by decide), tagSub_nil]
  | succ n ih =>
    intro x hx
    cases x with
    | nil =>
      simp only [List.nil_append, tagSub_nil]
      rw [tagSub_cons [] (by decide) (by decide), tagSub_nil]
    | cons c t =>
      have ht : t.length ≤ n := by simpa using hx
      simp only [List.cons_append]
      by_cases h1 : c = '<'
      · subst h1
        rw [tagSub_lt, tagSub_lt]
        by_cases hfull : (t.takeWhile (fun x => x ≠ '>')).length = t.length
        · have htw : (t ++ ['\n']).takeWhile (fun x => x ≠ '>') = t ++ ['\n'] := by
            rw [List.takeWhile_append, if_pos hfull,
              show List.takeWhile (fun x => x ≠ '>') ['\n'] = ['\n'] from by decide]
          rw [htw, if_pos (Or.inr rfl), if_pos (Or.inr hfull), List.cons_append, ih t ht]
        · have htw : (t ++ ['\n']).takeWhile (fun x => x ≠ '>') =
              t.takeWhile (fun x => x ≠ '>') := by
            rw [List.takeWhile_append, if_neg hfull]
          have hklt : (t.takeWhile (fun x => x ≠ '>')).length < t.length :=
            lt_of_le_of_ne (takeWhile_len_le _ t) hfull
          rw [htw]
          by_cases hzero : (t.takeWhile (fun x => x ≠ '>')).length = 0
          · rw [if_pos (Or.inl hzero), if_pos (Or.inl hzero), List.cons_append, ih t ht]
          · have hc1 : ¬((t.takeWhile (fun x => x ≠ '>')).length = 0 ∨
                (t.takeWhile (fun x => x ≠ '>')).length = (t ++ ['\n']).length) := by
              push_neg
              refine ⟨hzero, ?_⟩
              simp only [List.length_append, List.length_singleton]
              omega
            have hc2 : ¬((t.takeWhile (fun x => x ≠ '>')).length = 0 ∨
                (t.takeWhile (fun x => x ≠ '>')).length = t.length) := by
              push_neg
              exact ⟨hzero, hfull⟩
            rw [if_neg hc1, if_neg hc2]
            have hdrop2 : (t ++ ['\n']).drop ((t.takeWhile (fun x => x ≠ '>')).length + 1) =
                t.drop ((t.takeWhile (fun x => x ≠ '>')).length + 1) ++ ['\n'] := by
              rw [List.drop_append_eq_append_drop, Nat.sub_eq_zero_of_le (by omega),
                List.drop_zero]
            rw [hdrop2, ih _ (le_trans (drop_len_le _ _) ht)]
      · by_cases h2 : c = '{'
        · subst h2
          rw [tagSub_brace, tagSub_brace]
          by_cases hfull : (t.takeWhile (fun x => x ≠ '}')).length = t.length
          · have htw : (t ++ ['\n']).takeWhile (fun x => x ≠ '}') = t ++ ['\n'] := by
              rw [List.takeWhile_append, if_pos hfull,
                show List.takeWhile (fun x => x ≠ '}') ['\n'] = ['\n'] from by decide]
            rw [htw, if_pos (Or.inr rfl), if_pos (Or.inr hfull), List.cons_append, ih t ht]
          · have htw : (t ++ ['\n']).takeWhile (fun x => x ≠ '}') =
                t.takeWhile (fun x => x ≠ '}') := by
              rw [List.takeWhile_append, if_neg hfull]
            have hklt : (t.takeWhile (fun x => x ≠ '}')).length < t.length :=
              lt_of_le_of_ne (takeWhile_len_le _ t) hfull
            rw [htw]
            by_cases hzero : (t.takeWhile (fun x => x ≠ '}')).length = 0
            · rw [if_pos (Or.inl hzero), if_pos (Or.inl hzero), List.cons_append, ih t ht]
            · have hc1 : ¬((t.takeWhile (fun x => x ≠ '}')).length = 0 ∨
                  (t.takeWhile (fun x => x ≠ '}')).length = (t ++ ['\n']).length) := by
                push_neg
                refine ⟨hzero, ?_⟩
                simp only [List.length_append, List.length_singleton]
                omega
              have hc2 : ¬((t.takeWhile (fun x => x ≠ '}')).length = 0 ∨
                  (t.takeWhile (fun x => x ≠ '}')).length = t.length) := by
                push_neg
                exact ⟨hzero, hfull⟩
              rw [if_neg hc1, if_neg hc2]
              have hdrop2 : (t ++ ['\n']).drop ((t.takeWhile (fun x => x ≠ '}')).length + 1) =
                  t.drop ((t.takeWhile (fun x => x ≠ '}')).length + 1) ++ ['\n'] := by
                rw [List.drop_append_eq_append_drop, Nat.sub_eq_zero_of_le (by omega),
                  List.drop_zero]
              rw [hdrop2, ih _ (le_trans (drop_len_le _ _) ht)]
        · rw [tagSub_cons _ h1 h2, tagSub_cons _ h1 h2, List.cons_append, ih t ht]

theorem tagSub_append_nl (x : List Char) : tagSub (x ++ ['\n']) = tagSub x ++ ['\n'] :=
  tagSub_append_nl_aux x.length x (le_refl _)

theorem pyStrip_append_nl {y : List Char} (hstrip : pyStrip y = y) (hne : y ≠ []) :
    pyStrip (y ++ ['\n']) = y := by
  have hf := pyStrip_eq_self_facts hstrip
  unfold pyStrip
  rw [dropWhile_eq_self_of_takeWhile_nil (takeWhile_append_nil _ hne hf.1),
    List.reverse_append, show (['\n'] : List Char).reverse = ['\n'] from rfl,
    List.singleton_append, List.dropWhile_cons_of_pos (by decide),
    dropWhile_eq_self_of_takeWhile_nil hf.2, List.reverse_reverse]

theorem cleanSubtitleText_core {y : List Char}
    (hl : ∀ l' ∈ splitLines y, l' ≠ [] ∧ pyStrip l' = l') :
    List.intercalate ['\n'] (((splitLines y).map pyStrip).filter (fun l => l ≠ [])) = y := by
  have h2 : ∀ a ∈ splitLines y, pyStrip a = id a := fun l hlm => (hl l hlm).2
  rw [List.map_congr_left h2, List.map_id,
    List.filter_eq_self.2 (fun a ha => by simp [(hl a ha).1]), splitLines_join]

theorem cleanSubtitleText_good {x : List Char}
    (hsan : ∀ l' ∈ splitLines (tagSub x), l' ≠ [] ∧ pyStrip l' = l') :
    cleanSubtitleText x = tagSub x ∧ tagSub x ≠ [] := by
  have hstrip : pyStrip (tagSub x) = tagSub x := stripped_of_lines hsan
  have hne : tagSub x ≠ [] := by
    intro he
    have hmem : ([] : List Char) ∈ splitLines (tagSub x) := by
      rw [he]
      simp [splitLines]
    exact (hsan [] hmem).1 rfl
  refine ⟨?_, hne⟩
  show List.intercalate ['\n']
    (((splitLines (pyStrip (tagSub x))).map pyStrip).filter (fun l => l ≠ [])) = tagSub x
  rw [hstrip, cleanSubtitleText_core hsan]

theorem cleanSubtitleText_good_nl {x : List Char}
    (hsan : ∀ l' ∈ splitLines (tagSub x), l' ≠ [] ∧ pyStrip l' = l') :
    cleanSubtitleText (x ++ ['\n']) = tagSub x := by
  have hstrip : pyStrip (tagSub x) = tagSub x := stripped_of_lines hsan
  have hne : tagSub x ≠ [] := by
    intro he
    have hmem : ([] : List Char) ∈ splitLines (tagSub x) := by
      rw [he]
      simp [splitLines]
    exact (hsan [] hmem).1 rfl
  show List.intercalate ['\n']
    (((splitLines (pyStrip (tagSub (x ++ ['\n'])))).map pyStrip).filter (fun l => l ≠ [])) =
    tagSub x
  rw [tagSub_append_nl, pyStrip_append_nl hstrip hne, cleanSubtitleText_core hsan]

/-! #### Rendered documents under the content normalizers -/

theorem renderBlock_decomp (b : CanonBlock) :
    renderBlock b = natDigits b.index ++ ('\n' :: (b.ts1.render b.sep1 ++
      (' ' :: '-' :: '-' :: '>' :: ' ' :: (b.ts2.render b.sep2 ++
        ('\n' :: List.intercalate ['\n'] b.lines))))) := by
  simp [renderBlock, List.cons_append, List.append_assoc]

theorem renderBlock_decomp2 (b : CanonBlock) :
    renderBlock b = (natDigits b.index ++ ('\n' :: (b.ts1.render b.sep1 ++
      (' ' :: '-' :: '-' :: '>' :: ' ' :: (b.ts2.render b.sep2 ++ ['\n']))))) ++
      List.intercalate ['\n'] b.lines := by
  simp [renderBlock, List.cons_append, List.append_assoc]

theorem renderDoc_cons_shape (b : CanonBlock) (bs : List CanonBlock) :
    ∃ v, renderDoc (b :: bs) = natDigits b.index ++ ('\n' :: v) := by
  cases bs with
  | nil =>
    exact ⟨_, renderBlock_decomp b⟩
  | cons b2 bs2 =>
    refine ⟨b.ts1.render b.sep1 ++ (' ' :: '-' :: '-' :: '>' :: ' ' :: (b.ts2.render b.sep2 ++
      ('\n' :: (List.intercalate ['\n'] b.lines ++
        '\n' :: '\n' :: renderDoc (b2 :: bs2))))), ?_⟩
    show renderBlock b ++ '\n' :: '\n' :: renderDoc (b2 :: bs2) = _
    simp [renderBlock, List.cons_append, List.append_assoc]

theorem natDigits_cons (n : Nat) :
    ∃ d0 ds, natDigits n = d0 :: ds ∧ isDigitC d0 = true := by
  cases hm : natDigits n with
  | nil => exact absurd hm (natDigits_ne_nil n)
  | cons d0 ds =>
    exact ⟨d0, ds, rfl, natDigits_all_digits n d0 (hm ▸ List.mem_cons_self _ _)⟩

theorem digit_ne {c d : Char} (h : isDigitC c = true) (hd : isDigitC d = false) : c ≠ d := by
  intro he
  rw [he, hd] at h
  cases h

theorem cr_ne_digitChar (d : Nat) : ('\r' : Char) ≠ digitChar d := by
  intro he
  have h := digitChar_isDigit d
  rw [← he] at h
  exact absurd h (by decide)

theorem mem_render {c : Char} {t : TsStamp} {sep : Char} (h : c ∈ t.render sep) :
    (∃ d, c = digitChar d) ∨ c = ':' ∨ c = sep := by
  rw [TsStamp.render] at h
  rcases List.mem_cons.1 h with rfl | h
  · exact Or.inl ⟨t.h1, rfl⟩
  rcases List.mem_cons.1 h with rfl | h
  · exact Or.inl ⟨t.h2, rfl⟩
  rcases List.mem_cons.1 h with rfl | h
  · exact Or.inr (Or.inl rfl)
  rcases List.mem_cons.1 h with rfl | h
  · exact Or.inl ⟨t.m1, rfl⟩
  rcases List.mem_cons.1 h with rfl | h
  · exact Or.inl ⟨t.m2, rfl⟩
  rcases List.mem_cons.1 h with rfl | h
  · exact Or.inr (Or.inl rfl)
  rcases List.mem_cons.1 h with rfl | h
  · exact Or.inl ⟨t.s1, rfl⟩
  rcases List.mem_cons.1 h with rfl | h
  · exact Or.inl ⟨t.s2, rfl⟩
  rcases List.mem_cons.1 h with rfl | h
  · exact Or.inr (Or.inr rfl)
  rcases List.mem_cons.1 h with rfl | h
  · exact Or.inl ⟨t.f1, rfl⟩
  rcases List.mem_cons.1 h with rfl | h
  · exact Or.inl ⟨t.f2, rfl⟩
  rcases List.mem_cons.1 h with rfl | h
  · exact Or.inl ⟨t.f3, rfl⟩
  cases h

theorem render_no_cr {t : TsStamp} {sep : Char} (hsep : sep = ',' ∨ sep = '.') :
    '\r' ∉ t.render sep := by
  intro h
  rcases mem_render h with ⟨d, hd⟩ | h2 | h2
  · exact cr_ne_digitChar d hd
  · exact absurd h2 (by decide)
  · rcases hsep with rfl | rfl <;> exact absurd h2 (by decide)

theorem renderBlock_no_cr {b : CanonBlock} (hb : goodBlock b) : '\r' ∉ renderBlock b := by
  obtain ⟨_, hsep1, hsep2, _, hgood, _, _⟩ := hb
  intro hmem
  rw [renderBlock_decomp] at hmem
  rcases List.mem_append.1 hmem with h | h
  · exact absurd (natDigits_all_digits _ '\r' h) (by decide)
  · rcases List.mem_cons.1 h with h | h
    · exact absurd h (by decide)
    · rcases List.mem_append.1 h with h | h
      · exact render_no_cr hsep1 h
      · rcases List.mem_cons.1 h with h | h
        · exact absurd h (by decide)
        · rcases List.mem_cons.1 h with h | h
          · exact absurd h (by decide)
          · rcases List.mem_cons.1 h with h | h
            · exact absurd h (by decide)
            · rcases List.mem_cons.1 h with h | h
              · exact absurd h (by decide)
              · rcases List.mem_cons.1 h with h | h
                · exact absurd h (by decide)
                · rcases List.mem_append.1 h with h | h
                  · exact render_no_cr hsep2 h
                  · rcases List.mem_cons.1 h with h | h
                    · exact absurd h (by decide)
                    · rcases mem_intercalate_nl h with h | ⟨m, hm, hcm⟩
                      · exact absurd h (by decide)
                      · exact (hgood m hm).2.2.1 hcm

theorem intercalate_strip_facts {lines : List (List Char)} (hne : lines ≠ [])
    (hg : ∀ l ∈ lines, goodLine l) :
    List.intercalate ['\n'] lines ≠ [] ∧
    (List.intercalate ['\n'] lines).takeWhile isSpaceC = [] ∧
    (List.intercalate ['\n'] lines).reverse.takeWhile isSpaceC = [] := by
  have hsl : splitLines (List.intercalate ['\n'] lines) = lines :=
    splitLines_intercalate (fun l hl => (hg l hl).2.1) hne
  have hstrip : pyStrip (List.intercalate ['\n'] lines) = List.intercalate ['\n'] lines := by
    apply stripped_of_lines
    rw [hsl]
    exact fun l hl => ⟨(hg l hl).1, (hg l hl).2.2.2⟩
  have hfacts := pyStrip_eq_self_facts hstrip
  refine ⟨?_, hfacts.1, hfacts.2⟩
  intro he
  rw [he] at hsl
  have : ([] : List Char) ∈ lines := by
    rw [← hsl]
    simp [splitLines]
  exact (hg [] this).1 rfl

theorem renderBlock_facts {b : CanonBlock} (hb : goodBlock b) :
    renderBlock b ≠ [] ∧ (renderBlock b).takeWhile isSpaceC = [] ∧
    (renderBlock b).reverse.takeWhile isSpaceC = [] ∧
    (renderBlock b).takeWhile (fun c => c = '﻿') = [] := by
  obtain ⟨d0, ds, hnd, hd0⟩ := natDigits_cons b.index
  have hIL := intercalate_strip_facts hb.2.2.2.1 hb.2.2.2.2.1
  have hcons : ∃ w, renderBlock b = d0 :: w := by
    rw [renderBlock_decomp, hnd]
    exact ⟨_, rfl⟩
  obtain ⟨w, hw⟩ := hcons
  refine ⟨by rw [hw]; simp, ?_, ?_, ?_⟩
  · rw [hw, List.takeWhile_cons_of_neg (by simp [isSpaceC_false_of_digit hd0])]
  · rw [renderBlock_decomp2, List.reverse_append]
    refine takeWhile_append_nil _ (by simp [hIL.1]) hIL.2.2
  · rw [hw, List.takeWhile_cons_of_neg (by
      simp only [decide_eq_true_eq]
      exact digit_ne hd0 (show isDigitC '﻿' = false from by decide))]

theorem renderDoc_norm_facts : ∀ (bs : List CanonBlock), bs ≠ [] →
    (∀ b ∈ bs, goodBlock b) →
    renderDoc bs ≠ [] ∧ (renderDoc bs).takeWhile isSpaceC = [] ∧
    (renderDoc bs).reverse.takeWhile isSpaceC = [] ∧ '\r' ∉ renderDoc bs ∧
    (renderDoc bs).takeWhile (fun c => c = '﻿') = [] := by
  intro bs
  induction bs with
  | nil => intro h _; exact absurd rfl h
  | cons b bs2 ih =>
    intro _ hg
    have hb : goodBlock b := hg b (List.mem_cons_self _ _)
    have hrb := renderBlock_facts hb
    cases bs2 with
    | nil =>
      exact ⟨hrb.1, hrb.2.1, hrb.2.2.1, renderBlock_no_cr hb, hrb.2.2.2⟩
    | cons b2 bs3 =>
      have ih2 := ih (by simp) (fun x hx => hg x (List.mem_cons_of_mem _ hx))
      have hdoc : renderDoc (b :: b2 :: bs3) =
          renderBlock b ++ '\n' :: '\n' :: renderDoc (b2 :: bs3) := rfl
      refine ⟨?_, ?_, ?_, ?_, ?_⟩
      · rw [hdoc]
        simp [hrb.1]
      · rw [hdoc]
        exact takeWhile_append_nil _ hrb.1 hrb.2.1
      · rw [hdoc, List.reverse_append,
          show (('\n' : Char) :: '\n' :: renderDoc (b2 :: bs3)).reverse =
            (renderDoc (b2 :: bs3)).reverse ++ ['\n', '\n'] from by simp,
          List.append_assoc]
        exact takeWhile_append_nil _ (by simp [ih2.1]) ih2.2.2.1
      · rw [hdoc]
        intro hmem
        rcases List.mem_append.1 hmem with h | h
        · exact renderBlock_no_cr hb h
        · rcases List.mem_cons.1 h with h | h
          · exact absurd h (by decide)
          · rcases List.mem_cons.1 h with h | h
            · exact absurd h (by decide)
            · exact ih2.2.2.2.1 h
      · rw [hdoc]
        exact takeWhile_append_nil _ hrb.1 hrb.2.2.2

theorem cleanContent_eq_self {x : List Char} (hcr : '\r' ∉ x)
    (h1 : x.takeWhile isSpaceC = []) (h2 : x.reverse.takeWhile isSpaceC = [])
    (hbom : x.takeWhile (fun c => c = '﻿') = []) :
    cleanContent x = x ∧ cleanContentWeb x = x := by
  have hps := pyStrip_eq_self h1 h2
  have hb : lstripBOM x = x := dropWhile_eq_self_of_takeWhile_nil hbom
  unfold cleanContent cleanContentWeb
  rw [replCRLF_eq_self hcr, replCR_eq_self hcr, hb, hps, hb]
  exact ⟨rfl, rfl⟩

/-! #### The full pipeline on a rendered canonical document -/

theorem matchBlockAt_none_head {c : Char} {X : List Char} (h : isDigitC c = false) :
    matchBlockAt (c :: X) = none := by
  unfold matchBlockAt
  rw [List.takeWhile_cons_of_neg (by simp [h]), if_pos rfl]

theorem regexParse_renderDoc : ∀ (bs : List CanonBlock), (∀ b ∈ bs, goodBlock b) →
    regexParse (renderDoc bs) = bs.map expectedRecord := by
  intro bs
  induction bs with
  | nil => intro _; rfl
  | cons b bs2 ih =>
    intro hg
    have hb : goodBlock b := hg b (List.mem_cons_self _ _)
    obtain ⟨hidx, hsep1, hsep2, hlne, hgood, hchain, hsan⟩ := hg b (List.mem_cons_self _ _)
    have hclean := cleanSubtitleText_good hsan
    have hcleannl := cleanSubtitleText_good_nl hsan
    obtain ⟨d0, ds, hnd, hd0⟩ := natDigits_cons b.index
    cases bs2 with
    | nil =>
      have hm := matchBlockAt_render b hb [] (Or.inl rfl)
      have hm2 : matchBlockAt (renderDoc [b]) =
          some (natDigits b.index, b.ts1.render b.sep1, b.ts2.render b.sep2,
            List.intercalate ['\n'] b.lines, []) := by
        show matchBlockAt (renderBlock b) = _
        rw [← List.append_nil (renderBlock b), hm]
        simp
      obtain ⟨v, hv⟩ := renderDoc_cons_shape b []
      rw [hnd, List.cons_append] at hv
      rw [hv] at hm2
      unfold regexParse
      rw [hv, scanBlocks_some hm2, scanBlocks_nil]
      simp only [List.filterMap_cons, List.filterMap_nil]
      rw [hclean.1, if_neg hclean.2, natOfDigits_natDigits,
        commaToDot_render b.ts1 hsep1, commaToDot_render b.ts2 hsep2]
      rfl
    | cons b2 bs3 =>
      obtain ⟨v2, hv2⟩ := renderDoc_cons_shape b2 bs3
      obtain ⟨e0, es, hne2, he0⟩ := natDigits_cons b2.index
      have hs : ('\n' :: '\n' :: renderDoc (b2 :: bs3)) =
          '\n' :: '\n' :: (e0 :: (es ++ '\n' :: v2)) := by
        rw [hv2, hne2, List.cons_append]
      have hsgood : isSpaceC e0 = false := isSpaceC_false_of_digit he0
      have hts : ts8 (e0 :: (es ++ '\n' :: v2)) = false := by
        rw [show e0 :: (es ++ '\n' :: v2) = (e0 :: es) ++ '\n' :: v2 from by
          rw [List.cons_append]]
        exact ts8_digits_nl_false (by simp) (by rw [← hne2]; exact natDigits_all_digits _)
      have hm := matchBlockAt_render b hb ('\n' :: '\n' :: renderDoc (b2 :: bs3))
        (Or.inr ⟨e0, es ++ '\n' :: v2, hs, hsgood, hts⟩)
      have hm2 : matchBlockAt (renderDoc (b :: b2 :: bs3)) =
          some (natDigits b.index, b.ts1.render b.sep1, b.ts2.render b.sep2,
            List.intercalate ['\n'] b.lines ++ ['\n'], '\n' :: renderDoc (b2 :: bs3)) := by
        show matchBlockAt (renderBlock b ++ '\n' :: '\n' :: renderDoc (b2 :: bs3)) = _
        rw [hm]
        rfl
      obtain ⟨u, hu⟩ := renderDoc_cons_shape b (b2 :: bs3)
      rw [hnd, List.cons_append] at hu
      rw [hu] at hm2
      have hnone : matchBlockAt ('\n' :: renderDoc (b2 :: bs3)) = none :=
        matchBlockAt_none_head (by decide)
      unfold regexParse
      rw [hu, scanBlocks_some hm2, scanBlocks_none hnone]
      simp only [List.filterMap_cons]
      rw [hcleannl, if_neg hclean.2]
      have hihr := ih (fun x hx => hg x (List.mem_cons_of_mem _ hx))
      unfold regexParse at hihr
      rw [hihr, natOfDigits_natDigits, commaToDot_render b.ts1 hsep1,
        commaToDot_render b.ts2 hsep2]
      rfl

theorem regexParseWeb_renderDoc : ∀ (bs : List CanonBlock), (∀ b ∈ bs, goodBlock b) →
    regexParseWeb (renderDoc bs) = bs.map expectedRecord := by
  intro bs
  induction bs with
  | nil => intro _; rfl
  | cons b bs2 ih =>
    intro hg
    have hb : goodBlock b := hg b (List.mem_cons_self _ _)
    obtain ⟨hidx, hsep1, hsep2, hlne, hgood, hchain, hsan⟩ := hg b (List.mem_cons_self _ _)
    have hclean := cleanSubtitleText_good hsan
    have hcleannl := cleanSubtitleText_good_nl hsan
    obtain ⟨d0, ds, hnd, hd0⟩ := natDigits_cons b.index
    cases bs2 with
    | nil =>
      have hm := matchBlockAt_render b hb [] (Or.inl rfl)
      have hm2 : matchBlockAt (renderDoc [b]) =
          some (natDigits b.index, b.ts1.render b.sep1, b.ts2.render b.sep2,
            List.intercalate ['\n'] b.lines, []) := by
        show matchBlockAt (renderBlock b) = _
        rw [← List.append_nil (renderBlock b), hm]
        simp
      obtain ⟨v, hv⟩ := renderDoc_cons_shape b []
      rw [hnd, List.cons_append] at hv
      rw [hv] at hm2
      unfold regexParseWeb
      rw [hv, scanBlocks_some hm2, scanBlocks_nil]
      simp only [List.map_cons, List.map_nil]
      rw [hclean.1, natOfDigits_natDigits,
        commaToDot_render b.ts1 hsep1, commaToDot_render b.ts2 hsep2]
      rfl
    | cons b2 bs3 =>
      obtain ⟨v2, hv2⟩ := renderDoc_cons_shape b2 bs3
      obtain ⟨e0, es, hne2, he0⟩ := natDigits_cons b2.index
      have hs : ('\n' :: '\n' :: renderDoc (b2 :: bs3)) =
          '\n' :: '\n' :: (e0 :: (es ++ '\n' :: v2)) := by
        rw [hv2, hne2, List.cons_append]
      have hsgood : isSpaceC e0 = false := isSpaceC_false_of_digit he0
      have hts : ts8 (e0 :: (es ++ '\n' :: v2)) = false := by
        rw [show e0 :: (es ++ '\n' :: v2) = (e0 :: es) ++ '\n' :: v2 from by
          rw [List.cons_append]]
        exact ts8_digits_nl_false (by simp) (by rw [← hne2]; exact natDigits_all_digits _)
      have hm := matchBlockAt_render b hb ('\n' :: '\n' :: renderDoc (b2 :: bs3))
        (Or.inr ⟨e0, es ++ '\n' :: v2, hs, hsgood, hts⟩)
      have hm2 : matchBlockAt (renderDoc (b :: b2 :: bs3)) =
          some (natDigits b.index, b.ts1.render b.sep1, b.ts2.render b.sep2,
            List.intercalate ['\n'] b.lines ++ ['\n'], '\n' :: renderDoc (b2 :: bs3)) := by
        show matchBlockAt (renderBlock b ++ '\n' :: '\n' :: renderDoc (b2 :: bs3)) = _
        rw [hm]
        rfl
      obtain ⟨u, hu⟩ := renderDoc_cons_shape b (b2 :: bs3)
      rw [hnd, List.cons_append] at hu
      rw [hu] at hm2
      have hnone : matchBlockAt ('\n' :: renderDoc (b2 :: bs3)) = none :=
        matchBlockAt_none_head (by decide)
      unfold regexParseWeb
      rw [hu, scanBlocks_some hm2, scanBlocks_none hnone]
      simp only [List.map_cons]
      rw [hcleannl]
      have hihr := ih (fun x hx => hg x (List.mem_cons_of_mem _ hx))
      unfold regexParseWeb at hihr
      rw [hihr, natOfDigits_natDigits, commaToDot_render b.ts1 hsep1,
        commaToDot_render b.ts2 hsep2]
      rfl

theorem parse_renderDoc (bs : List CanonBlock) (hg : ∀ b ∈ bs, goodBlock b) :
    parseContentFile (renderDoc bs) = bs.map expectedRecord ∧
    parseContentWeb (renderDoc bs) = bs.map expectedRecord := by
  cases bs with
  | nil => exact ⟨rfl, rfl⟩
  | cons b bs2 =>
    have hnf := renderDoc_norm_facts (b :: bs2) (by simp) hg
    have hcc := cleanContent_eq_self hnf.2.2.2.1 hnf.2.1 hnf.2.2.1 hnf.2.2.2.2
    have hrp := regexParse_renderDoc (b :: bs2) hg
    have hrpw := regexParseWeb_renderDoc (b :: bs2) hg
    have hne : regexParse (renderDoc (b :: bs2)) ≠ [] := by
      rw [hrp]
      simp
    have hnew : regexParseWeb (renderDoc (b :: bs2)) ≠ [] := by
      rw [hrpw]
      simp
    refine ⟨?_, ?_⟩
    · show parseTiers (cleanContent (renderDoc (b :: bs2))) = _
      rw [hcc.1]
      unfold parseTiers
      rw [if_neg hne, hrp]
    · show parseTiersWeb (cleanContentWeb (renderDoc (b :: bs2))) = _
      rw [hcc.2]
      unfold parseTiersWeb
      rw [if_neg hnew, hrpw]

/-! ### Claims C1 and C3 -/

/-- C1 (amended round-trip): for every sequence of canonical blocks — positive
index, `DD:DD:DD{,|.}DDD --> DD:DD:DD{,|.}DDD` timestamps, non-empty stripped
single-line text lines none of which is a pure digit run followed by a
`DD:DD:DD`-shaped line, and a body whose tag-stripped form keeps every line
non-empty and stripped — with strictly increasing indices, both parsers return
exactly one record per block, in order, with the index value, the timestamps
with `,` rewritten to `.`, and the tag-stripped text. -/
theorem c1_round_trip (bs : List CanonBlock) (hg : ∀ b ∈ bs, goodBlock b)
    (hinc : List.Chain' (fun a b2 => a.index < b2.index) bs) :
    parseContentFile (renderDoc bs) = bs.map expectedRecord ∧
    parseContentWeb (renderDoc bs) = bs.map expectedRecord :=
  parse_renderDoc bs hg

/-- C1 counterexample to the literal claim: on the canonical single-block
document `"1\n00:00:00,000 --> 00:00:04,000\n<b></b>"` (one non-empty text
line) the desktop parser (`src/srt_parser.py`) yields zero records instead of
one — a block whose text is only markup is dropped entirely — while the web
parser (`src/app.py`) yields one record whose text is EMPTY, not the one-line
text the claim promises (and the two implementations disagree with each
other); and the canonical document `"1\n00:00:00,000 --> 00:00:04,000\n a"`
yields a record whose text is `"a"`, not the source text minus markup `" a"`:
the parsers also strip each text line. -/
theorem c1_counterexample :
    parseContentFile (String.toList "1\n00:00:00,000 --> 00:00:04,000\n<b></b>") = [] ∧
    parseContentWeb (String.toList "1\n00:00:00,000 --> 00:00:04,000\n<b></b>") =
      [⟨1, String.toList "00:00:00.000", String.toList "00:00:04.000", []⟩] ∧
    parseContentFile (String.toList "1\n00:00:00,000 --> 00:00:04,000\n a") =
      [⟨1, String.toList "00:00:00.000", String.toList "00:00:04.000", ['a']⟩] := by
  refine ⟨?_, ?_, ?_⟩ <;> decide

/-- A concrete canonical block (index 1, `00:00:00,000 --> 00:00:04,000`,
text `hi`) used to instantiate the round-trip theorem. -/
def c1Block : CanonBlock :=
  ⟨1, ⟨0, 0, 0, 0, 0, 0, 0, 0, 0⟩, ',', ⟨0, 0, 0, 0, 0, 4, 0, 0, 0⟩, ',', [['h', 'i']]⟩

theorem c1Block_good : goodBlock c1Block := by
  refine ⟨by decide, Or.inl rfl, Or.inl rfl, by decide, ?_, ?_, ?_⟩
  · intro l hl
    have h2 : c1Block.lines = [['h', 'i']] := rfl
    rw [h2] at hl
    rw [List.mem_singleton.1 hl]
    exact ⟨by decide, by decide, by decide, by decide⟩
  · have h2 : c1Block.lines = [['h', 'i']] := rfl
    rw [h2]
    simp
  · intro l' hl'
    have h2 : splitLines (tagSub (List.intercalate ['\n'] c1Block.lines)) = [['h', 'i']] := by
      decide
    rw [h2] at hl'
    rw [List.mem_singleton.1 hl']
    exact ⟨by decide, by decide⟩

theorem c1_round_trip_witness :
    (∀ b ∈ [c1Block], goodBlock b) ∧
    List.Chain' (fun a b2 => a.index < b2.index) [c1Block] ∧
    parseContentFile (renderDoc [c1Block]) = [c1Block].map expectedRecord ∧
    parseContentWeb (renderDoc [c1Block]) = [c1Block].map expectedRecord := by
  have hg : ∀ b ∈ [c1Block], goodBlock b := by
    intro x hx
    rw [List.mem_singleton.1 hx]
    exact c1Block_good
  have hch : List.Chain' (fun a b2 : CanonBlock => a.index < b2.index) [c1Block] := by simp
  exact ⟨hg, hch, (c1_round_trip [c1Block] hg hch).1, (c1_round_trip [c1Block] hg hch).2⟩

/-- C3: every record produced by the pattern tier (`_regex_parse`) or the
fallback tier (`_block_parse`) carries `start_time` and `end_time` of the exact
shape `DD:DD:DD.DDD`; and a canonical block written with `,` as the fractional
separator parses (through either full pipeline) to exactly the same records as
the otherwise-identical block written with `.`. -/
theorem c3_timestamp_invariant :
    (∀ (content : List Char) (e : SubtitleEntry), e ∈ regexParse content →
      isCanonTs e.start_time = true ∧ isCanonTs e.end_time = true) ∧
    (∀ (content : List Char) (e : SubtitleEntry), e ∈ blockParse content →
      isCanonTs e.start_time = true ∧ isCanonTs e.end_time = true) ∧
    (∀ b : CanonBlock, goodBlock b →
      parseContentFile (renderDoc [{ b with sep1 := ',', sep2 := ',' }]) =
        parseContentFile (renderDoc [{ b with sep1 := '.', sep2 := '.' }]) ∧
      parseContentWeb (renderDoc [{ b with sep1 := ',', sep2 := ',' }]) =
        parseContentWeb (renderDoc [{ b with sep1 := '.', sep2 := '.' }])) := by
  refine ⟨?_, ?_, ?_⟩
  · intro content e he
    rcases regexParse_mem he with ⟨d, g2, g3, body, hd, hdig, hg2, hg3, hb, he2⟩
    rw [he2]
    exact ⟨commaToDot_canon hg2, commaToDot_canon hg3⟩
  · intro content e he
    rcases blockParse_mem he with ⟨idx, g1, g2, rest, hg1, hg2, hcl, he2⟩
    rw [he2]
    exact ⟨commaToDot_canon hg1, commaToDot_canon hg2⟩
  · intro b hb
    obtain ⟨h1, _, _, h4, h5, h6, h7⟩ := hb
    have hbk : goodBlock { b with sep1 := ',', sep2 := ',' } :=
      ⟨h1, Or.inl rfl, Or.inl rfl, h4, h5, h6, h7⟩
    have hbd : goodBlock { b with sep1 := '.', sep2 := '.' } :=
      ⟨h1, Or.inr rfl, Or.inr rfl, h4, h5, h6, h7⟩
    have e1 := parse_renderDoc [{ b with sep1 := ',', sep2 := ',' }]
      (fun x hx => by rw [List.mem_singleton.1 hx]; exact hbk)
    have e2 := parse_renderDoc [{ b with sep1 := '.', sep2 := '.' }]
      (fun x hx => by rw [List.mem_singleton.1 hx]; exact hbd)
    exact ⟨e1.1.trans e2.1.symm, e1.2.trans e2.2.symm⟩

/-- A concrete canonical block (index 2, `00:00:01,000 --> 00:00:02,000`,
text `ok`) used to instantiate the separator-equivalence statement. -/
def c3Block : CanonBlock :=
  ⟨2, ⟨0, 0, 0, 0, 0, 1, 0, 0, 0⟩, ',', ⟨0, 0, 0, 0, 0, 2, 0, 0, 0⟩, ',', [['o', 'k']]⟩

theorem c3Block_good : goodBlock c3Block := by
  refine ⟨by decide, Or.inl rfl, Or.inl rfl, by decide, ?_, ?_, ?_⟩
  · intro l hl
    have h2 : c3Block.lines = [['o', 'k']] := rfl
    rw [h2] at hl
    rw [List.mem_singleton.1 hl]
    exact ⟨by decide, by decide, by decide, by decide⟩
  · have h2 : c3Block.lines = [['o', 'k']] := rfl
    rw [h2]
    simp
  · intro l' hl'
    have h2 : splitLines (tagSub (List.intercalate ['\n'] c3Block.lines)) = [['o', 'k']] := by
      decide
    rw [h2] at hl'
    rw [List.mem_singleton.1 hl']
    exact ⟨by decide, by decide⟩

theorem c3_timestamp_invariant_witness :
    parseContentFile (renderDoc [{ c3Block with sep1 := ',', sep2 := ',' }]) =
      parseContentFile (renderDoc [{ c3Block with sep1 := '.', sep2 := '.' }]) :=
  (c3_timestamp_invariant.2.2 c3Block c3Block_good).1

/-! ### Claim C7: the fallback block acceptance contract -/

theorem tsMatch_append {l g r : List Char} (e : List Char) (h : tsMatch l = some (g, r)) :
    tsMatch (l ++ e) = some (g, r ++ e) := by
  unfold tsMatch at h ⊢
  split at h
  · rename_i h1 h2 m1 m2 s1 s2 sep f1 f2 f3 rest
    split at h
    · rename_i hcond
      have hinj := Option.some.inj h
      injection hinj with e1 e2
      subst e1
      subst e2
      simp only [List.cons_append]
      rw [if_pos hcond]
    · cases h
  · cases h

theorem tsPairMatch_append {l : List Char} {p : List Char × List Char} (e : List Char)
    (h : tsPairMatch l = some p) : tsPairMatch (l ++ e) = some p := by
  unfold tsPairMatch at h ⊢
  split at h
  · cases h
  · rename_i g1 r1 hm
    split at h
    · rename_i r4 hdrop
      split at h
      · cases h
      · rename_i g2 r5 hm2
        have h12 := tsMatch_eq hm2
        have hne4 : r4.dropWhile isSpaceC ≠ [] := by
          rw [h12.2]
          intro hc
          have := congrArg List.length hc
          simp [h12.1] at this
        have hd1 : (r1 ++ e).dropWhile isSpaceC = '-' :: '-' :: '>' :: (r4 ++ e) := by
          rw [List.dropWhile_append, hdrop]
          simp
        have hd2 : (r4 ++ e).dropWhile isSpaceC = r4.dropWhile isSpaceC ++ e := by
          rw [List.dropWhile_append, if_neg (by simp [List.isEmpty_iff, hne4])]
        simp only [tsMatch_append e hm, hd1, hd2, tsMatch_append e hm2]
        exact h
    · cases h

/-- C7 (amended): a candidate block of the line-based fallback contributes a
record if and only if the stripped block is non-empty, splits into at least 3
lines, its first line (stripped) parses as a Python integer, its second line
STRIPPED — not the raw line — matches the timestamp-pair grammar anchored at
the start with trailing content ignored, and the remaining lines sanitize to
non-empty text; and the timestamp-pair match is insensitive to trailing
content appended after the pair.  (Records keep block order and failures only
skip the block: `_block_parse` is a filter-map over the `'\n\n'` split.) -/
theorem c7_fallback_contract :
    (∀ block : List Char, parseBlock block ≠ none ↔
      (pyStrip block ≠ [] ∧ 2 < (splitLines (pyStrip block)).length ∧
       pyInt (pyStrip ((splitLines (pyStrip block)).getD 0 [])) ≠ none ∧
       tsPairMatch (pyStrip ((splitLines (pyStrip block)).getD 1 [])) ≠ none ∧
       cleanSubtitleText (List.intercalate ['\n']
         ((splitLines (pyStrip block)).drop 2)) ≠ [])) ∧
    (∀ (l e : List Char) (p : List Char × List Char),
      tsPairMatch l = some p → tsPairMatch (l ++ e) = some p) := by
  constructor
  · intro block
    by_cases h0 : pyStrip block = []
    · unfold parseBlock
      rw [if_pos h0]
      simp [h0]
    · unfold parseBlock
      rw [if_neg h0]
      cases hsl : splitLines (pyStrip block) with
      | nil => exact absurd hsl (splitLines_ne_nil _)
      | cons l0 r0 =>
        cases r0 with
        | nil => simp [hsl]
        | cons l1 rest =>
          by_cases hr : rest = []
          · subst hr
            simp [hsl]
          · have hlen : 2 < (splitLines (pyStrip block)).length := by
              rw [hsl]
              cases rest with
              | nil => exact absurd rfl hr
              | cons a b =>
                simp [List.length_cons]
            cases hpi : pyInt (pyStrip l0) with
            | none => simp [hsl, hpi, hr]
            | some idx =>
              cases hts : tsPairMatch (pyStrip l1) with
              | none => simp [hsl, hpi, hts, hr]
              | some pq =>
                obtain ⟨g1, g2⟩ := pq
                by_cases hcl : cleanSubtitleText (List.intercalate ['\n'] rest) = []
                · simp [hsl, hpi, hts, hcl, hr]
                · simp only [hsl, hpi, hts, hcl, hr] at hlen ⊢
                  simp [hsl, hpi, hts, hcl, hr, h0]
                  cases rest with
                  | nil => exact absurd rfl hr
                  | cons a b => simp
  · intro l e p hp
    exact tsPairMatch_append e hp

/-- C7 counterexample to the literal claim: the block
`"2\n 00:00:00,000 --> 00:00:01,000\nhiya"` is accepted by the fallback tier
(and by the whole file pipeline) and contributes a record, although its second
line `" 00:00:00,000 --> 00:00:01,000"` does NOT match the timestamp-pair
grammar anchored at the start of the line — the code strips the line before
matching, which the claim's acceptance contract omits. -/
theorem c7_counterexample :
    blockParse (String.toList "2\n 00:00:00,000 --> 00:00:01,000\nhiya") =
      [⟨2, String.toList "00:00:00.000", String.toList "00:00:01.000",
        String.toList "hiya"⟩] ∧
    tsPairMatch (String.toList " 00:00:00,000 --> 00:00:01,000") = none ∧
    parseContentFile (String.toList "2\n 00:00:00,000 --> 00:00:01,000\nhiya") =
      [⟨2, String.toList "00:00:00.000", String.toList "00:00:01.000",
        String.toList "hiya"⟩] := by
  refine ⟨?_, ?_, ?_⟩ <;> decide

theorem c7_fallback_contract_witness :
    parseBlock (String.toList "3\n 00:00:02,000 --> 00:00:03,000\nyo") ≠ none ∧
    tsPairMatch (String.toList "00:00:02,000 --> 00:00:03,000" ++ String.toList "###") =
      some (String.toList "00:00:02,000", String.toList "00:00:03,000") := by
  constructor
  · exact (c7_fallback_contract.1 _).2 ⟨by decide, by decide, by decide, by decide, by decide⟩
  · exact c7_fallback_contract.2 (String.toList "00:00:02,000 --> 00:00:03,000")
      (String.toList "###") _ (by decide)

/-! ### Claim C8: the primary tier's body boundary rule -/

/-- C8 (amended): at the start of a well-formed body line `l` followed by a
line `l2`, the body capture's stopping lookahead holds exactly when `l` is
purely digits AND the first eight characters of `l2` have the `DD:DD:DD`
shape (`ts8`) — the raw `\d{2}:\d{2}:\d{2}` prefix of the lookahead, NOT the
full timestamp-pair grammar the claim states; and wherever the lookahead
holds, the body engine consumes nothing, so a body never swallows a
following header position. -/
theorem c8_boundary_rule :
    (∀ (l l2 s : List Char), goodLine l → goodLine l2 →
      lookaheadHeader (l ++ '\n' :: (l2 ++ '\n' :: s)) = (allDigitsL l && ts8 l2)) ∧
    (∀ x : List Char, lookaheadHeader x = true → bodyScan x = ([], x)) := by
  constructor
  · intro l l2 s hgl hgl2
    by_cases had : allDigitsL l = true
    · have hne := hgl.1
      have hdig : ∀ c ∈ l, isDigitC c = true := by
        have h2 : l.all isDigitC = true := by
          unfold allDigitsL at had
          rw [Bool.and_eq_true] at had
          exact had.2
        exact fun c hc => List.all_eq_true.1 h2 c hc
      have hr0 : (('\n' : Char) :: (l2 ++ '\n' :: s)).takeWhile isDigitC = [] := by
        rw [List.takeWhile_cons_of_neg (by decide)]
      rw [lookaheadHeader_digits_eq _ hne hdig hr0, had, Bool.true_and]
      obtain ⟨c2, t2, hl2⟩ : ∃ c2 t2, l2 = c2 :: t2 := by
        cases hx : l2 with
        | nil => exact absurd hx hgl2.1
        | cons a b => exact ⟨a, b, rfl⟩
      have hc2 : isSpaceC c2 = false :=
        takeWhile_nil_head (hl2 ▸ (pyStrip_eq_self_facts hgl2.2.2.2).1)
      have hw : (('\n' : Char) :: (l2 ++ '\n' :: s)).takeWhile isSpaceC = ['\n'] := by
        rw [List.takeWhile_cons_of_pos (by decide), hl2, List.cons_append,
          List.takeWhile_cons_of_neg (by simp [hc2])]
      rw [hw, show afterLastNl ['\n'] = [] from rfl,
        show (['\n'] : List Char).contains '\n' = true from by decide, Bool.true_and]
      simp only [List.length_singleton, List.drop_succ_cons, List.drop_zero,
        List.nil_append]
      exact ts8_append_nl hgl2.2.1
    · have hf : allDigitsL l = false := Bool.eq_false_iff.mpr had
      rw [lookaheadHeader_false_of_not_digits ('\n' :: (l2 ++ '\n' :: s)) hgl hf, hf]
      simp
  · intro x hx
    cases x with
    | nil => exact absurd hx (by decide)
    | cons c t => exact bodyScan_stop (Or.inr hx)

/-- C8 counterexample to the literal claim: in the document whose first block's
text is followed by the lines `12` and `00:11:22 oops`, the body capture stops
at `12` — the first record's text is just `hello` — although `00:11:22 oops`
is NOT a valid timestamp pair, so by the claim those two lines should have
been consumed as text.  The lookahead fires on the bare `DD:DD:DD` prefix. -/
theorem c8_counterexample :
    regexParse (String.toList
        "1\n00:00:00,000 --> 00:00:01,000\nhello\n12\n00:11:22 oops\n\n2\n00:02:00,000 --> 00:02:03,000\nworld") =
      [⟨1, String.toList "00:00:00.000", String.toList "00:00:01.000",
        String.toList "hello"⟩,
       ⟨2, String.toList "00:02:00.000", String.toList "00:02:03.000",
        String.toList "world"⟩] ∧
    lookaheadHeader (String.toList
        "12\n00:11:22 oops\n\n2\n00:02:00,000 --> 00:02:03,000\nworld") = true ∧
    tsPairMatch (String.toList "00:11:22 oops") = none := by
  refine ⟨?_, ?_, ?_⟩ <;> decide

theorem c8_boundary_rule_witness :
    lookaheadHeader (String.toList "12" ++
        '\n' :: (String.toList "00:11:22 oops" ++ '\n' :: String.toList "x")) =
      (allDigitsL (String.toList "12") && ts8 (String.toList "00:11:22 oops")) ∧
    bodyScan (String.toList "7\n00:00:01") = ([], String.toList "7\n00:00:01") := by
  constructor
  · exact c8_boundary_rule.1 (String.toList "12") (String.toList "00:11:22 oops")
      (String.toList "x")
      ⟨by decide, by decide, by decide, by decide⟩
      ⟨by decide, by decide, by decide, by decide⟩
  · exact c8_boundary_rule.2 _ (by decide)

/-! ### Claim C9: isolation of a malformed block -/

theorem renderBlock_append_shape (b : CanonBlock) (X : List Char) :
    ∃ v, renderBlock b ++ X = natDigits b.index ++ ('\n' :: v) := by
  refine ⟨b.ts1.render b.sep1 ++ (' ' :: '-' :: '-' :: '>' :: ' ' :: (b.ts2.render b.sep2 ++
    ('\n' :: (List.intercalate ['\n'] b.lines ++ X)))), ?_⟩
  rw [renderBlock_decomp]
  simp [List.cons_append, List.append_assoc]

theorem scanBlocks_skip_nondigits : ∀ (u z : List Char),
    (∀ c ∈ u, isDigitC c = false) → scanBlocks (u ++ z) = scanBlocks z := by
  intro u
  induction u with
  | nil => intro z _; rw [List.nil_append]
  | cons c t ih =>
    intro z hu
    rw [List.cons_append,
      scanBlocks_none (matchBlockAt_none_head (hu c (List.mem_cons_self _ _)))]
    exact ih z (fun x hx => hu x (List.mem_cons_of_mem _ hx))

/-- C9 (amended): three canonical blocks with a malformed block interleaved —
one whose characters contain no digits at all (so its index line cannot parse
as an integer), beginning with a non-whitespace character and free of carriage
returns — parse, through both pipelines, to exactly the three records of the
valid blocks in original order: the malformed block is dropped locally and
parsing continues. -/
theorem c9_malformed_isolation (b1 b2 b3 : CanonBlock) (M : List Char)
    (h1 : goodBlock b1) (h2 : goodBlock b2) (h3 : goodBlock b3)
    (hM0 : ∃ m0 mt, M = m0 :: mt ∧ isSpaceC m0 = false)
    (hMd : ∀ c ∈ M, isDigitC c = false) (hMcr : '\r' ∉ M) :
    parseContentFile (renderBlock b1 ++ '\n' :: '\n' :: (renderBlock b2 ++ '\n' :: '\n' ::
        (M ++ '\n' :: '\n' :: renderBlock b3))) =
      [expectedRecord b1, expectedRecord b2, expectedRecord b3] ∧
    parseContentWeb (renderBlock b1 ++ '\n' :: '\n' :: (renderBlock b2 ++ '\n' :: '\n' ::
        (M ++ '\n' :: '\n' :: renderBlock b3))) =
      [expectedRecord b1, expectedRecord b2, expectedRecord b3] := by
  obtain ⟨m0, mt, hMeq, hm0sp⟩ := hM0
  have hsep11 := h1.2.1
  have hsep12 := h1.2.2.1
  have hsan1 := h1.2.2.2.2.2.2
  have hsep21 := h2.2.1
  have hsep22 := h2.2.2.1
  have hsan2 := h2.2.2.2.2.2.2
  have hsep31 := h3.2.1
  have hsep32 := h3.2.2.1
  have hsan3 := h3.2.2.2.2.2.2
  obtain ⟨e1h, e1t, hnd1, he1⟩ := natDigits_cons b1.index
  obtain ⟨e2h, e2t, hnd2, he2⟩ := natDigits_cons b2.index
  obtain ⟨e3h, e3t, hnd3, he3⟩ := natDigits_cons b3.index
  -- first block's match
  obtain ⟨v2, hv2⟩ := renderBlock_append_shape b2
    ('\n' :: '\n' :: (M ++ '\n' :: '\n' :: renderBlock b3))
  have hs1shape : ('\n' :: '\n' :: (renderBlock b2 ++ '\n' :: '\n' ::
      (M ++ '\n' :: '\n' :: renderBlock b3))) =
      '\n' :: '\n' :: (e2h :: (e2t ++ '\n' :: v2)) := by
    rw [hv2, hnd2, List.cons_append]
  have hts2 : ts8 (e2h :: (e2t ++ '\n' :: v2)) = false := by
    rw [show e2h :: (e2t ++ '\n' :: v2) = (e2h :: e2t) ++ '\n' :: v2 from by
      rw [List.cons_append]]
    exact ts8_digits_nl_false (by simp) (by rw [← hnd2]; exact natDigits_all_digits _)
  have hm1 := matchBlockAt_render b1 h1 _
    (Or.inr ⟨e2h, e2t ++ '\n' :: v2, hs1shape, isSpaceC_false_of_digit he2, hts2⟩)
  have hm1' : matchBlockAt (renderBlock b1 ++ '\n' :: '\n' :: (renderBlock b2 ++ '\n' :: '\n' ::
      (M ++ '\n' :: '\n' :: renderBlock b3))) =
      some (natDigits b1.index, b1.ts1.render b1.sep1, b1.ts2.render b1.sep2,
        List.intercalate ['\n'] b1.lines ++ ['\n'],
        '\n' :: (renderBlock b2 ++ '\n' :: '\n' :: (M ++ '\n' :: '\n' :: renderBlock b3))) := by
    rw [hm1]
    rfl
  -- second block's match
  have hs2shape : ('\n' :: '\n' :: (M ++ '\n' :: '\n' :: renderBlock b3)) =
      '\n' :: '\n' :: (m0 :: (mt ++ '\n' :: '\n' :: renderBlock b3)) := by
    rw [hMeq, List.cons_append]
  have hts3 : ts8 (m0 :: (mt ++ '\n' :: '\n' :: renderBlock b3)) = false :=
    ts8_false_head_nondigit (hMd m0 (hMeq ▸ List.mem_cons_self _ _))
  have hm2 := matchBlockAt_render b2 h2 _
    (Or.inr ⟨m0, mt ++ '\n' :: '\n' :: renderBlock b3, hs2shape, hm0sp, hts3⟩)
  have hm2' : matchBlockAt (renderBlock b2 ++ '\n' :: '\n' ::
      (M ++ '\n' :: '\n' :: renderBlock b3)) =
      some (natDigits b2.index, b2.ts1.render b2.sep1, b2.ts2.render b2.sep2,
        List.intercalate ['\n'] b2.lines ++ ['\n'],
        '\n' :: (M ++ '\n' :: '\n' :: renderBlock b3)) := by
    rw [hm2]
    rfl
  -- third block's match
  have hm3 := matchBlockAt_render b3 h3 [] (Or.inl rfl)
  have hm3' : matchBlockAt (renderBlock b3) =
      some (natDigits b3.index, b3.ts1.render b3.sep1, b3.ts2.render b3.sep2,
        List.intercalate ['\n'] b3.lines, []) := by
    rw [← List.append_nil (renderBlock b3), hm3]
    simp
  -- cons forms
  obtain ⟨u1, hu1⟩ := renderBlock_append_shape b1
    ('\n' :: '\n' :: (renderBlock b2 ++ '\n' :: '\n' :: (M ++ '\n' :: '\n' :: renderBlock b3)))
  rw [hnd1, List.cons_append] at hu1
  obtain ⟨u2, hu2⟩ := renderBlock_append_shape b2
    ('\n' :: '\n' :: (M ++ '\n' :: '\n' :: renderBlock b3))
  rw [hnd2, List.cons_append] at hu2
  obtain ⟨u3, hu3⟩ := renderBlock_append_shape b3 []
  rw [List.append_nil] at hu3
  rw [hnd3, List.cons_append] at hu3
  -- the scan
  have hscan : scanBlocks (renderBlock b1 ++ '\n' :: '\n' :: (renderBlock b2 ++ '\n' :: '\n' ::
      (M ++ '\n' :: '\n' :: renderBlock b3))) =
      [(natDigits b1.index, b1.ts1.render b1.sep1, b1.ts2.render b1.sep2,
        List.intercalate ['\n'] b1.lines ++ ['\n']),
       (natDigits b2.index, b2.ts1.render b2.sep1, b2.ts2.render b2.sep2,
        List.intercalate ['\n'] b2.lines ++ ['\n']),
       (natDigits b3.index, b3.ts1.render b3.sep1, b3.ts2.render b3.sep2,
        List.intercalate ['\n'] b3.lines)] := by
    rw [hu1] at hm1'
    rw [hu1, scanBlocks_some hm1',
      scanBlocks_none (matchBlockAt_none_head (show isDigitC '\n' = false from by decide))]
    rw [hu2] at hm2'
    rw [hu2, scanBlocks_some hm2',
      scanBlocks_none (matchBlockAt_none_head (show isDigitC '\n' = false from by decide)),
      scanBlocks_skip_nondigits M _ hMd,
      scanBlocks_none (matchBlockAt_none_head (show isDigitC '\n' = false from by decide)),
      scanBlocks_none (matchBlockAt_none_head (show isDigitC '\n' = false from by decide))]
    rw [hu3] at hm3'
    rw [hu3, scanBlocks_some hm3', scanBlocks_nil]
  -- the pattern tier's records
  have hreg : regexParse (renderBlock b1 ++ '\n' :: '\n' :: (renderBlock b2 ++ '\n' :: '\n' ::
      (M ++ '\n' :: '\n' :: renderBlock b3))) =
      [expectedRecord b1, expectedRecord b2, expectedRecord b3] := by
    unfold regexParse
    rw [hscan]
    simp only [List.filterMap_cons, List.filterMap_nil]
    rw [cleanSubtitleText_good_nl hsan1, if_neg (cleanSubtitleText_good hsan1).2,
      cleanSubtitleText_good_nl hsan2, if_neg (cleanSubtitleText_good hsan2).2,
      (cleanSubtitleText_good hsan3).1, if_neg (cleanSubtitleText_good hsan3).2,
      natOfDigits_natDigits, natOfDigits_natDigits, natOfDigits_natDigits,
      commaToDot_render b1.ts1 hsep11, commaToDot_render b1.ts2 hsep12,
      commaToDot_render b2.ts1 hsep21, commaToDot_render b2.ts2 hsep22,
      commaToDot_render b3.ts1 hsep31, commaToDot_render b3.ts2 hsep32]
    rfl
  -- the web pattern tier's records (no empty-text filter; same result since
  -- every good block's sanitized text is non-empty)
  have hregW : regexParseWeb (renderBlock b1 ++ '\n' :: '\n' :: (renderBlock b2 ++ '\n' :: '\n' ::
      (M ++ '\n' :: '\n' :: renderBlock b3))) =
      [expectedRecord b1, expectedRecord b2, expectedRecord b3] := by
    unfold regexParseWeb
    rw [hscan]
    simp only [List.map_cons, List.map_nil]
    rw [cleanSubtitleText_good_nl hsan1, cleanSubtitleText_good_nl hsan2,
      (cleanSubtitleText_good hsan3).1,
      natOfDigits_natDigits, natOfDigits_natDigits, natOfDigits_natDigits,
      commaToDot_render b1.ts1 hsep11, commaToDot_render b1.ts2 hsep12,
      commaToDot_render b2.ts1 hsep21, commaToDot_render b2.ts2 hsep22,
      commaToDot_render b3.ts1 hsep31, commaToDot_render b3.ts2 hsep32]
    rfl
  -- normalization is the identity on this document
  have hf1 := renderBlock_facts h1
  have hf3 := renderBlock_facts h3
  have hno_cr : '\r' ∉ (renderBlock b1 ++ '\n' :: '\n' :: (renderBlock b2 ++ '\n' :: '\n' ::
      (M ++ '\n' :: '\n' :: renderBlock b3))) := by
    intro hmem
    rcases List.mem_append.1 hmem with h | h
    · exact renderBlock_no_cr h1 h
    rcases List.mem_cons.1 h with h | h
    · exact absurd h (by decide)
    rcases List.mem_cons.1 h with h | h
    · exact absurd h (by decide)
    rcases List.mem_append.1 h with h | h
    · exact renderBlock_no_cr h2 h
    rcases List.mem_cons.1 h with h | h
    · exact absurd h (by decide)
    rcases List.mem_cons.1 h with h | h
    · exact absurd h (by decide)
    rcases List.mem_append.1 h with h | h
    · exact hMcr h
    rcases List.mem_cons.1 h with h | h
    · exact absurd h (by decide)
    rcases List.mem_cons.1 h with h | h
    · exact absurd h (by decide)
    exact renderBlock_no_cr h3 h
  have htw : (renderBlock b1 ++ '\n' :: '\n' :: (renderBlock b2 ++ '\n' :: '\n' ::
      (M ++ '\n' :: '\n' :: renderBlock b3))).takeWhile isSpaceC = [] :=
    takeWhile_append_nil _ hf1.1 hf1.2.1
  have hbomtw : (renderBlock b1 ++ '\n' :: '\n' :: (renderBlock b2 ++ '\n' :: '\n' ::
      (M ++ '\n' :: '\n' :: renderBlock b3))).takeWhile (fun c => c = '﻿') = [] :=
    takeWhile_append_nil _ hf1.1 hf1.2.2.2
  have hW : (renderBlock b1 ++ '\n' :: '\n' :: (renderBlock b2 ++ '\n' :: '\n' ::
      (M ++ '\n' :: '\n' :: renderBlock b3))) =
      (renderBlock b1 ++ '\n' :: '\n' :: (renderBlock b2 ++ '\n' :: '\n' ::
        (M ++ ['\n', '\n']))) ++ renderBlock b3 := by
    simp [List.cons_append, List.append_assoc]
  have hrev : (renderBlock b1 ++ '\n' :: '\n' :: (renderBlock b2 ++ '\n' :: '\n' ::
      (M ++ '\n' :: '\n' :: renderBlock b3))).reverse.takeWhile isSpaceC = [] := by
    rw [hW, List.reverse_append]
    exact takeWhile_append_nil _ (by simp [hf3.1]) hf3.2.2.1
  have hcc := cleanContent_eq_self hno_cr htw hrev hbomtw
  have hne : regexParse (renderBlock b1 ++ '\n' :: '\n' :: (renderBlock b2 ++ '\n' :: '\n' ::
      (M ++ '\n' :: '\n' :: renderBlock b3))) ≠ [] := by
    rw [hreg]
    simp
  have hneW : regexParseWeb (renderBlock b1 ++ '\n' :: '\n' :: (renderBlock b2 ++ '\n' :: '\n' ::
      (M ++ '\n' :: '\n' :: renderBlock b3))) ≠ [] := by
    rw [hregW]
    simp
  constructor
  · show parseTiers (cleanContent _) = _
    rw [hcc.1]
    unfold parseTiers
    rw [if_neg hne, hreg]
  · show parseTiersWeb (cleanContentWeb _) = _
    rw [hcc.2]
    unfold parseTiersWeb
    rw [if_neg hneW, hregW]

set_option maxRecDepth 20000 in
/-- C9 counterexample to the literal claim: three valid blocks with the
malformed block `x7\n00:00:05,000 --> 00:00:06,000\nbbb` interleaved parse to
FOUR records, not three: `findall` re-scans the malformed region, picks up
the digit tail `7` of the non-integer index `x7` as an index capture, and
emits a phantom record with index 7. -/
theorem c9_counterexample :
    parseContentFile (String.toList
        "1\n00:00:01,000 --> 00:00:02,000\naaa\n\nx7\n00:00:05,000 --> 00:00:06,000\nbbb\n\n2\n00:00:03,000 --> 00:00:04,000\nccc\n\n3\n00:00:07,000 --> 00:00:08,000\nddd") =
      [⟨1, String.toList "00:00:01.000", String.toList "00:00:02.000", String.toList "aaa"⟩,
       ⟨7, String.toList "00:00:05.000", String.toList "00:00:06.000", String.toList "bbb"⟩,
       ⟨2, String.toList "00:00:03.000", String.toList "00:00:04.000", String.toList "ccc"⟩,
       ⟨3, String.toList "00:00:07.000", String.toList "00:00:08.000", String.toList "ddd"⟩] := by
  decide

/-- Concrete canonical blocks (indices 1, 2, 3) used to instantiate the
malformed-block isolation theorem. -/
def c9B1 : CanonBlock :=
  ⟨1, ⟨0, 0, 0, 0, 0, 1, 0, 0, 0⟩, ',', ⟨0, 0, 0, 0, 0, 2, 0, 0, 0⟩, ',', [['a', 'a']]⟩

def c9B2 : CanonBlock :=
  ⟨2, ⟨0, 0, 0, 0, 0, 3, 0, 0, 0⟩, ',', ⟨0, 0, 0, 0, 0, 4, 0, 0, 0⟩, ',', [['b', 'b']]⟩

def c9B3 : CanonBlock :=
  ⟨3, ⟨0, 0, 0, 0, 0, 5, 0, 0, 0⟩, ',', ⟨0, 0, 0, 0, 0, 6, 0, 0, 0⟩, ',', [['c', 'c']]⟩

theorem c9B1_good : goodBlock c9B1 := by
  refine ⟨by decide, Or.inl rfl, Or.inl rfl, by decide, ?_, ?_, ?_⟩
  · intro l hl
    have h2 : c9B1.lines = [['a', 'a']] := rfl
    rw [h2] at hl
    rw [List.mem_singleton.1 hl]
    exact ⟨by decide, by decide, by decide, by decide⟩
  · have h2 : c9B1.lines = [['a', 'a']] := rfl
    rw [h2]
    simp
  · intro l' hl'
    have h2 : splitLines (tagSub (List.intercalate ['\n'] c9B1.lines)) = [['a', 'a']] := by
      decide
    rw [h2] at hl'
    rw [List.mem_singleton.1 hl']
    exact ⟨by decide, by decide⟩

theorem c9B2_good : goodBlock c9B2 := by
  refine ⟨by decide, Or.inl rfl, Or.inl rfl, by decide, ?_, ?_, ?_⟩
  · intro l hl
    have h2 : c9B2.lines = [['b', 'b']] := rfl
    rw [h2] at hl
    rw [List.mem_singleton.1 hl]
    exact ⟨by decide, by decide, by decide, by decide⟩
  · have h2 : c9B2.lines = [['b', 'b']] := rfl
    rw [h2]
    simp
  · intro l' hl'
    have h2 : splitLines (tagSub (List.intercalate ['\n'] c9B2.lines)) = [['b', 'b']] := by
      decide
    rw [h2] at hl'
    rw [List.mem_singleton.1 hl']
    exact ⟨by decide, by decide⟩

theorem c9B3_good : goodBlock c9B3 := by
  refine ⟨by decide, Or.inl rfl, Or.inl rfl, by decide, ?_, ?_, ?_⟩
  · intro l hl
    have h2 : c9B3.lines = [['c', 'c']] := rfl
    rw [h2] at hl
    rw [List.mem_singleton.1 hl]
    exact ⟨by decide, by decide, by decide, by decide⟩
  · have h2 : c9B3.lines = [['c', 'c']] := rfl
    rw [h2]
    simp
  · intro l' hl'
    have h2 : splitLines (tagSub (List.intercalate ['\n'] c9B3.lines)) = [['c', 'c']] := by
      decide
    rw [h2] at hl'
    rw [List.mem_singleton.1 hl']
    exact ⟨by decide, by decide⟩

theorem c9_malformed_isolation_witness :
    parseContentFile (renderBlock c9B1 ++ '\n' :: '\n' :: (renderBlock c9B2 ++ '\n' :: '\n' ::
        (['#', '!'] ++ '\n' :: '\n' :: renderBlock c9B3))) =
      [expectedRecord c9B1, expectedRecord c9B2, expectedRecord c9B3] :=
  (c9_malformed_isolation c9B1 c9B2 c9B3 ['#', '!'] c9B1_good c9B2_good c9B3_good
    ⟨'#', ['!'], rfl, by decide⟩ (by decide) (by decide)).1

end SrtSpec
